import Mathlib

/-! # OpenMal-Scan: signature scanner and directory monitor

A shallow embedding of `src/scanner.c` and `src/monitor.c`.

* A byte is a natural number; a `char *` is the list of bytes from the pointed-to
  position to the end of the array, and reading past the end yields 0 (`deref`).
  Pointer increment is `List.tail`.
* The C library string functions read a C string, that is the bytes before the first
  zero byte (`cstr`).
* A file is the list of its bytes; `fread` takes a prefix of it.
* The POSIX regex engine (`regcomp`, `regexec`) is not part of the repository; it is a
  parameter `re` which gives, for a pattern, `none` when compilation fails and the
  compiled matcher otherwise.
-/

namespace OpenMalScan

/-! ## Constants of `scanner.h` -/

/-- File read buffer size. -/
def BUFFER_SIZE : Nat := 4096

/-- Maximum signature length (size of the text buffers). -/
def MAX_SIGNATURE_LENGTH : Nat := 256

/-- Maximum number of signatures loaded. -/
def MAX_SIGNATURES : Nat := 512

/-- Maximum path length for files and directories. -/
def MAX_PATH_LENGTH : Nat := 512

/-! ## C strings -/

/-- The byte `*p` read through a `char *`; the end of the array reads as the terminator. -/
def deref : List Nat → Nat
  | [] => 0
  | b :: _ => b

/-- The C string a `char *` points to: the bytes before the first zero byte. -/
def cstr : List Nat → List Nat
  | [] => []
  | b :: rest => if b = 0 then [] else b :: cstr rest

/-- The test `strncmp(s, prefix, n) == 0` with `n` the length of the zero-free `pre`:
the C string at `s` starts with `pre`. -/
def startsWith : List Nat → List Nat → Bool
  | _, [] => true
  | [], _ :: _ => false
  | b :: s, c :: pre => if b = c then startsWith s pre else false

/-- The test `strstr(haystack, needle) != NULL`, on C strings already read: try the needle
at every position of the haystack, from the left. -/
def strstrFrom (needle : List Nat) : List Nat → Bool
  | [] => startsWith [] needle
  | b :: hay => if startsWith (b :: hay) needle then true else strstrFrom needle hay

/-- The test `strstr(haystack, needle) != NULL` of the C library. -/
def strstr (haystack needle : List Nat) : Bool :=
  strstrFrom (cstr needle) (cstr haystack)

/-- The test `strchr(s, c) != NULL` for a non-zero byte `c`. -/
def strchr (s : List Nat) (c : Nat) : Bool :=
  decide (c ∈ cstr s)

/-! ## Signatures -/

/-- The record `Signature` of `scanner.h`: the text buffer and the regex flag. -/
structure Signature where
  signatureText : List Nat
  isRegex : Bool
deriving DecidableEq, Repr

/-- One `[MATCH]` line printed by `scanFile`: the signature and the byte offset. -/
structure ScanMatch where
  signature : Signature
  offset : Nat
deriving DecidableEq, Repr

/-! ## The three matchers -/

/-- Function `matchSignature` of `scanner.c`. -/
def matchSignature (buffer signature : List Nat) : Bool :=
  strstr buffer signature

/-- Function `matchWildcard` of `scanner.c`; 42 is `'*'` and 63 is `'?'`. -/
def matchWildcard (text pattern : List Nat) : Bool :=
  if hp : deref pattern = 0 then decide (deref text = 0)
  else if deref pattern = 42 then
    matchWildcard text pattern.tail
      || (if ht : deref text = 0 then false else matchWildcard text.tail pattern)
  else if deref pattern = 63 then
    (if ht : deref text = 0 then false else matchWildcard text.tail pattern.tail)
  else if deref text = deref pattern then matchWildcard text.tail pattern.tail
  else false
termination_by text.length + pattern.length
decreasing_by
  all_goals simp_wf
  all_goals cases pattern <;> cases text <;> simp_all [deref] <;> omega

/-- Function `matchRegex` of `scanner.c` over the regex engine `re`: 0 when the pattern
does not compile, else the verdict of the compiled matcher on the text. -/
def matchRegex (re : List Nat → Option (List Nat → Bool)) (text pattern : List Nat) : Bool :=
  match re (cstr pattern) with
  | none => false
  | some run => run (cstr text)

/-- The value of `matchFound` in the body of the scan loop of `scanFile`: the matcher is
chosen from the regex flag and from the presence of `'*'` or `'?'` in the text. -/
def matchFound (re : List Nat → Option (List Nat → Bool)) (sig : Signature)
    (scanPtr : List Nat) : Bool :=
  if sig.isRegex then matchRegex re scanPtr sig.signatureText
  else if strchr sig.signatureText 42 || strchr sig.signatureText 63 then
    matchWildcard scanPtr sig.signatureText
  else matchSignature scanPtr sig.signatureText

/-! ## `scanFile` -/

/-- The loop `while (*scanPtr != '\0')` of `scanFile` for one signature: `idx` is
`scanPtr - buffer`. -/
def scanFrom (re : List Nat → Option (List Nat → Bool)) (sig : Signature) (fileOffset : Nat) :
    List Nat → Nat → List ScanMatch
  | [], _ => []
  | b :: rest, idx =>
    if b = 0 then []
    else
      (if matchFound re sig (b :: rest) then [ScanMatch.mk sig (fileOffset + idx)] else [])
        ++ scanFrom re sig fileOffset rest (idx + 1)

/-- The loop `for (i = 0; i < signatureCount; i++)` of `scanFile` over one buffer. -/
def scanBuffer (re : List Nat → Option (List Nat → Bool)) (buffer : List Nat)
    (fileOffset : Nat) : List Signature → List ScanMatch
  | [] => []
  | sig :: sigs => scanFrom re sig fileOffset buffer 0 ++ scanBuffer re buffer fileOffset sigs

/-- The loop `while ((bytesRead = fread(buffer, 1, BUFFER_SIZE, filePtr)) > 0)` of
`scanFile`: `file` is what is left to read. -/
def scanLoop (re : List Nat → Option (List Nat → Bool)) (sigs : List Signature)
    (file : List Nat) (fileOffset : Nat) : List ScanMatch :=
  if h : (file.take BUFFER_SIZE).length = 0 then []
  else
    scanBuffer re (file.take BUFFER_SIZE ++ [0]) fileOffset sigs
      ++ scanLoop re sigs (file.drop BUFFER_SIZE) (fileOffset + (file.take BUFFER_SIZE).length)
termination_by file.length
decreasing_by
  simp_wf
  simp [BUFFER_SIZE] at h ⊢
  have : 0 < file.length := List.length_pos.mpr h
  omega

/-- The matches `scanFile` reports for a file that opens, in report order. -/
def scanFileMatches (re : List Nat → Option (List Nat → Bool)) (sigs : List Signature)
    (file : List Nat) : List ScanMatch :=
  scanLoop re sigs file 0

/-- Function `scanFile` of `scanner.c`: `file` is `none` when `fopen` fails. The result is
the returned `int` and the `[MATCH]` lines printed. The count `totalMatches` is taken
without the wrap of the C `int`, which needs `2^31` matches in one file. -/
def scanFile (re : List Nat → Option (List Nat → Bool)) (file : Option (List Nat))
    (sigs : List Signature) : Int × List ScanMatch :=
  match file with
  | none => (0, [])
  | some bytes => (((scanFileMatches re sigs bytes).length : Nat), scanFileMatches re sigs bytes)

/-- The bytes the `c`-th call of `fread` in `scanFile` returns (`c` counts from 0): chunk
`c` of the file. -/
def chunk (file : List Nat) (c : Nat) : List Nat :=
  (file.drop (BUFFER_SIZE * c)).take BUFFER_SIZE

/-! ## The wildcard predicate of the specification -/

/-- The recursive predicate `match(t, p)` that the specification gives for the wildcard
strategy, written after its words, on strings without terminator. Clause 1 is `p` empty and `t` empty;
clause 2 is `p[0] = '*'` with `match(t, p[1:])` or, for a non-empty `t`, `match(t[1:], p)`;
clause 3 is `p[0] = '?'` with a non-empty `t` and `match(t[1:], p[1:])`; clause 4 is
`t` and `p` non-empty with `t[0] = p[0]` and `match(t[1:], p[1:])`. -/
def specMatch : List Nat → List Nat → Bool
  | [], [] => true
  | _ :: _, [] => false
  | [], p :: ps => p == 42 && specMatch [] ps
  | t :: ts, p :: ps =>
    (p == 42 && (specMatch (t :: ts) ps || specMatch ts (p :: ps)))
      || (p == 63 && specMatch ts ps)
      || (t == p && specMatch ts ps)
termination_by t p => t.length + p.length

/-! ## `loadSignaturesFromFile` -/

/-- The marker `"regex:"` of a regex signature line. -/
def REGEX_MARK : List Nat := [114, 101, 103, 101, 120, 58]

/-- The call `fgets(lineBuffer, n + 1, filePtr)`: at most `n` bytes are read, and reading
stops after a newline (byte 10). The result is the bytes stored and the rest of the stream;
the call returns `NULL` exactly when the stream is at its end. -/
def fgets : Nat → List Nat → List Nat × List Nat
  | 0, stream => ([], stream)
  | _ + 1, [] => ([], [])
  | n + 1, b :: stream =>
    if b = 10 then ([b], stream)
    else ((b :: (fgets n stream).1), (fgets n stream).2)

/-- The call `strcspn(s, reject)` of the C library: the length of the longest initial
part of the C string `s` with no byte of `reject`. -/
def strcspn : List Nat → List Nat → Nat
  | [], _ => 0
  | b :: rest, reject => if b = 0 ∨ b ∈ reject then 0 else strcspn rest reject + 1

/-- The call `strlen(s)` of the C library. -/
def strlen (s : List Nat) : Nat :=
  (cstr s).length

/-- The string that `strncpy(dest, src, n)` leaves in `dest`: the C string at `src`, cut
to `n` bytes. -/
def strncpy (n : Nat) (src : List Nat) : List Nat :=
  (cstr src).take n

/-- The body of the read loop of `loadSignaturesFromFile` for one filled `lineBuffer`:
the newline characters are cut off, an empty line gives no signature (`continue`), and
another line gives a regex signature when it starts with `"regex:"`, a literal or
wildcard signature otherwise. -/
def parseLine (lineBuffer : List Nat) : Option Signature :=
  let lineBuffer := lineBuffer.set (strcspn lineBuffer [13, 10]) 0
  if strlen lineBuffer = 0 then none
  else if startsWith lineBuffer REGEX_MARK then
    some (Signature.mk (strncpy MAX_SIGNATURE_LENGTH (lineBuffer.drop 6)) true)
  else some (Signature.mk (strncpy MAX_SIGNATURE_LENGTH lineBuffer) false)

/-- The loop `while (fgets(lineBuffer, MAX_SIGNATURE_LENGTH, filePtr) != NULL)` of
`loadSignaturesFromFile`: `stream` is what is left to read and `signatureList` holds the
`*signatureCount` signatures stored so far. -/
def loadLoop (stream : List Nat) (signatureList : List Signature) : List Signature :=
  if h : stream = [] then signatureList
  else
    match parseLine ((fgets (MAX_SIGNATURE_LENGTH - 1) stream).1 ++ [0]) with
    | none => loadLoop (fgets (MAX_SIGNATURE_LENGTH - 1) stream).2 signatureList
    | some sig =>
      if (signatureList ++ [sig]).length ≥ MAX_SIGNATURES then signatureList ++ [sig]
      else loadLoop (fgets (MAX_SIGNATURE_LENGTH - 1) stream).2 (signatureList ++ [sig])
termination_by stream.length
decreasing_by
  all_goals simp_wf
  all_goals
    have key : ∀ (n : Nat) (s : List Nat), s ≠ [] → (fgets (n + 1) s).2.length < s.length := by
      intro n
      induction n with
      | zero =>
        intro s hs
        cases s with
        | nil => exact absurd rfl hs
        | cons b r => by_cases hb : b = 10 <;> simp [fgets, hb]
      | succ n ih =>
        intro s hs
        cases s with
        | nil => exact absurd rfl hs
        | cons b r =>
          by_cases hb : b = 10
          · simp [fgets, hb]
          · cases r with
            | nil => simp [fgets, hb]
            | cons c r' =>
              have := ih (c :: r') (by simp)
              simp only [fgets, hb, if_false, List.length_cons] at this ⊢
              omega
    exact key _ _ h

/-- Function `loadSignaturesFromFile` of `scanner.c`: `source` is `none` when `fopen`
fails, and then the caller's list is left as it was. The result is the returned `int` and
the signature list, whose length is `*signatureCount`. -/
def loadSignaturesFromFile (source : Option (List Nat)) (signatureList : List Signature) :
    Int × List Signature :=
  match source with
  | none => (0, signatureList)
  | some stream => (1, loadLoop stream [])

/-! ## Lines of a signature source -/

/-- The lines of a text: the runs of bytes between newlines (byte 10), each without its
newline; a text that ends with a newline has no further line after it. -/
def splitLines : List Nat → List (List Nat)
  | [] => []
  | b :: s =>
    if b = 10 then [] :: splitLines s
    else
      match splitLines s with
      | [] => [[b]]
      | l :: ls => (b :: l) :: ls

/-- The text of a line as the loader keeps it: the bytes before the first carriage return,
newline or zero byte. -/
def lineText : List Nat → List Nat
  | [] => []
  | b :: rest => if b = 0 ∨ b ∈ [13, 10] then [] else b :: lineText rest

/-- The signature the loader builds from one line that fits the line buffer; `none` for
an empty line. -/
def signatureOfLine (line : List Nat) : Option Signature :=
  parseLine (line ++ [0])

/-- The signatures of the lines of a source, one per non-empty line, in source order. -/
def signaturesOfLines (source : List Nat) : List Signature :=
  (splitLines source).filterMap signatureOfLine

/-- The non-empty lines of a source, in source order: the lines whose text is not empty. -/
def nonEmptyLines (source : List Nat) : List (List Nat) :=
  (splitLines source).filter (fun l => decide (lineText l ≠ []))

/-- A source made of `n` copies of one line, each followed by a newline. -/
def repeatLine (line : List Nat) : Nat → List Nat
  | 0 => []
  | n + 1 => line ++ 10 :: repeatLine line n

/-! ## The directory monitor (`monitor.c`)

A path or a file name is the list of its bytes, without terminator. The file system is
seen through `opendir`/`readdir`, which list the names in a directory, and through `stat`;
both are parameters. The table `fileList` of the C code is the list of its first
`*fileCount` entries, so that `*fileCount` is the length of the list; the room left in the
caller's array is the caller's matter (`MAX_MONITOR_FILES` in `startDirectoryMonitor`). -/

/-- Maximum number of files tracked per directory (`monitor.h`). -/
def MAX_MONITOR_FILES : Nat := 2048

/-- The record `MonitoredFile` of `monitor.h`. -/
structure MonitoredFile where
  filePath : List Nat
  lastModifiedTime : Int
deriving DecidableEq, Repr

/-- What `stat` reports of a path: whether it is a regular file (`S_ISREG`), whether it
is a directory (`S_ISDIR`), and `st_mtime`. -/
structure FileStat where
  isReg : Bool
  isDir : Bool
  mtime : Int
deriving DecidableEq, Repr

/-- The file system as the program reads it: `readdir dir` is the sequence of names that
`readdir` yields for `dir`, or `none` when `opendir` fails; `stat path` is the result of
`stat`, or `none` when it fails. -/
structure FileSystem where
  readdir : List Nat → Option (List (List Nat))
  stat : List Nat → Option FileStat

/-- What one poll reports: a new file or a modified file. Each event stands for the
`[MONITOR]` line printed, the call of `scanFile` and the call of `printFileHashes` on the
path. -/
inductive MonitorEvent where
  | newFile (path : List Nat)
  | modified (path : List Nat)
deriving DecidableEq, Repr

/-- The call `snprintf(fullPath, MAX_PATH_LENGTH, "%s/%s", directoryPath, name)`: the two
strings joined by `'/'` (byte 47), cut to `MAX_PATH_LENGTH - 1` bytes. -/
def fullPathOf (directoryPath name : List Nat) : List Nat :=
  (directoryPath ++ 47 :: name).take (MAX_PATH_LENGTH - 1)

/-- Function `getFileModifiedTime` of `monitor.c`: the returned `int` and the value of
`*modifiedTime` after the call, `modifiedTime` being its value before the call. -/
def getFileModifiedTime (fs : FileSystem) (filePath : List Nat) (modifiedTime : Int) :
    Int × Int :=
  match fs.stat filePath with
  | none => (0, modifiedTime)
  | some fileStats => (1, fileStats.mtime)

/-- The loop `for (int i = 0; i < *fileCount; i++)` of `checkForDirectoryChanges` over the
tracked entries: `none` when no entry has the path (`fileFoundFlag` stays 0); otherwise
the entries after the update of the first entry with that path, and the event printed. -/
def checkTracked (fs : FileSystem) (fullPath : List Nat) :
    List MonitoredFile → Option (List MonitoredFile × List MonitorEvent)
  | [] => none
  | f :: rest =>
    if fullPath = f.filePath then
      if (getFileModifiedTime fs fullPath 0).2 ≠ f.lastModifiedTime then
        some (MonitoredFile.mk f.filePath (getFileModifiedTime fs fullPath 0).2 :: rest,
          [MonitorEvent.modified fullPath])
      else some (f :: rest, [])
    else
      match checkTracked fs fullPath rest with
      | none => none
      | some (rest', events) => some (f :: rest', events)

/-- The body of the loop `while ((entry = readdir(dirPtr)) != NULL)` of
`checkForDirectoryChanges` for one name: `fileCount` is `*fileCount`, which the loop does
not change, and the state is the table (of length `updatedCount`) with the events so far.
46 is `'.'`. The `strncpy` of the full path, which is shorter than `MAX_PATH_LENGTH`,
stores the path itself. The slot of a new entry is taken to hold time 0 before
`getFileModifiedTime` fills it. -/
def checkEntry (fs : FileSystem) (directoryPath : List Nat) (fileCount : Nat)
    (state : List MonitoredFile × List MonitorEvent) (name : List Nat) :
    List MonitoredFile × List MonitorEvent :=
  if name = [46] ∨ name = [46, 46] then state
  else
    match fs.stat (fullPathOf directoryPath name) with
    | none => state
    | some pathStats =>
      if ¬ pathStats.isReg then state
      else
        match checkTracked fs (fullPathOf directoryPath name) (state.1.take fileCount) with
        | some (tracked, events) => (tracked ++ state.1.drop fileCount, state.2 ++ events)
        | none =>
          (state.1 ++ [MonitoredFile.mk (fullPathOf directoryPath name)
              (getFileModifiedTime fs (fullPathOf directoryPath name) 0).2],
            state.2 ++ [MonitorEvent.newFile (fullPathOf directoryPath name)])

/-- The outcome of `checkForDirectoryChanges`: the returned `int`, the table after the
call (its length is `*fileCount`) and the events reported, in order. -/
structure PollResult where
  ret : Int
  fileList : List MonitoredFile
  events : List MonitorEvent
deriving DecidableEq, Repr

/-- Function `checkForDirectoryChanges` of `monitor.c`. -/
def checkForDirectoryChanges (fs : FileSystem) (directoryPath : List Nat)
    (fileList : List MonitoredFile) : PollResult :=
  match fs.readdir directoryPath with
  | none => PollResult.mk 0 fileList []
  | some names =>
    PollResult.mk 1
      (names.foldl (checkEntry fs directoryPath fileList.length) (fileList, [])).1
      (names.foldl (checkEntry fs directoryPath fileList.length) (fileList, [])).2

/-! ## The enumeration of a directory, and what a poll should do with it -/

/-- The regular file, if any, that the loops of `monitor.c` see behind a name of the
directory: the path is the one the code forms (`fullPathOf`, cut to `MAX_PATH_LENGTH - 1`
bytes) and the time is the one `stat` reports for that path. The names `.` and `..`, the
names `stat` fails on and the names of other kinds of files give `none`. For a child
whose path does not fit, this is not the child itself. -/
def regularFileOf (fs : FileSystem) (directoryPath name : List Nat) :
    Option (List Nat × Int) :=
  if name = [46] ∨ name = [46, 46] then none
  else
    match fs.stat (fullPathOf directoryPath name) with
    | none => none
    | some pathStats =>
      if pathStats.isReg then some (fullPathOf directoryPath name, pathStats.mtime) else none

/-- The current enumeration of the regular files of a directory, as the loops of
`monitor.c` see it: path formed and modification time, in the order of `readdir`. -/
def regularFiles (fs : FileSystem) (directoryPath : List Nat) (names : List (List Nat)) :
    List (List Nat × Int) :=
  names.filterMap (regularFileOf fs directoryPath)

/-- The time the enumeration gives for a path, if the path is enumerated. -/
def currentTime (files : List (List Nat × Int)) (path : List Nat) : Option Int :=
  match files.find? (fun f => decide (f.1 = path)) with
  | none => none
  | some f => some f.2

/-- A tracked entry after a poll: its time is the current one when its path is
enumerated, and the entry is as it was otherwise. -/
def refreshed (files : List (List Nat × Int)) (f : MonitoredFile) : MonitoredFile :=
  match currentTime files f.filePath with
  | none => f
  | some t => MonitoredFile.mk f.filePath t

/-- The entries of the enumerated files that the snapshot does not track, in order. -/
def newEntries (snapshot : List MonitoredFile) (files : List (List Nat × Int)) :
    List MonitoredFile :=
  (files.filter (fun f => decide (f.1 ∉ snapshot.map MonitoredFile.filePath))).map
    (fun f => MonitoredFile.mk f.1 f.2)

/-- The event due for one enumerated file against a snapshot: New when no entry has its
path, Modified when the entry with its path has another time, none when the time is the
same. -/
def classify (snapshot : List MonitoredFile) (f : List Nat × Int) : Option MonitorEvent :=
  match snapshot.find? (fun e => decide (e.filePath = f.1)) with
  | none => some (MonitorEvent.newFile f.1)
  | some e => if e.lastModifiedTime ≠ f.2 then some (MonitorEvent.modified f.1) else none

/-- The path an event is about. -/
def MonitorEvent.path : MonitorEvent → List Nat
  | MonitorEvent.newFile p => p
  | MonitorEvent.modified p => p

/-- An entry with its time set to `t` when its path is `path`. -/
def setTime (path : List Nat) (t : Int) (f : MonitoredFile) : MonitoredFile :=
  if f.filePath = path then MonitoredFile.mk f.filePath t else f

/-- A directory `d` for the examples: the names `.`, `a` and `b`, where `d/a` is a
regular file of time 5 and `d/b` a regular file of time 7. -/
def exampleFs : FileSystem where
  readdir := fun _ => some [[46], [97], [98]]
  stat := fun p =>
    if p = [100, 47, 97] then some (FileStat.mk true false 5)
    else if p = [100, 47, 98] then some (FileStat.mk true false 7)
    else none

/-! ## `buildInitialFileList` -/

/-- The loop `while ((entry = readdir(dirPtr)) != NULL)` of `buildInitialFileList` over the
names still to read: `fileList` holds the `localCount` entries stored so far, and the loop
is left (`break`) once `localCount` reaches `MAX_MONITOR_FILES`. -/
def buildLoop (fs : FileSystem) (directoryPath : List Nat) :
    List (List Nat) → List MonitoredFile → List MonitoredFile
  | [], fileList => fileList
  | name :: rest, fileList =>
    if name = [46] ∨ name = [46, 46] then buildLoop fs directoryPath rest fileList
    else
      match fs.stat (fullPathOf directoryPath name) with
      | none => buildLoop fs directoryPath rest fileList
      | some pathStats =>
        if pathStats.isReg then
          if (fileList ++ [MonitoredFile.mk (fullPathOf directoryPath name)
              pathStats.mtime]).length ≥ MAX_MONITOR_FILES then
            fileList ++ [MonitoredFile.mk (fullPathOf directoryPath name) pathStats.mtime]
          else
            buildLoop fs directoryPath rest
              (fileList ++ [MonitoredFile.mk (fullPathOf directoryPath name) pathStats.mtime])
        else buildLoop fs directoryPath rest fileList

/-- Function `buildInitialFileList` of `monitor.c`: the returned `int` and the table, whose
length is `*fileCount`. When `opendir` fails the caller's table and count are left as
they were. -/
def buildInitialFileList (fs : FileSystem) (directoryPath : List Nat)
    (fileList : List MonitoredFile) : Int × List MonitoredFile :=
  match fs.readdir directoryPath with
  | none => (0, fileList)
  | some names => (1, buildLoop fs directoryPath names [])

/-! ## `scanDirectoryRecursive` -/

/-- Function `scanDirectoryRecursive` of `scanner.c`, with a bound `fuel` on the depth of
the recursion: the result is `none` when the bound is reached, and otherwise the returned
`int` (0 when `opendir` fails) with the paths `scanFile` is called on, in order. Whether
`opendir` succeeds depends on the path alone: the directory stream that each level of the
recursion holds open, and the limit of the system on open streams, are not modelled. -/
def scanDirectoryRecursive (fs : FileSystem) : Nat → List Nat → Option (Int × List (List Nat))
  | 0, _ => none
  | fuel + 1, directoryPath =>
    match fs.readdir directoryPath with
    | none => some (0, [])
    | some names =>
      (names.foldl
        (fun done name =>
          match done with
          | none => none
          | some scanned =>
            if name = [46] ∨ name = [46, 46] then some scanned
            else
              match fs.stat (fullPathOf directoryPath name) with
              | none => some scanned
              | some pathStat =>
                if pathStat.isDir then
                  match scanDirectoryRecursive fs fuel (fullPathOf directoryPath name) with
                  | none => none
                  | some inner => some (scanned ++ inner.2)
                else if pathStat.isReg then
                  some (scanned ++ [fullPathOf directoryPath name])
                else some scanned)
        (some [])).map (fun scanned => (1, scanned))

/-! ## File systems for the examples -/

/-- A directory `d` with the regular file `d/a` (time 5) and the subdirectory `d/s`,
which holds the regular file `d/s/f` (time 9). 115 is `s`, 102 is `f`. -/
def exampleTreeFs : FileSystem where
  readdir := fun p =>
    if p = [100] then some [[46], [46, 46], [97], [115]]
    else if p = [100, 47, 115] then some [[46], [46, 46], [102]]
    else none
  stat := fun p =>
    if p = [100] then some (FileStat.mk false true 1)
    else if p = [100, 47, 97] then some (FileStat.mk true false 5)
    else if p = [100, 47, 115] then some (FileStat.mk false true 2)
    else if p = [100, 47, 115, 47, 102] then some (FileStat.mk true false 9)
    else none

/-- The name number `i` of a large directory: two bytes, the first from `A` on and the
second from `0` on, different for different `i`. -/
def nameOf (i : Nat) : List Nat :=
  [65 + i / 64, 48 + i % 64]

/-- A directory that holds `n` regular files, named `nameOf 0`, ..., `nameOf (n - 1)`,
all of time 0. -/
def manyFilesFs (n : Nat) : FileSystem where
  readdir := fun _ => some ((List.range n).map nameOf)
  stat := fun _ => some (FileStat.mk true false 0)

/-- A directory `root` that holds the one regular file `root/cd`. 99 is `c`, 100 is `d`. -/
def oneFileFs (root : List Nat) : FileSystem where
  readdir := fun p => if p = root then some [[46], [46, 46], [99, 100]] else none
  stat := fun p =>
    if p = root then some (FileStat.mk false true 0)
    else if p = root ++ [47, 99, 100] then some (FileStat.mk true false 0)
    else none

/-- A directory path of 509 bytes: a component of 254 bytes `x`, `'/'`, and a component
of 254 bytes `y`. -/
def longRoot : List Nat :=
  List.replicate 254 120 ++ 47 :: List.replicate 254 121

/-- A directory `dir` that holds the one regular file `dir/a`; the directory is also
reached by the path `dir/`. -/
def oneFileDirFs (dir : List Nat) : FileSystem where
  readdir := fun p => if p = dir ∨ p = dir ++ [47] then some [[46], [46, 46], [97]] else none
  stat := fun p =>
    if p = dir ∨ p = dir ++ [47] then some (FileStat.mk false true 0)
    else if p = dir ++ [47, 97] then some (FileStat.mk true false 0)
    else none

/-- A directory path of 510 bytes: a component of 254 bytes `x`, `'/'`, and a component
of 255 bytes `y`. -/
def longDir : List Nat :=
  List.replicate 254 120 ++ 47 :: List.replicate 255 121

/-- The path of the child `name` of a directory, as the file system has it: the two
strings joined by `'/'`, whatever the length. The path the code forms for the child is
`fullPathOf`, which is this path cut to `MAX_PATH_LENGTH - 1` bytes. -/
def childPath (directoryPath name : List Nat) : List Nat :=
  directoryPath ++ 47 :: name

/-- A directory `root` that holds the two regular files `root/c` (time 1) and `root/ca`
(time 2). 99 is `c`, 97 is `a`. -/
def twoFilesFs (root : List Nat) : FileSystem where
  readdir := fun p => if p = root then some [[46], [46, 46], [99], [99, 97]] else none
  stat := fun p =>
    if p = root then some (FileStat.mk false true 0)
    else if p = root ++ [47, 99] then some (FileStat.mk true false 1)
    else if p = root ++ [47, 99, 97] then some (FileStat.mk true false 2)
    else none


/-! # Theorems -/

/-! ## C strings: basic facts -/

theorem cstr_nil_of_deref {t : List Nat} (h : deref t = 0) : cstr t = [] := by
  cases t with
  | nil => rfl
  | cons b r => simp [deref] at h; simp [cstr, h]

theorem cstr_cons_of_deref {t : List Nat} (h : ¬ deref t = 0) :
    cstr t = deref t :: cstr t.tail := by
  cases t with
  | nil => exact absurd rfl h
  | cons b r => simp [deref] at h; simp [cstr, h, deref]

theorem cstr_eq_self {t : List Nat} (h : 0 ∉ t) : cstr t = t := by
  induction t with
  | nil => rfl
  | cons b r ih =>
    simp only [List.mem_cons, not_or] at h
    have hb : ¬ b = 0 := fun e => h.1 e.symm
    simp [cstr, hb, ih h.2]

theorem zero_not_mem_cstr (t : List Nat) : 0 ∉ cstr t := by
  induction t with
  | nil => simp [cstr]
  | cons b r ih =>
    by_cases hb : b = 0
    · simp [cstr, hb]
    · simp only [cstr, hb, if_false, List.mem_cons, not_or]
      exact ⟨fun e => hb e.symm, ih⟩

theorem cstr_idem (t : List Nat) : cstr (cstr t) = cstr t :=
  cstr_eq_self (zero_not_mem_cstr t)

theorem cstr_initial (t : List Nat) : cstr t <+: t := by
  induction t with
  | nil => simp [cstr]
  | cons b r ih =>
    by_cases hb : b = 0
    · simp [cstr, hb]
    · simpa [cstr, hb, List.cons_prefix_cons] using ih

theorem cstr_length_le (t : List Nat) : (cstr t).length ≤ t.length :=
  (cstr_initial t).length_le

theorem cstr_append_zero (w rest : List Nat) : cstr (w ++ 0 :: rest) = cstr w := by
  induction w with
  | nil => simp [cstr]
  | cons b r ih =>
    by_cases hb : b = 0
    · simp [cstr, hb]
    · simp [cstr, hb, ih]

theorem cstr_drop_of_lt {k : Nat} {t : List Nat} (h : k < (cstr t).length) :
    cstr (t.drop k) = (cstr t).drop k := by
  induction t generalizing k with
  | nil => simp [cstr] at h
  | cons b r ih =>
    by_cases hb : b = 0
    · simp [cstr, hb] at h
    · cases k with
      | zero => simp
      | succ k =>
        simp only [cstr, hb, if_false, List.length_cons, Nat.add_lt_add_iff_right] at h
        simp [cstr, hb, ih h]

/-! ## The literal matcher -/

theorem startsWith_iff (s pre : List Nat) : startsWith s pre = true ↔ pre <+: s := by
  induction s generalizing pre with
  | nil => cases pre <;> simp [startsWith]
  | cons b s ih =>
    cases pre with
    | nil => simp [startsWith]
    | cons c pre =>
      by_cases hbc : b = c
      · subst hbc; simp [startsWith, ih, List.cons_prefix_cons]
      · have hcb : ¬ c = b := fun e => hbc e.symm
        simp [startsWith, hbc, hcb, List.cons_prefix_cons]

theorem strstrFrom_iff (needle hay : List Nat) :
    strstrFrom needle hay = true ↔ needle <:+: hay := by
  induction hay with
  | nil => simp [strstrFrom, startsWith_iff]
  | cons b hay ih =>
    rw [List.infix_cons_iff]
    by_cases hp : startsWith (b :: hay) needle = true
    · simp [strstrFrom, hp, (startsWith_iff _ _).mp hp]
    · have hnp : ¬ needle <+: b :: hay := fun h => hp ((startsWith_iff _ _).mpr h)
      simp [strstrFrom, hp, hnp, ih]

theorem strstr_iff (haystack needle : List Nat) :
    strstr haystack needle = true ↔ cstr needle <:+: cstr haystack := by
  unfold strstr
  exact strstrFrom_iff _ _

/-- Claim C3: for every text `T` and literal signature text `S`, both read as C strings,
`matchSignature T S` is non-zero exactly when the bytes of `S` occur as a contiguous run
somewhere in the bytes of `T`, that is, `T = u ++ S ++ v` for some `u` and `v`. -/
theorem matchSignature_iff_contiguous (T S : List Nat) :
    matchSignature T S = true ↔ cstr S <:+: cstr T := by
  unfold matchSignature
  exact strstr_iff _ _

/-! ## The wildcard matcher -/

theorem specMatch_star_of {t ps : List Nat} (h : specMatch t ps = true) :
    specMatch t (42 :: ps) = true := by
  cases t with
  | nil => simp [specMatch, h]
  | cons b r => simp [specMatch, h]

theorem matchWildcard_eq_specMatch (text pattern : List Nat) :
    matchWildcard text pattern = specMatch (cstr text) (cstr pattern) := by
  induction text, pattern using matchWildcard.induct with
  | case1 text pattern hp =>
    rw [matchWildcard, dif_pos hp, cstr_nil_of_deref hp]
    by_cases ht : deref text = 0
    · rw [cstr_nil_of_deref ht]; simp [ht, specMatch]
    · rw [cstr_cons_of_deref ht]; simp [ht, specMatch]
  | case2 text pattern hp hstar ih1 ih2 =>
    rw [matchWildcard, dif_neg hp, if_pos hstar, ih1]
    by_cases ht : deref text = 0
    · rw [dif_pos ht, cstr_cons_of_deref hp, cstr_nil_of_deref ht, hstar]
      simp [specMatch]
    · rw [dif_neg ht, ih2 ht, cstr_cons_of_deref hp, cstr_cons_of_deref ht, hstar]
      simp [specMatch]
      intro _ h2
      exact Or.inr (specMatch_star_of h2)
  | case3 text pattern hp hstar hq ht =>
    rw [matchWildcard, dif_neg hp, if_neg hstar, if_pos hq, dif_pos ht]
    rw [cstr_cons_of_deref hp, cstr_nil_of_deref ht]
    simp [specMatch, hstar]
  | case4 text pattern hp hstar hq ht ih =>
    rw [matchWildcard, dif_neg hp, if_neg hstar, if_pos hq, dif_neg ht, ih]
    rw [cstr_cons_of_deref hp, cstr_cons_of_deref ht]
    simp [specMatch, hstar, hq]
  | case5 text pattern hp hstar hq heq ih =>
    rw [matchWildcard, dif_neg hp, if_neg hstar, if_neg hq, if_pos heq, ih]
    have ht : ¬ deref text = 0 := by rw [heq]; exact hp
    rw [cstr_cons_of_deref hp, cstr_cons_of_deref ht]
    simp [specMatch, hstar, hq, heq]
  | case6 text pattern hp hstar hq hne =>
    rw [matchWildcard, dif_neg hp, if_neg hstar, if_neg hq, if_neg hne]
    by_cases ht : deref text = 0
    · rw [cstr_cons_of_deref hp, cstr_nil_of_deref ht]; simp [specMatch, hstar]
    · rw [cstr_cons_of_deref hp, cstr_cons_of_deref ht]; simp [specMatch, hstar, hq, hne]

/-- Claim C2: for every text `t` and pattern `p`, `matchWildcard t p` returns non-zero if
and only if the recursive predicate `match` of the specification holds of the two strings
(the bytes of `t` and of `p` before their terminators). -/
theorem matchWildcard_iff_specMatch (t p : List Nat) :
    matchWildcard t p = true ↔ specMatch (cstr t) (cstr p) = true := by
  rw [matchWildcard_eq_specMatch]

/-! ## The matcher sees the C string of its window -/

theorem matchFound_congr (re : List Nat → Option (List Nat → Bool)) (sig : Signature)
    {w w' : List Nat} (h : cstr w = cstr w') : matchFound re sig w = matchFound re sig w' := by
  simp only [matchFound, matchRegex, matchSignature, strstr, matchWildcard_eq_specMatch, h]

theorem matchFound_append_zero (re : List Nat → Option (List Nat → Bool)) (sig : Signature)
    (w : List Nat) : matchFound re sig (w ++ [0]) = matchFound re sig w :=
  matchFound_congr re sig (cstr_append_zero w [])

/-! ## What `scanFile` reports -/

theorem mem_scanFrom (re : List Nat → Option (List Nat → Bool)) (sig : Signature)
    (off : Nat) (buf : List Nat) (idx : Nat) (m : ScanMatch) :
    m ∈ scanFrom re sig off buf idx ↔
      ∃ k, k < (cstr buf).length ∧ matchFound re sig (buf.drop k) = true
        ∧ m = ScanMatch.mk sig (off + (idx + k)) := by
  induction buf generalizing idx with
  | nil => simp [scanFrom, cstr]
  | cons b rest ih =>
    by_cases hb : b = 0
    · simp [scanFrom, cstr, hb]
    · simp only [scanFrom, hb, if_false, List.mem_append, ih, cstr, List.length_cons]
      constructor
      · rintro (h | ⟨k, hk, hm, rfl⟩)
        · by_cases hf : matchFound re sig (b :: rest) = true
          · rw [if_pos hf] at h
            refine ⟨0, by omega, by simpa using hf, by simpa using h⟩
          · rw [if_neg hf] at h; simp at h
        · exact ⟨k + 1, by omega, by simpa using hm, by
            simp only [ScanMatch.mk.injEq, true_and]; omega⟩
      · rintro ⟨k, hk, hm, rfl⟩
        cases k with
        | zero =>
          left
          have hf : matchFound re sig (b :: rest) = true := by simpa using hm
          simp [hf]
        | succ k =>
          right
          exact ⟨k, by omega, by simpa using hm, by
            simp only [ScanMatch.mk.injEq, true_and]; omega⟩

theorem mem_scanBuffer (re : List Nat → Option (List Nat → Bool)) (buf : List Nat)
    (off : Nat) (sigs : List Signature) (m : ScanMatch) :
    m ∈ scanBuffer re buf off sigs ↔ ∃ sig ∈ sigs, m ∈ scanFrom re sig off buf 0 := by
  induction sigs with
  | nil => simp [scanBuffer]
  | cons s sigs ih => simp [scanBuffer, ih]

theorem chunk_zero (file : List Nat) : chunk file 0 = file.take BUFFER_SIZE := by
  simp [chunk]

theorem chunk_drop (file : List Nat) (c : Nat) :
    chunk (file.drop BUFFER_SIZE) c = chunk file (c + 1) := by
  simp only [chunk, List.drop_drop]
  congr 2
  simp only [BUFFER_SIZE]; omega

theorem chunk_length (file : List Nat) (c : Nat) :
    (chunk file c).length = min BUFFER_SIZE (file.length - BUFFER_SIZE * c) := by
  simp [chunk]

theorem mem_scanLoop (re : List Nat → Option (List Nat → Bool)) (sigs : List Signature)
    (file : List Nat) (off : Nat) (m : ScanMatch) :
    m ∈ scanLoop re sigs file off ↔
      ∃ c, BUFFER_SIZE * c < file.length
        ∧ m ∈ scanBuffer re (chunk file c ++ [0]) (off + BUFFER_SIZE * c) sigs := by
  induction file, off using scanLoop.induct re sigs with
  | case1 file off h =>
    rw [scanLoop, dif_pos h]
    have hnil : file.length = 0 := by
      simp only [List.length_take, BUFFER_SIZE] at h; omega
    simp [hnil]
  | case2 file off h ih =>
    rw [scanLoop, dif_neg h, List.mem_append, ih]
    have hpos : 0 < file.length := by
      simp only [List.length_take, BUFFER_SIZE] at h; omega
    constructor
    · rintro (h0 | ⟨c, hc, hm⟩)
      · exact ⟨0, by simpa using hpos, by simpa [chunk_zero] using h0⟩
      · have hlen : (file.take BUFFER_SIZE).length = BUFFER_SIZE := by
          simp only [List.length_drop, List.length_take, BUFFER_SIZE] at hc ⊢; omega
        refine ⟨c + 1, ?_, ?_⟩
        · simp only [List.length_drop, BUFFER_SIZE] at hc ⊢; omega
        · rw [chunk_drop, hlen] at hm
          have e : off + BUFFER_SIZE * (c + 1) = off + BUFFER_SIZE + BUFFER_SIZE * c := by
            simp only [BUFFER_SIZE]; omega
          rw [e]; exact hm
    · rintro ⟨c, hc, hm⟩
      cases c with
      | zero => left; simpa [chunk_zero] using hm
      | succ c =>
        right
        have hlen : (file.take BUFFER_SIZE).length = BUFFER_SIZE := by
          simp only [List.length_take, BUFFER_SIZE] at hc ⊢; omega
        refine ⟨c, ?_, ?_⟩
        · simp only [List.length_drop, BUFFER_SIZE] at hc ⊢; omega
        · rw [chunk_drop, hlen]
          have e : off + BUFFER_SIZE * (c + 1) = off + BUFFER_SIZE + BUFFER_SIZE * c := by
            simp only [BUFFER_SIZE]; omega
          rw [e] at hm; exact hm

/-- The matches of `scanFile`, characterised: the signature `s` is reported at offset `o`
exactly when `o = BUFFER_SIZE * c + k` for a chunk `c` and an in-chunk offset `k` that lies
before the first zero byte of the chunk, with the matcher accepting the window from `k` to
the end of the chunk. -/
theorem mem_scanFileMatches (re : List Nat → Option (List Nat → Bool)) (sigs : List Signature)
    (file : List Nat) (m : ScanMatch) :
    m ∈ scanFileMatches re sigs file ↔
      ∃ c k, m.signature ∈ sigs ∧ k < (cstr (chunk file c)).length
        ∧ matchFound re m.signature ((chunk file c).drop k) = true
        ∧ m.offset = BUFFER_SIZE * c + k := by
  unfold scanFileMatches
  rw [mem_scanLoop]
  constructor
  · rintro ⟨c, _, hm⟩
    rw [mem_scanBuffer] at hm
    obtain ⟨sig, hsig, hm⟩ := hm
    rw [mem_scanFrom] at hm
    obtain ⟨k, hk, hf, rfl⟩ := hm
    rw [cstr_append_zero] at hk
    have hkl : k ≤ (chunk file c).length := le_trans (le_of_lt hk) (cstr_length_le _)
    rw [List.drop_append_of_le_length hkl, matchFound_append_zero] at hf
    exact ⟨c, k, hsig, hk, hf, by simp⟩
  · rintro ⟨c, k, hsig, hk, hf, ho⟩
    have hkl : k < (chunk file c).length := lt_of_lt_of_le hk (cstr_length_le _)
    refine ⟨c, ?_, ?_⟩
    · rw [chunk_length] at hkl
      simp only [BUFFER_SIZE] at hkl ⊢; omega
    · rw [mem_scanBuffer]
      refine ⟨m.signature, hsig, ?_⟩
      rw [mem_scanFrom]
      refine ⟨k, by rwa [cstr_append_zero], ?_, ?_⟩
      · rw [List.drop_append_of_le_length (le_of_lt hkl), matchFound_append_zero]; exact hf
      · cases m with
        | mk s o => simp only at ho; simp [ho]

/-- Claim C4: every match that `scanFile` reports for a signature `s` at offset `o` has
`o` equal to the number of bytes read in the earlier chunks (which is `BUFFER_SIZE * c`)
plus an in-chunk offset `k` of the current chunk `c`, the matcher accepts for `s` the
window from byte `k` of that chunk to the end of that chunk, and `o` is smaller than the
file length. -/
theorem scanFile_match_sound (re : List Nat → Option (List Nat → Bool))
    (sigs : List Signature) (file : List Nat) (m : ScanMatch)
    (hm : m ∈ (scanFile re (some file) sigs).2) :
    ∃ c k, k < (chunk file c).length
      ∧ m.offset = (file.take (BUFFER_SIZE * c)).length + k
      ∧ (file.take (BUFFER_SIZE * c)).length = BUFFER_SIZE * c
      ∧ m.signature ∈ sigs
      ∧ matchFound re m.signature ((chunk file c).drop k) = true
      ∧ m.offset < file.length := by
  simp only [scanFile] at hm
  rw [mem_scanFileMatches] at hm
  obtain ⟨c, k, hsig, hk, hf, ho⟩ := hm
  have hkl : k < (chunk file c).length := lt_of_lt_of_le hk (cstr_length_le _)
  have hkl' := hkl
  rw [chunk_length] at hkl'
  have hlen : (file.take (BUFFER_SIZE * c)).length = BUFFER_SIZE * c := by
    rw [List.length_take]; omega
  refine ⟨c, k, hkl, by rw [hlen]; exact ho, hlen, hsig, hf, ?_⟩
  rw [ho]; omega

/-- Witness of claim C4 on the two-byte file `ba` and the literal signature `a`. -/
theorem scanFile_match_sound_witness :
    ScanMatch.mk (Signature.mk [97] false) 1
        ∈ (scanFile (fun _ => none) (some [98, 97]) [Signature.mk [97] false]).2
    ∧ ∃ c k, k < (chunk [98, 97] c).length
      ∧ (ScanMatch.mk (Signature.mk [97] false) 1).offset
          = (([98, 97] : List Nat).take (BUFFER_SIZE * c)).length + k
      ∧ (([98, 97] : List Nat).take (BUFFER_SIZE * c)).length = BUFFER_SIZE * c
      ∧ (ScanMatch.mk (Signature.mk [97] false) 1).signature ∈ [Signature.mk [97] false]
      ∧ matchFound (fun _ => none) (ScanMatch.mk (Signature.mk [97] false) 1).signature
          ((chunk [98, 97] c).drop k) = true
      ∧ (ScanMatch.mk (Signature.mk [97] false) 1).offset < ([98, 97] : List Nat).length :=
  ⟨by simp [scanFile, scanFileMatches, scanLoop, scanBuffer, scanFrom, BUFFER_SIZE]; decide,
    scanFile_match_sound (fun _ => none) [Signature.mk [97] false] [98, 97]
      (ScanMatch.mk (Signature.mk [97] false) 1)
      (by simp [scanFile, scanFileMatches, scanLoop, scanBuffer, scanFrom, BUFFER_SIZE]
          decide)⟩

/-- Every window that lies before the first zero byte of its chunk and that the matcher
accepts is reported, at offset `BUFFER_SIZE * c + k`. -/
theorem scanFile_reports_before_zero (re : List Nat → Option (List Nat → Bool))
    (sigs : List Signature) (file : List Nat) (sig : Signature) (c k : Nat)
    (hsig : sig ∈ sigs) (hk : k < (cstr (chunk file c)).length)
    (hf : matchFound re sig ((chunk file c).drop k) = true) :
    ScanMatch.mk sig (BUFFER_SIZE * c + k) ∈ (scanFile re (some file) sigs).2 := by
  simp only [scanFile]
  rw [mem_scanFileMatches]
  exact ⟨c, k, hsig, hk, hf, rfl⟩

/-- Claim C1, at the failing input: the file is the zero byte followed by `a`, the list
holds the literal signature `a`. The matcher accepts the window that starts at byte 1 of
chunk 0 and extends to the end of the chunk, yet `scanFile` returns 0 and reports nothing:
the scan of a chunk stops at its first zero byte. -/
theorem scanFile_skips_window_after_zero_byte :
    1 < (chunk [0, 97] 0).length
      ∧ matchFound (fun _ => none) (Signature.mk [97] false) ((chunk [0, 97] 0).drop 1) = true
      ∧ scanFile (fun _ => none) (some [0, 97]) [Signature.mk [97] false] = (0, []) := by
  refine ⟨by decide, by decide, ?_⟩
  simp [scanFile, scanFileMatches, scanLoop, scanBuffer, scanFrom, BUFFER_SIZE]

/-! ## A signature across a chunk boundary -/

theorem occurs_in_file_of_chunk {S file : List Nat} {c : Nat} (h : S <:+: chunk file c) :
    ∃ q, S <+: file.drop (BUFFER_SIZE * c + q) ∧ q + S.length ≤ BUFFER_SIZE := by
  obtain ⟨u, v, huv⟩ := h
  have hlen : (chunk file c).length ≤ BUFFER_SIZE := by
    rw [chunk_length]; exact Nat.min_le_left _ _
  have hl : u.length + S.length + v.length = (chunk file c).length := by
    rw [← huv]; simp [Nat.add_assoc]
  refine ⟨u.length, ?_, by omega⟩
  have hpre : u ++ S ++ v <+: file.drop (BUFFER_SIZE * c) := by
    rw [huv]; exact List.take_prefix _ _
  obtain ⟨w, hw⟩ := hpre
  rw [← List.drop_drop, ← hw]
  refine ⟨v ++ w, ?_⟩
  simp [List.append_assoc]

/-- Claim C5: a literal signature `S` (no zero byte, no `'*'`, no `'?'`, not a regex) of
length at least 2 whose only occurrence in the file starts at an offset `p` with
`p < BUFFER_SIZE * j < p + length S` for some `j ≥ 1` is never reported by `scanFile`:
the list of the matches reported for it is empty. -/
theorem scanFile_misses_straddling_signature (re : List Nat → Option (List Nat → Bool))
    (sigs : List Signature) (file S : List Nat) (p j : Nat)
    (hzero : 0 ∉ S) (hstar : 42 ∉ S) (hquest : 63 ∉ S) (hL : 2 ≤ S.length)
    (hocc : S <+: file.drop p) (honly : ∀ q, S <+: file.drop q → q = p)
    (hj : 1 ≤ j) (hlo : p < BUFFER_SIZE * j) (hhi : BUFFER_SIZE * j < p + S.length) :
    (scanFile re (some file) sigs).2.filter
      (fun m => decide (m.signature = Signature.mk S false)) = [] := by
  rw [List.filter_eq_nil_iff]
  intro m hm hdec
  have heq : m.signature = Signature.mk S false := of_decide_eq_true hdec
  simp only [scanFile] at hm
  rw [mem_scanFileMatches] at hm
  obtain ⟨c, k, _, hk, hf, _⟩ := hm
  rw [heq] at hf
  have hS : cstr S = S := cstr_eq_self hzero
  simp only [matchFound, strchr, hS, hstar, hquest, decide_False, Bool.or_self,
    Bool.false_eq_true, if_false] at hf
  rw [matchSignature, strstr_iff, hS] at hf
  have h1 : S <:+: (chunk file c).drop k :=
    List.IsInfix.trans hf (cstr_initial _).isInfix
  have h2 : S <:+: chunk file c := List.IsInfix.trans h1 (List.drop_suffix _ _).isInfix
  obtain ⟨q, hq, hql⟩ := occurs_in_file_of_chunk h2
  have hp := honly _ hq
  simp only [BUFFER_SIZE] at hlo hhi hql hp
  omega

theorem straddle_example_occurrence (n : Nat) :
    ([97, 98] : List Nat) <+: (List.replicate n 120 ++ [97, 98]).drop n := by
  have h : (List.replicate n 120 ++ ([97, 98] : List Nat)).drop n = [97, 98] := by
    rw [List.drop_append_of_le_length (by simp)]
    simp
  rw [h]

theorem straddle_example_only (n q : Nat)
    (h : ([97, 98] : List Nat) <+: (List.replicate n 120 ++ [97, 98]).drop q) :
    q = n := by
  obtain ⟨t, ht⟩ := h
  have h0 : ((List.replicate n 120 ++ ([97, 98] : List Nat)).drop q)[0]? = some 97 := by
    rw [← ht]; rfl
  have h1 : ((List.replicate n 120 ++ ([97, 98] : List Nat)).drop q)[1]? = some 98 := by
    rw [← ht]; simp
  rw [List.getElem?_drop] at h0 h1
  by_contra hne
  rcases Nat.lt_or_gt_of_ne hne with hlt | hgt
  · rw [List.getElem?_append_left (by simp; omega)] at h0
    rw [List.getElem?_replicate] at h0
    simp [hlt] at h0
  · have hlen := (List.getElem?_eq_some.mp h1).1
    simp at hlen
    omega

/-- Witness of claim C5: 4095 bytes `x` followed by `ab`, so that the only occurrence of
the signature `ab` starts at 4095 and ends in the second chunk. -/
theorem scanFile_misses_straddling_signature_witness :
    ([97, 98] : List Nat) <+: (List.replicate 4095 120 ++ [97, 98]).drop 4095
      ∧ (∀ q, ([97, 98] : List Nat) <+: (List.replicate 4095 120 ++ [97, 98]).drop q
          → q = 4095)
      ∧ 4095 < BUFFER_SIZE * 1 ∧ BUFFER_SIZE * 1 < 4095 + ([97, 98] : List Nat).length
      ∧ (scanFile (fun _ => none) (some (List.replicate 4095 120 ++ [97, 98]))
          [Signature.mk [97, 98] false]).2.filter
          (fun m => decide (m.signature = Signature.mk [97, 98] false)) = [] :=
  ⟨straddle_example_occurrence 4095, straddle_example_only 4095, by decide, by decide,
    scanFile_misses_straddling_signature (fun _ => none) [Signature.mk [97, 98] false]
      (List.replicate 4095 120 ++ [97, 98]) [97, 98] 4095 1
      (by decide) (by decide) (by decide) (by decide)
      (straddle_example_occurrence 4095) (straddle_example_only 4095)
      (by decide) (by decide) (by decide)⟩

/-! ## The loader: one line -/

theorem cstr_drop_of_le {k : Nat} {t : List Nat} (h : k ≤ (cstr t).length) :
    cstr (t.drop k) = (cstr t).drop k := by
  induction t generalizing k with
  | nil => simp [cstr]
  | cons b r ih =>
    cases k with
    | zero => simp
    | succ k =>
      by_cases hb : b = 0
      · simp [cstr, hb] at h
      · simp only [cstr, hb, if_false, List.length_cons, Nat.add_le_add_iff_right] at h
        simp [cstr, hb, ih h]

theorem startsWith_cstr (s pre : List Nat) (hpre : 0 ∉ pre) :
    startsWith (cstr s) pre = startsWith s pre := by
  induction s generalizing pre with
  | nil => simp [cstr]
  | cons b s ih =>
    cases pre with
    | nil => simp [startsWith]
    | cons c pre =>
      simp only [List.mem_cons, not_or] at hpre
      by_cases hb : b = 0
      · have hbc : ¬ b = c := fun e => hpre.1 (by rw [← e, hb])
        simp only [cstr, if_pos hb, startsWith, if_neg hbc]
      · by_cases hbc : b = c
        · simp only [cstr, if_neg hb, startsWith, if_pos hbc, ih pre hpre.2]
        · simp only [cstr, if_neg hb, startsWith, if_neg hbc]

theorem cstr_set_strcspn (buf : List Nat) :
    cstr (buf.set (strcspn buf [13, 10]) 0) = lineText buf := by
  induction buf with
  | nil => simp [cstr, lineText]
  | cons b rest ih =>
    by_cases hb : b = 0 ∨ b ∈ [13, 10]
    · simp only [strcspn, if_pos hb, lineText, List.set_cons_zero, cstr, if_true]
    · have hb0 : ¬ b = 0 := fun e => hb (Or.inl e)
      simp only [strcspn, if_neg hb, lineText, List.set_cons_succ, cstr, if_neg hb0, ih]

theorem lineText_append_end (l rest : List Nat) (e : Nat) (he : e = 0 ∨ e ∈ [13, 10]) :
    lineText (l ++ e :: rest) = lineText l := by
  induction l with
  | nil => simp only [List.nil_append, lineText, if_pos he]
  | cons b l ih =>
    by_cases hb : b = 0 ∨ b ∈ [13, 10]
    · simp only [List.cons_append, lineText, if_pos hb]
    · show lineText (b :: (l ++ e :: rest)) = lineText (b :: l)
      rw [lineText, lineText, if_neg hb, if_neg hb, ih]

theorem lineText_eq_self {l : List Nat} (h : ∀ b ∈ l, ¬ (b = 0 ∨ b ∈ [13, 10])) :
    lineText l = l := by
  induction l with
  | nil => rfl
  | cons b l ih =>
    have hb := h b (List.mem_cons_self _ _)
    simp only [lineText, if_neg hb, ih (fun c hc => h c (List.mem_cons_of_mem _ hc))]

theorem zero_not_mem_lineText (l : List Nat) : 0 ∉ lineText l := by
  induction l with
  | nil => simp [lineText]
  | cons b l ih =>
    by_cases hb : b = 0 ∨ b ∈ [13, 10]
    · rw [lineText, if_pos hb]; exact List.not_mem_nil _
    · rw [lineText, if_neg hb]
      intro h
      rcases List.mem_cons.mp h with e | h'
      · exact hb (Or.inl e.symm)
      · exact ih h'

/-- The loop body reads the line buffer only through the text of the line. -/
theorem parseLine_eq (buf : List Nat) :
    parseLine buf =
      if lineText buf = [] then none
      else if REGEX_MARK <+: lineText buf then
        some (Signature.mk (((lineText buf).drop 6).take MAX_SIGNATURE_LENGTH) true)
      else some (Signature.mk ((lineText buf).take MAX_SIGNATURE_LENGTH) false) := by
  have hmark : (0 : Nat) ∉ REGEX_MARK := by decide
  have hc := cstr_set_strcspn buf
  simp only [parseLine, strlen, strncpy, hc]
  by_cases hnil : lineText buf = []
  · simp [hnil]
  · have hlen : ¬ (lineText buf).length = 0 := fun e => hnil (List.length_eq_zero.mp e)
    rw [if_neg hlen, if_neg hnil, ← startsWith_cstr _ _ hmark, hc]
    by_cases hpre : startsWith (lineText buf) REGEX_MARK = true
    · have hp := (startsWith_iff _ _).mp hpre
      have h6 : 6 ≤ (cstr (buf.set (strcspn buf [13, 10]) 0)).length := by
        rw [hc]; simpa [REGEX_MARK] using hp.length_le
      rw [if_pos hpre, if_pos hp, cstr_drop_of_le h6, hc]
    · have hp : ¬ REGEX_MARK <+: lineText buf := fun h => hpre ((startsWith_iff _ _).mpr h)
      rw [if_neg hpre, if_neg hp]

theorem parseLine_congr {a b : List Nat} (h : lineText a = lineText b) :
    parseLine a = parseLine b := by
  rw [parseLine_eq, parseLine_eq, h]

theorem signatureOfLine_eq_none_iff (l : List Nat) :
    signatureOfLine l = none ↔ lineText l = [] := by
  unfold signatureOfLine
  rw [parseLine_eq, lineText_append_end l [] 0 (Or.inl rfl)]
  by_cases h : lineText l = []
  · simp [h]
  · simp only [h, if_false, iff_false]
    split <;> simp

/-- The signature built from a line that fits the line buffer. -/
theorem parseLine_text (line rest : List Nat) (e : Nat)
    (hline : ∀ b ∈ line, ¬ (b = 0 ∨ b ∈ [13, 10])) (hne : line ≠ [])
    (hlen : line.length < MAX_SIGNATURE_LENGTH) (he : e = 0 ∨ e ∈ [13, 10]) :
    parseLine (line ++ e :: rest)
      = some (if REGEX_MARK <+: line then Signature.mk (line.drop 6) true
              else Signature.mk line false) := by
  have htext : lineText (line ++ e :: rest) = line := by
    rw [lineText_append_end line rest e he, lineText_eq_self hline]
  rw [parseLine_eq, htext, if_neg hne]
  by_cases hpre : REGEX_MARK <+: line
  · rw [if_pos hpre, if_pos hpre, List.take_of_length_le (by simp; omega)]
  · rw [if_neg hpre, if_neg hpre, List.take_of_length_le (by omega)]


/-! ## The loader: the read loop -/

theorem fgets_line (n : Nat) (l rest : List Nat) (hl : 10 ∉ l) (hlen : l.length < n) :
    fgets n (l ++ 10 :: rest) = (l ++ [10], rest) := by
  induction l generalizing n with
  | nil =>
    cases n with
    | zero => simp at hlen
    | succ n => simp [fgets]
  | cons b l ih =>
    cases n with
    | zero => simp at hlen
    | succ n =>
      simp only [List.mem_cons, not_or] at hl
      have hb : ¬ b = 10 := fun e => hl.1 e.symm
      simp only [List.length_cons, Nat.add_lt_add_iff_right] at hlen
      rw [List.cons_append, fgets, if_neg hb, ih n hl.2 hlen]
      rfl

theorem fgets_full (l rest : List Nat) (hl : 10 ∉ l) :
    fgets l.length (l ++ rest) = (l, rest) := by
  induction l with
  | nil => simp [fgets]
  | cons b l ih =>
    simp only [List.mem_cons, not_or] at hl
    have hb : ¬ b = 10 := fun e => hl.1 e.symm
    rw [List.length_cons, List.cons_append, fgets, if_neg hb, ih hl.2]

theorem fgets_last (n : Nat) (l : List Nat) (hl : 10 ∉ l) (hlen : l.length ≤ n) :
    fgets n l = (l, []) := by
  induction l generalizing n with
  | nil => cases n <;> simp [fgets]
  | cons b l ih =>
    cases n with
    | zero => simp at hlen
    | succ n =>
      simp only [List.mem_cons, not_or] at hl
      have hb : ¬ b = 10 := fun e => hl.1 e.symm
      simp only [List.length_cons, Nat.add_le_add_iff_right] at hlen
      simp only [fgets, if_neg hb, ih n hl.2 hlen]

theorem splitLines_line (l rest : List Nat) (hl : 10 ∉ l) :
    splitLines (l ++ 10 :: rest) = l :: splitLines rest := by
  induction l with
  | nil => simp [splitLines]
  | cons b l ih =>
    simp only [List.mem_cons, not_or] at hl
    have hb : ¬ b = 10 := fun e => hl.1 e.symm
    rw [List.cons_append, splitLines, if_neg hb, ih hl.2]

theorem splitLines_last (l : List Nat) (hl : 10 ∉ l) (hne : l ≠ []) :
    splitLines l = [l] := by
  induction l with
  | nil => exact absurd rfl hne
  | cons b l ih =>
    simp only [List.mem_cons, not_or] at hl
    have hb : ¬ b = 10 := fun e => hl.1 e.symm
    cases l with
    | nil => simp [splitLines, hb]
    | cons c l' =>
      have := ih hl.2 (by simp)
      simp only [splitLines, if_neg hb] at this ⊢
      rw [this]

/-- A text is its first line alone, or its first line, a newline and the rest. -/
theorem first_line_cases (s : List Nat) :
    ∃ l, 10 ∉ l ∧ (s = l ∨ ∃ rest, s = l ++ 10 :: rest) := by
  induction s with
  | nil => exact ⟨[], by simp, Or.inl rfl⟩
  | cons b s ih =>
    by_cases hb : b = 10
    · exact ⟨[], by simp, Or.inr ⟨s, by simp [hb]⟩⟩
    · obtain ⟨l, hl, h⟩ := ih
      refine ⟨b :: l, ?_, ?_⟩
      · simp only [List.mem_cons, not_or]
        exact ⟨fun e => hb e.symm, hl⟩
      · rcases h with h | ⟨rest, h⟩
        · exact Or.inl (by rw [h])
        · exact Or.inr ⟨rest, by rw [h]; rfl⟩

theorem signatureOfLine_nil : signatureOfLine [] = none := by
  decide

theorem parseLine_newline (l : List Nat) :
    parseLine ((l ++ [10]) ++ [0]) = signatureOfLine l := by
  unfold signatureOfLine
  apply parseLine_congr
  rw [List.append_assoc, List.singleton_append, lineText_append_end l _ 10 (by decide),
    lineText_append_end l _ 0 (by decide)]

theorem signaturesOfLines_cons (l : List Nat) (ls : List (List Nat)) :
    (l :: ls).filterMap signatureOfLine
      = (signatureOfLine l).toList ++ ls.filterMap signatureOfLine := by
  cases h : signatureOfLine l <;> simp [List.filterMap_cons, h]

/-- One turn of the read loop, for a source whose lines fit the line buffer: the signatures
of the lines are the signature of what `fgets` stored followed by the signatures of the
lines of the rest of the stream. -/
theorem loadLoop_turn (s : List Nat) (hs : s ≠ [])
    (hshort : ∀ l ∈ splitLines s, l.length < MAX_SIGNATURE_LENGTH) :
    signaturesOfLines s
        = (parseLine ((fgets (MAX_SIGNATURE_LENGTH - 1) s).1 ++ [0])).toList
            ++ signaturesOfLines (fgets (MAX_SIGNATURE_LENGTH - 1) s).2
      ∧ (∀ l ∈ splitLines (fgets (MAX_SIGNATURE_LENGTH - 1) s).2,
          l.length < MAX_SIGNATURE_LENGTH) := by
  obtain ⟨l, hl, h⟩ := first_line_cases s
  rcases h with h | ⟨rest, h⟩
  · subst h
    have hsplit := splitLines_last s hl hs
    have hlen : s.length ≤ MAX_SIGNATURE_LENGTH - 1 := by
      have := hshort s (by rw [hsplit]; simp)
      omega
    rw [fgets_last _ s hl hlen]
    simp only [signaturesOfLines, hsplit, splitLines]
    refine ⟨?_, by simp⟩
    rw [signaturesOfLines_cons]
    simp [signatureOfLine]
  · subst h
    have hsplit := splitLines_line l rest hl
    have hlen : l.length < MAX_SIGNATURE_LENGTH := hshort l (by rw [hsplit]; simp)
    have hrest : ∀ l' ∈ splitLines rest, l'.length < MAX_SIGNATURE_LENGTH :=
      fun l' hl' => hshort l' (by rw [hsplit]; exact List.mem_cons_of_mem _ hl')
    by_cases hfull : l.length = MAX_SIGNATURE_LENGTH - 1
    · have hf : fgets (MAX_SIGNATURE_LENGTH - 1) (l ++ 10 :: rest) = (l, 10 :: rest) := by
        rw [← hfull]; exact fgets_full l _ hl
      rw [hf]
      have hsplit' : splitLines (10 :: rest) = [] :: splitLines rest := by
        simp [splitLines]
      constructor
      · simp only [signaturesOfLines, hsplit, hsplit']
        rw [signaturesOfLines_cons, signaturesOfLines_cons, signatureOfLine_nil]
        simp [signatureOfLine]
      · intro l' hl'
        rw [hsplit'] at hl'
        rcases List.mem_cons.mp hl' with e | h'
        · rw [e]; simp [MAX_SIGNATURE_LENGTH]
        · exact hrest l' h'
    · have hf : fgets (MAX_SIGNATURE_LENGTH - 1) (l ++ 10 :: rest) = (l ++ [10], rest) :=
        fgets_line _ l rest hl (by omega)
      rw [hf]
      refine ⟨?_, hrest⟩
      simp only [signaturesOfLines, hsplit]
      rw [signaturesOfLines_cons, parseLine_newline]

theorem fgets_rest_length_lt (n : Nat) (s : List Nat) (hs : s ≠ []) :
    (fgets (n + 1) s).2.length < s.length := by
  induction s generalizing n with
  | nil => exact absurd rfl hs
  | cons b r ih =>
    by_cases hb : b = 10
    · simp [fgets, hb]
    · cases n with
      | zero => simp [fgets, hb]
      | succ n =>
        cases r with
        | nil => simp [fgets, hb]
        | cons c r' =>
          have := ih n (by simp)
          simp only [fgets, hb, if_false, List.length_cons] at this ⊢
          omega

/-- The read loop on a source whose lines fit the line buffer: the signatures of the
lines are appended in order until the list holds `MAX_SIGNATURES` of them. -/
theorem loadLoop_eq (s : List Nat) (acc : List Signature)
    (hshort : ∀ l ∈ splitLines s, l.length < MAX_SIGNATURE_LENGTH)
    (hacc : acc.length < MAX_SIGNATURES) :
    loadLoop s acc = acc ++ (signaturesOfLines s).take (MAX_SIGNATURES - acc.length) := by
  generalize hn : s.length = n
  induction n using Nat.strong_induction_on generalizing s acc with
  | _ n ih =>
    rw [loadLoop]
    by_cases hs : s = []
    · rw [dif_pos hs, hs]; simp [signaturesOfLines, splitLines]
    · rw [dif_neg hs]
      obtain ⟨hsig, hshort'⟩ := loadLoop_turn s hs hshort
      have hlt : (fgets (MAX_SIGNATURE_LENGTH - 1) s).2.length < n := by
        rw [← hn]; exact fgets_rest_length_lt _ s hs
      cases hp : parseLine ((fgets (MAX_SIGNATURE_LENGTH - 1) s).1 ++ [0]) with
      | none =>
        rw [hp] at hsig
        simp only [Option.toList, List.nil_append] at hsig
        simp only []
        rw [ih _ hlt _ acc hshort' hacc rfl, hsig]
      | some sig =>
        rw [hp] at hsig
        simp only [Option.toList, List.singleton_append] at hsig
        simp only []
        by_cases hfull : (acc ++ [sig]).length ≥ MAX_SIGNATURES
        · rw [if_pos hfull, hsig]
          have h1 : MAX_SIGNATURES - acc.length = 1 := by
            simp only [List.length_append, List.length_singleton] at hfull; omega
          rw [h1]; simp
        · rw [if_neg hfull, ih _ hlt _ (acc ++ [sig]) hshort' (by omega) rfl, hsig]
          have h1 : MAX_SIGNATURES - acc.length
              = (MAX_SIGNATURES - (acc ++ [sig]).length) + 1 := by
            simp only [List.length_append, List.length_singleton] at hfull ⊢; omega
          rw [h1, List.take_succ_cons]
          simp

/-- The rule of the loader on a line that one read holds: a non-empty signature line
`line` in the line buffer (fewer than `MAX_SIGNATURE_LENGTH` bytes, none of them a zero
byte, carriage return or newline, and followed in the buffer by one of these) is loaded
as one signature, which is also the one signature loaded from the source made of that
line alone, and the matcher that `scanFile` applies to that signature on any window `w`
is: the regex matcher on the rest of the line when the line begins with `"regex:"`
(whatever the rest contains), otherwise the wildcard matcher when the line contains `'*'`
or `'?'`, and the literal matcher when it contains neither. A line that one read does not
hold is split: see `loadSignatures_long_marked_line`. -/
theorem loaded_signature_matcher (re : List Nat → Option (List Nat → Bool))
    (line rest w : List Nat) (e : Nat) (old : List Signature)
    (hline : ∀ b ∈ line, ¬ (b = 0 ∨ b ∈ [13, 10])) (hne : line ≠ [])
    (hlen : line.length < MAX_SIGNATURE_LENGTH) (he : e = 0 ∨ e ∈ [13, 10]) :
    ∃ sig, parseLine (line ++ e :: rest) = some sig
      ∧ loadSignaturesFromFile (some (line ++ [10])) old = (1, [sig])
      ∧ sig = (if REGEX_MARK <+: line then Signature.mk (line.drop 6) true
                else Signature.mk line false)
      ∧ matchFound re sig w =
          (if REGEX_MARK <+: line then matchRegex re w (line.drop 6)
           else if 42 ∈ line ∨ 63 ∈ line then matchWildcard w line
           else matchSignature w line) := by
  have hz : 0 ∉ line := fun h => hline 0 h (Or.inl rfl)
  have hc : cstr line = line := cstr_eq_self hz
  have h10 : 10 ∉ line := fun h => hline 10 h (by decide)
  have hsplit : splitLines (line ++ [10]) = [line] := by
    rw [splitLines_line line [] h10]; rfl
  have hload : loadLoop (line ++ [10]) []
      = [if REGEX_MARK <+: line then Signature.mk (line.drop 6) true
          else Signature.mk line false] := by
    rw [loadLoop_eq _ [] (by rw [hsplit]; intro l hl; rw [List.mem_singleton.mp hl]; exact hlen)
      (by decide)]
    simp only [signaturesOfLines, hsplit, List.filterMap_cons, signatureOfLine,
      parseLine_text line [] 0 hline hne hlen (by decide), List.filterMap_nil]
    rfl
  refine ⟨_, parseLine_text line rest e hline hne hlen he, ?_, rfl, ?_⟩
  · simp only [loadSignaturesFromFile, hload]
  by_cases hpre : REGEX_MARK <+: line
  · rw [if_pos hpre, if_pos hpre]
    simp [matchFound]
  · rw [if_neg hpre, if_neg hpre]
    by_cases hw : 42 ∈ line ∨ 63 ∈ line
    · rw [if_pos hw]
      rcases hw with h | h <;> simp [matchFound, strchr, hc, h]
    · rw [if_neg hw]
      simp only [not_or] at hw
      simp [matchFound, strchr, hc, hw.1, hw.2]

/-- The rule on the line `regex:a*` followed by a newline. -/
theorem loaded_signature_matcher_witness :
    ([114, 101, 103, 101, 120, 58, 97, 42] : List Nat) ≠ []
      ∧ ([114, 101, 103, 101, 120, 58, 97, 42] : List Nat).length < MAX_SIGNATURE_LENGTH
      ∧ ∃ sig, parseLine ([114, 101, 103, 101, 120, 58, 97, 42] ++ 10 :: [0]) = some sig
        ∧ loadSignaturesFromFile (some ([114, 101, 103, 101, 120, 58, 97, 42] ++ [10])) []
            = (1, [sig])
        ∧ sig = (if REGEX_MARK <+: [114, 101, 103, 101, 120, 58, 97, 42]
                  then Signature.mk (([114, 101, 103, 101, 120, 58, 97, 42] : List Nat).drop 6) true
                  else Signature.mk [114, 101, 103, 101, 120, 58, 97, 42] false)
        ∧ matchFound (fun _ => none) sig [97] =
            (if REGEX_MARK <+: [114, 101, 103, 101, 120, 58, 97, 42]
              then matchRegex (fun _ => none) [97]
                (([114, 101, 103, 101, 120, 58, 97, 42] : List Nat).drop 6)
             else if 42 ∈ ([114, 101, 103, 101, 120, 58, 97, 42] : List Nat)
                  ∨ 63 ∈ ([114, 101, 103, 101, 120, 58, 97, 42] : List Nat)
               then matchWildcard [97] [114, 101, 103, 101, 120, 58, 97, 42]
             else matchSignature [97] [114, 101, 103, 101, 120, 58, 97, 42]) :=
  ⟨by decide, by decide,
    loaded_signature_matcher (fun _ => none) [114, 101, 103, 101, 120, 58, 97, 42] [0] [97] 10
      [] (by decide) (by decide) (by decide) (by decide)⟩

/-! ## The loader: truncation and long lines -/

theorem filterMap_filter_isSome {α β : Type} (f : α → Option β) (L : List α) :
    (L.filter (fun a => (f a).isSome)).filterMap f = L.filterMap f := by
  induction L with
  | nil => rfl
  | cons a L ih =>
    cases h : f a with
    | none => simp [List.filter_cons, List.filterMap_cons, h, ih]
    | some b => simp [List.filter_cons, List.filterMap_cons, h, ih]

theorem filterMap_take_of_isSome {α β : Type} (f : α → Option β) (L : List α) (n : Nat)
    (h : ∀ a ∈ L, (f a).isSome = true) :
    (L.filterMap f).take n = (L.take n).filterMap f ∧ (L.filterMap f).length = L.length := by
  induction L generalizing n with
  | nil => simp
  | cons a L ih =>
    have ha := h a (List.mem_cons_self _ _)
    obtain ⟨b, hb⟩ := Option.isSome_iff_exists.mp ha
    have ih' := fun m => ih m (fun c hc => h c (List.mem_cons_of_mem _ hc))
    cases n with
    | zero => simp [List.filterMap_cons, hb, (ih' 0).2]
    | succ n => simp [List.filterMap_cons, hb, (ih' n).1, (ih' n).2]

theorem signatureOfLine_isSome_iff (l : List Nat) :
    (signatureOfLine l).isSome = decide (lineText l ≠ []) := by
  have h := signatureOfLine_eq_none_iff l
  cases hs : signatureOfLine l with
  | none => simp [h.mp hs]
  | some s =>
    have : lineText l ≠ [] := fun e => by rw [h.mpr e] at hs; cases hs
    simp [this]

theorem nonEmptyLines_eq (s : List Nat) :
    nonEmptyLines s = (splitLines s).filter (fun l => (signatureOfLine l).isSome) := by
  unfold nonEmptyLines
  congr 1
  funext l
  exact (signatureOfLine_isSome_iff l).symm

/-- The signatures of the lines are the signatures of the non-empty lines, one each. -/
theorem signaturesOfLines_take (s : List Nat) (n : Nat) :
    (signaturesOfLines s).take n = ((nonEmptyLines s).take n).filterMap signatureOfLine
      ∧ (signaturesOfLines s).length = (nonEmptyLines s).length := by
  have h1 : signaturesOfLines s = (nonEmptyLines s).filterMap signatureOfLine := by
    rw [nonEmptyLines_eq, filterMap_filter_isSome]; rfl
  have h2 : ∀ l ∈ nonEmptyLines s, (signatureOfLine l).isSome = true := by
    intro l hl
    rw [nonEmptyLines_eq] at hl
    exact (List.mem_filter.mp hl).2
  rw [h1]
  exact filterMap_take_of_isSome signatureOfLine _ n h2

/-- Truncation on lines that one read holds: for a source that opens, whose lines all fit
the line buffer (fewer than `MAX_SIGNATURE_LENGTH` bytes each) and which has more than
`MAX_SIGNATURES` non-empty lines, `loadSignaturesFromFile` returns 1, the count is
exactly `MAX_SIGNATURES`, and the loaded signatures are those of the first
`MAX_SIGNATURES` non-empty lines, in order; the other lines are ignored. -/
theorem loadSignatures_truncates (source : List Nat) (old : List Signature)
    (hshort : ∀ l ∈ splitLines source, l.length < MAX_SIGNATURE_LENGTH)
    (hmany : MAX_SIGNATURES < (nonEmptyLines source).length) :
    loadSignaturesFromFile (some source) old
        = (1, ((nonEmptyLines source).take MAX_SIGNATURES).filterMap signatureOfLine)
      ∧ (loadSignaturesFromFile (some source) old).2.length = MAX_SIGNATURES := by
  have hload : loadLoop source [] = (signaturesOfLines source).take MAX_SIGNATURES := by
    rw [loadLoop_eq source [] hshort (by decide)]
    simp
  have ht := signaturesOfLines_take source MAX_SIGNATURES
  simp only [loadSignaturesFromFile, hload]
  refine ⟨by rw [ht.1], ?_⟩
  rw [List.length_take, ht.2]
  omega

theorem splitLines_repeatLine (line : List Nat) (n : Nat) (hl : 10 ∉ line) :
    splitLines (repeatLine line n) = List.replicate n line := by
  induction n with
  | zero => rfl
  | succ n ih => rw [repeatLine, splitLines_line line _ hl, ih, List.replicate_succ]

theorem nonEmptyLines_repeatLine (line : List Nat) (n : Nat) (hl : 10 ∉ line)
    (hne : lineText line ≠ []) :
    nonEmptyLines (repeatLine line n) = List.replicate n line := by
  unfold nonEmptyLines
  rw [splitLines_repeatLine line n hl, List.filter_eq_self]
  intro l hl'
  rw [List.eq_of_mem_replicate hl']
  exact decide_eq_true hne

/-- Truncation on a source of 513 lines `b`. -/
theorem loadSignatures_truncates_witness :
    (∀ l ∈ splitLines (repeatLine [98] 513), l.length < MAX_SIGNATURE_LENGTH)
      ∧ MAX_SIGNATURES < (nonEmptyLines (repeatLine [98] 513)).length
      ∧ loadSignaturesFromFile (some (repeatLine [98] 513)) []
          = (1, ((nonEmptyLines (repeatLine [98] 513)).take MAX_SIGNATURES).filterMap
              signatureOfLine)
      ∧ (loadSignaturesFromFile (some (repeatLine [98] 513)) []).2.length = MAX_SIGNATURES :=
  have hshort : ∀ l ∈ splitLines (repeatLine [98] 513), l.length < MAX_SIGNATURE_LENGTH := by
    intro l hl
    rw [splitLines_repeatLine [98] 513 (by decide)] at hl
    rw [List.eq_of_mem_replicate hl]
    decide
  have hmany : MAX_SIGNATURES < (nonEmptyLines (repeatLine [98] 513)).length := by
    rw [nonEmptyLines_repeatLine [98] 513 (by decide) (by decide), List.length_replicate]
    decide
  ⟨hshort, hmany, loadSignatures_truncates (repeatLine [98] 513) [] hshort hmany⟩

theorem mem_replicate_plain {n : Nat} {b : Nat} (hb : b ∈ List.replicate n 97) :
    ¬ (b = 0 ∨ b ∈ [13, 10]) := by
  rw [List.eq_of_mem_replicate hb]; decide

theorem replicate_not_marked (n : Nat) : ¬ REGEX_MARK <+: List.replicate n 97 := by
  intro h
  cases n with
  | zero => simp [REGEX_MARK] at h
  | succ n =>
    rw [List.replicate_succ, REGEX_MARK, List.cons_prefix_cons] at h
    exact absurd h.1 (by decide)

/-- One turn of the read loop on a line that fills the line buffer: the 255 bytes read
become a signature and the rest of the line stays in the stream. -/
theorem loadLoop_full_buffer (A tail : List Nat) (acc : List Signature)
    (hlen : A.length = MAX_SIGNATURE_LENGTH - 1)
    (hplain : ∀ b ∈ A, ¬ (b = 0 ∨ b ∈ [13, 10])) (hmark : ¬ REGEX_MARK <+: A)
    (hacc : acc.length + 1 < MAX_SIGNATURES) :
    loadLoop (A ++ tail) acc = loadLoop tail (acc ++ [Signature.mk A false]) := by
  have hne : A ≠ [] := by
    intro e; rw [e] at hlen; exact absurd hlen (by decide)
  have hne' : A ++ tail ≠ [] := by
    intro e; exact hne (List.append_eq_nil.mp e).1
  have h10 : 10 ∉ A := fun h => hplain 10 h (by decide)
  have hf : fgets (MAX_SIGNATURE_LENGTH - 1) (A ++ tail) = (A, tail) := by
    rw [← hlen]; exact fgets_full _ tail h10
  have hp : parseLine (A ++ [0]) = some (Signature.mk A false) := by
    rw [parseLine_text _ [] 0 hplain hne (by rw [hlen]; decide) (by decide), if_neg hmark]
  rw [loadLoop, dif_neg hne', hf]
  simp only [hp]
  rw [if_neg]
  simp only [List.length_append, List.length_singleton]
  omega

/-- A line of 256 bytes read alone: two signatures are loaded from its one line. -/
theorem loadSignatures_long_line (A : List Nat)
    (hlen : A.length = MAX_SIGNATURE_LENGTH - 1)
    (hplain : ∀ b ∈ A, ¬ (b = 0 ∨ b ∈ [13, 10])) (hmark : ¬ REGEX_MARK <+: A) :
    nonEmptyLines (A ++ [97]) = [A ++ [97]]
      ∧ loadSignaturesFromFile (some (A ++ [97])) []
          = (1, [Signature.mk A false, Signature.mk [97] false]) := by
  have hne : A ≠ [] := by
    intro e; rw [e] at hlen; exact absurd hlen (by decide)
  constructor
  · have h10 : 10 ∉ A ++ [97] := by
      intro h
      rcases List.mem_append.mp h with h | h
      · exact hplain 10 h (by decide)
      · exact absurd h (by decide)
    have htext : lineText (A ++ [97]) ≠ [] := by
      cases A with
      | nil => exact absurd rfl hne
      | cons b A' =>
        rw [List.cons_append, lineText, if_neg (hplain b (List.mem_cons_self _ _))]
        exact List.cons_ne_nil _ _
    unfold nonEmptyLines
    rw [splitLines_last _ h10 (fun e => hne (List.append_eq_nil.mp e).1),
      List.filter_cons, if_pos (decide_eq_true htext), List.filter_nil]
  · have hs : signaturesOfLines [97] = [Signature.mk [97] false] := by decide
    simp only [loadSignaturesFromFile]
    rw [loadLoop_full_buffer A [97] [] hlen hplain hmark (by decide),
      loadLoop_eq [97] _ (by decide) (by simp [MAX_SIGNATURES]), hs]
    rfl

/-- Claim C10, at the failing input: the source is one line of 256 bytes `a`. It has
exactly one non-empty line, yet `loadSignaturesFromFile` loads two signatures from it,
the first 255 bytes and the last byte. -/
theorem loadSignatures_splits_long_line :
    nonEmptyLines (List.replicate 255 97 ++ [97]) = [List.replicate 255 97 ++ [97]]
      ∧ loadSignaturesFromFile (some (List.replicate 255 97 ++ [97])) []
          = (1, [Signature.mk (List.replicate 255 97) false, Signature.mk [97] false]) :=
  loadSignatures_long_line (List.replicate 255 97) (List.length_replicate _ _)
    (fun _ hb => mem_replicate_plain hb) (replicate_not_marked 255)

/-- A long first line followed by lines that fit: the second loaded signature is the end
of the first line, and the second non-empty line gives another signature. -/
theorem loadSignatures_long_first_line (A R : List Nat) (NR : List (List Nat))
    (hlen : A.length = MAX_SIGNATURE_LENGTH - 1)
    (hplain : ∀ b ∈ A, ¬ (b = 0 ∨ b ∈ [13, 10])) (hmark : ¬ REGEX_MARK <+: A)
    (hR : ∀ l ∈ splitLines R, l.length < MAX_SIGNATURE_LENGTH)
    (hNR : nonEmptyLines R = [98] :: NR) (hcount : NR.length = MAX_SIGNATURES - 1) :
    MAX_SIGNATURES < (nonEmptyLines (A ++ 97 :: 10 :: R)).length
      ∧ (loadSignaturesFromFile (some (A ++ 97 :: 10 :: R)) []).2
          ≠ ((nonEmptyLines (A ++ 97 :: 10 :: R)).take MAX_SIGNATURES).filterMap
              signatureOfLine := by
  have hne : A ≠ [] := by
    intro e; rw [e] at hlen; exact absurd hlen (by decide)
  have h10 : 10 ∉ A ++ [97] := by
    intro h
    rcases List.mem_append.mp h with h | h
    · exact hplain 10 h (by decide)
    · exact absurd h (by decide)
  have hsrc : A ++ 97 :: 10 :: R = (A ++ [97]) ++ 10 :: R := by
    rw [List.append_assoc]; rfl
  have htext : lineText (A ++ [97]) ≠ [] := by
    cases A with
    | nil => exact absurd rfl hne
    | cons b A' =>
      rw [List.cons_append, lineText, if_neg (hplain b (List.mem_cons_self _ _))]
      exact List.cons_ne_nil _ _
  have hlines : nonEmptyLines (A ++ 97 :: 10 :: R) = (A ++ [97]) :: [98] :: NR := by
    unfold nonEmptyLines at hNR ⊢
    rw [hsrc, splitLines_line _ _ h10, List.filter_cons, if_pos (decide_eq_true htext), hNR]
  have htail : (97 :: 10 :: R : List Nat) = [97] ++ 10 :: R := rfl
  constructor
  · rw [hlines, List.length_cons, List.length_cons, hcount]; decide
  · intro heq
    have hloaded : (loadSignaturesFromFile (some (A ++ 97 :: 10 :: R)) []).2[1]?
        = some (Signature.mk [97] false) := by
      have hshort : ∀ l ∈ splitLines (97 :: 10 :: R), l.length < MAX_SIGNATURE_LENGTH := by
        intro l hl
        rw [htail, splitLines_line [97] _ (by decide)] at hl
        rcases List.mem_cons.mp hl with e | h
        · rw [e]; decide
        · exact hR l h
      have hs : signaturesOfLines (97 :: 10 :: R)
          = Signature.mk [97] false :: signaturesOfLines R := by
        unfold signaturesOfLines
        rw [htail, splitLines_line [97] _ (by decide), signaturesOfLines_cons]
        rfl
      simp only [loadSignaturesFromFile]
      rw [loadLoop_full_buffer A _ [] hlen hplain hmark (by decide),
        loadLoop_eq _ _ hshort (by simp [MAX_SIGNATURES]), hs, List.nil_append,
        List.singleton_append,
        show MAX_SIGNATURES - [Signature.mk A false].length = 510 + 1 from rfl,
        List.take_succ_cons, List.getElem?_cons_succ, List.getElem?_cons_zero]
    have hexpected : (((nonEmptyLines (A ++ 97 :: 10 :: R)).take
        MAX_SIGNATURES).filterMap signatureOfLine)[1]? = some (Signature.mk [98] false) := by
      obtain ⟨s, hs⟩ := Option.isSome_iff_exists.mp
        ((signatureOfLine_isSome_iff (A ++ [97])).trans (decide_eq_true htext))
      have h98 : signatureOfLine [98] = some (Signature.mk [98] false) := by decide
      rw [hlines, show MAX_SIGNATURES = 510 + 1 + 1 from rfl, List.take_succ_cons,
        List.take_succ_cons, signaturesOfLines_cons, signaturesOfLines_cons, hs, h98]
      simp [Option.toList]
    rw [heq, hexpected] at hloaded
    exact absurd hloaded (by decide)

/-- The same source, counted: the loader returns 1 and stores `MAX_SIGNATURES`
signatures. -/
theorem loadSignatures_long_first_line_count (A R : List Nat) (NR : List (List Nat))
    (hlen : A.length = MAX_SIGNATURE_LENGTH - 1)
    (hplain : ∀ b ∈ A, ¬ (b = 0 ∨ b ∈ [13, 10])) (hmark : ¬ REGEX_MARK <+: A)
    (hR : ∀ l ∈ splitLines R, l.length < MAX_SIGNATURE_LENGTH)
    (hNR : nonEmptyLines R = [98] :: NR) (hcount : NR.length = MAX_SIGNATURES - 1) :
    (loadSignaturesFromFile (some (A ++ 97 :: 10 :: R)) []).1 = 1
      ∧ (loadSignaturesFromFile (some (A ++ 97 :: 10 :: R)) []).2.length
          = MAX_SIGNATURES := by
  have htail : (97 :: 10 :: R : List Nat) = [97] ++ 10 :: R := rfl
  have hshort : ∀ l ∈ splitLines (97 :: 10 :: R), l.length < MAX_SIGNATURE_LENGTH := by
    intro l hl
    rw [htail, splitLines_line [97] _ (by decide)] at hl
    rcases List.mem_cons.mp hl with e | h
    · rw [e]; decide
    · exact hR l h
  have hs : signaturesOfLines (97 :: 10 :: R)
      = Signature.mk [97] false :: signaturesOfLines R := by
    unfold signaturesOfLines
    rw [htail, splitLines_line [97] _ (by decide), signaturesOfLines_cons]
    rfl
  have hn : (signaturesOfLines R).length = MAX_SIGNATURES := by
    rw [(signaturesOfLines_take R 0).2, hNR, List.length_cons, hcount]; rfl
  refine ⟨rfl, ?_⟩
  simp only [loadSignaturesFromFile]
  rw [loadLoop_full_buffer A _ [] hlen hplain hmark (by decide),
    loadLoop_eq _ _ hshort (by simp [MAX_SIGNATURES]), hs]
  simp only [List.length_append, List.length_take, List.length_cons, List.length_nil, hn,
    MAX_SIGNATURES]
  omega

/-- Claim C9, at the failing input: the source is a line of 256 bytes `a` followed by 512
lines `b`. It opens and has 513 non-empty lines; `loadSignaturesFromFile` returns 1 with
`MAX_SIGNATURES` signatures, but these are not the signatures of the first
`MAX_SIGNATURES` non-empty lines: the first line is read in two parts and gives two
signatures, so the last of the first 512 non-empty lines is left out. -/
theorem loadSignatures_truncates_wrong_lines :
    MAX_SIGNATURES
        < (nonEmptyLines (List.replicate 255 97 ++ 97 :: 10 :: repeatLine [98] 512)).length
      ∧ (loadSignaturesFromFile
            (some (List.replicate 255 97 ++ 97 :: 10 :: repeatLine [98] 512)) []).1 = 1
      ∧ (loadSignaturesFromFile
            (some (List.replicate 255 97 ++ 97 :: 10 :: repeatLine [98] 512)) []).2.length
          = MAX_SIGNATURES
      ∧ (loadSignaturesFromFile
            (some (List.replicate 255 97 ++ 97 :: 10 :: repeatLine [98] 512)) []).2
          ≠ ((nonEmptyLines (List.replicate 255 97 ++ 97 :: 10 :: repeatLine [98] 512)).take
              MAX_SIGNATURES).filterMap signatureOfLine := by
  have hR : ∀ l ∈ splitLines (repeatLine [98] 512), l.length < MAX_SIGNATURE_LENGTH := by
    intro l hl
    rw [splitLines_repeatLine [98] 512 (by decide)] at hl
    rw [List.eq_of_mem_replicate hl]; decide
  have hNR : nonEmptyLines (repeatLine [98] 512) = [98] :: List.replicate 511 [98] := by
    rw [nonEmptyLines_repeatLine [98] 512 (by decide) (by decide)]; rfl
  have h1 := loadSignatures_long_first_line (List.replicate 255 97) (repeatLine [98] 512)
    (List.replicate 511 [98]) (List.length_replicate _ _)
    (fun _ hb => mem_replicate_plain hb) (replicate_not_marked 255) hR hNR
    (List.length_replicate _ _)
  have h2 := loadSignatures_long_first_line_count (List.replicate 255 97)
    (repeatLine [98] 512) (List.replicate 511 [98]) (List.length_replicate _ _)
    (fun _ hb => mem_replicate_plain hb) (replicate_not_marked 255) hR hNR
    (List.length_replicate _ _)
  exact ⟨h1.1, h2.1, h2.2, h1.2⟩

/-! ## The directory monitor: one poll -/

theorem find_path_none_iff (tracked : List MonitoredFile) (p : List Nat) :
    tracked.find? (fun e => decide (e.filePath = p)) = none
      ↔ p ∉ tracked.map MonitoredFile.filePath := by
  rw [List.find?_eq_none]
  simp only [decide_eq_true_eq, List.mem_map, not_exists, not_and]

theorem setTime_path (p : List Nat) (t : Int) (f : MonitoredFile) :
    (setTime p t f).filePath = f.filePath := by
  unfold setTime
  split <;> rfl

theorem map_setTime_paths (p : List Nat) (t : Int) (tracked : List MonitoredFile) :
    (tracked.map (setTime p t)).map MonitoredFile.filePath
      = tracked.map MonitoredFile.filePath := by
  rw [List.map_map]
  apply List.map_congr_left
  intro f _
  exact setTime_path p t f

theorem map_setTime_of_not_mem (p : List Nat) (t : Int) (tracked : List MonitoredFile)
    (h : p ∉ tracked.map MonitoredFile.filePath) : tracked.map (setTime p t) = tracked := by
  induction tracked with
  | nil => rfl
  | cons f rest ih =>
    simp only [List.map_cons, List.mem_cons, not_or] at h
    have hf : ¬ f.filePath = p := fun e => h.1 e.symm
    rw [List.map_cons, ih h.2, setTime, if_neg hf]

/-- The search loop, for a path that `stat` knows and a table with distinct paths. -/
theorem checkTracked_eq (fs : FileSystem) (p : List Nat) (st : FileStat)
    (hst : fs.stat p = some st) (tracked : List MonitoredFile)
    (hnd : (tracked.map MonitoredFile.filePath).Nodup) :
    checkTracked fs p tracked =
      (tracked.find? (fun e => decide (e.filePath = p))).map
        (fun e => (tracked.map (setTime p st.mtime),
          if e.lastModifiedTime ≠ st.mtime then [MonitorEvent.modified p] else [])) := by
  have hg : (getFileModifiedTime fs p 0).2 = st.mtime := by
    simp [getFileModifiedTime, hst]
  induction tracked with
  | nil => rfl
  | cons f rest ih =>
    simp only [List.map_cons, List.nodup_cons] at hnd
    by_cases hf : p = f.filePath
    · obtain ⟨fp, ft⟩ := f
      simp only at hf hnd
      subst hf
      have hrest : rest.map (setTime p st.mtime) = rest :=
        map_setTime_of_not_mem p st.mtime rest hnd.1
      rw [checkTracked, if_pos rfl, hg, List.find?_cons_of_pos _ (by simp),
        Option.map_some', List.map_cons, hrest]
      by_cases ht : st.mtime = ft
      · subst ht
        simp [setTime]
      · have ht' : ¬ ft = st.mtime := fun e => ht e.symm
        simp [setTime, ht, ht']
    · have hf' : ¬ f.filePath = p := fun e => hf e.symm
      rw [checkTracked, if_neg hf, ih hnd.2, List.find?_cons_of_neg _ (by simpa using hf')]
      cases hfind : rest.find? (fun e => decide (e.filePath = p)) with
      | none => rfl
      | some e => simp [setTime, hf']

theorem currentTime_cons_self (p : List Nat) (t : Int) (files : List (List Nat × Int)) :
    currentTime ((p, t) :: files) p = some t := by
  simp [currentTime]

theorem currentTime_cons_of_ne {p q : List Nat} (t : Int) (files : List (List Nat × Int))
    (h : ¬ p = q) : currentTime ((p, t) :: files) q = currentTime files q := by
  simp [currentTime, List.find?_cons, h]

theorem currentTime_of_not_mem {p : List Nat} {files : List (List Nat × Int)}
    (h : p ∉ files.map Prod.fst) : currentTime files p = none := by
  have : files.find? (fun f => decide (f.1 = p)) = none := by
    rw [List.find?_eq_none]
    intro f hf hp
    exact h (List.mem_map.mpr ⟨f, hf, by simpa using hp⟩)
  simp [currentTime, this]

theorem map_refreshed_cons_of_not_mem (p : List Nat) (t : Int)
    (files : List (List Nat × Int)) (tracked : List MonitoredFile)
    (h : p ∉ tracked.map MonitoredFile.filePath) :
    tracked.map (refreshed ((p, t) :: files)) = tracked.map (refreshed files) := by
  apply List.map_congr_left
  intro g hg
  have hne : ¬ p = g.filePath := fun e => h (List.mem_map.mpr ⟨g, hg, e.symm⟩)
  simp only [refreshed, currentTime_cons_of_ne t files hne]

theorem map_refreshed_setTime (p : List Nat) (t : Int) (files : List (List Nat × Int))
    (tracked : List MonitoredFile) (h : p ∉ files.map Prod.fst) :
    (tracked.map (setTime p t)).map (refreshed files)
      = tracked.map (refreshed ((p, t) :: files)) := by
  rw [List.map_map]
  apply List.map_congr_left
  intro g _
  by_cases hg : g.filePath = p
  · obtain ⟨gp, gt⟩ := g
    simp only at hg
    subst hg
    simp only [Function.comp, setTime, if_true, refreshed, currentTime_of_not_mem h,
      currentTime_cons_self]
  · have hne : ¬ p = g.filePath := fun e => hg e.symm
    simp only [Function.comp, setTime, if_neg hg, refreshed, currentTime_cons_of_ne t files hne]

theorem newEntries_cons_of_not_mem (p : List Nat) (t : Int) (files : List (List Nat × Int))
    (tracked : List MonitoredFile) (h : p ∉ tracked.map MonitoredFile.filePath) :
    newEntries tracked ((p, t) :: files) = MonitoredFile.mk p t :: newEntries tracked files := by
  simp only [newEntries, List.filter_cons, h, not_false_eq_true, decide_True, if_true,
    List.map_cons]

theorem newEntries_cons_of_mem (p : List Nat) (t : Int) (files : List (List Nat × Int))
    (tracked : List MonitoredFile) (h : p ∈ tracked.map MonitoredFile.filePath) :
    newEntries tracked ((p, t) :: files) = newEntries tracked files := by
  simp only [newEntries, List.filter_cons, h, not_true_eq_false, decide_False,
    Bool.false_eq_true, if_false]

theorem newEntries_setTime (p : List Nat) (t : Int) (files : List (List Nat × Int))
    (tracked : List MonitoredFile) :
    newEntries (tracked.map (setTime p t)) files = newEntries tracked files := by
  simp only [newEntries, map_setTime_paths]

theorem find_setTime_of_ne (p q : List Nat) (t : Int) (tracked : List MonitoredFile)
    (h : ¬ q = p) :
    (tracked.map (setTime p t)).find? (fun e => decide (e.filePath = q))
      = tracked.find? (fun e => decide (e.filePath = q)) := by
  induction tracked with
  | nil => rfl
  | cons g rest ih =>
    by_cases hg : g.filePath = q
    · have hgp : ¬ g.filePath = p := fun e => h (by rw [← hg, e])
      rw [List.map_cons, setTime, if_neg hgp, List.find?_cons_of_pos _ (by simpa using hg),
        List.find?_cons_of_pos _ (by simpa using hg)]
    · rw [List.map_cons, List.find?_cons_of_neg _ (by simpa [setTime_path] using hg),
        List.find?_cons_of_neg _ (by simpa using hg), ih]

theorem classify_setTime (p : List Nat) (t : Int) (tracked : List MonitoredFile)
    (f : List Nat × Int) (h : ¬ f.1 = p) :
    classify (tracked.map (setTime p t)) f = classify tracked f := by
  simp only [classify, find_setTime_of_ne p f.1 t tracked h]

theorem regularFileOf_some {fs : FileSystem} {dir name p : List Nat} {t : Int}
    (h : regularFileOf fs dir name = some (p, t)) :
    ¬ (name = [46] ∨ name = [46, 46]) ∧ p = fullPathOf dir name
      ∧ ∃ st, fs.stat (fullPathOf dir name) = some st ∧ st.isReg = true ∧ st.mtime = t := by
  unfold regularFileOf at h
  by_cases hdot : name = [46] ∨ name = [46, 46]
  · rw [if_pos hdot] at h; cases h
  · rw [if_neg hdot] at h
    cases hst : fs.stat (fullPathOf dir name) with
    | none => rw [hst] at h; cases h
    | some st =>
      rw [hst] at h
      by_cases hreg : st.isReg = true
      · simp only [hreg, if_true, Option.some.injEq, Prod.mk.injEq] at h
        exact ⟨hdot, h.1.symm, st, rfl, hreg, h.2⟩
      · simp only [hreg, Bool.false_eq_true, if_false] at h
        cases h

theorem checkEntry_of_none (fs : FileSystem) (dir name : List Nat) (n : Nat)
    (state : List MonitoredFile × List MonitorEvent)
    (h : regularFileOf fs dir name = none) : checkEntry fs dir n state name = state := by
  unfold regularFileOf at h
  unfold checkEntry
  by_cases hdot : name = [46] ∨ name = [46, 46]
  · rw [if_pos hdot]
  · rw [if_neg hdot] at h ⊢
    cases hst : fs.stat (fullPathOf dir name) with
    | none => rfl
    | some st =>
      rw [hst] at h
      by_cases hreg : st.isReg = true
      · simp [hreg] at h
      · simp [hreg]

/-- The loop body on the name of a regular file, for a table with distinct paths. -/
theorem checkEntry_of_some (fs : FileSystem) (dir name p : List Nat) (t : Int)
    (tracked extra : List MonitoredFile) (ev : List MonitorEvent)
    (h : regularFileOf fs dir name = some (p, t))
    (hnd : (tracked.map MonitoredFile.filePath).Nodup) :
    checkEntry fs dir tracked.length (tracked ++ extra, ev) name =
      match tracked.find? (fun e => decide (e.filePath = p)) with
      | none => (tracked ++ (extra ++ [MonitoredFile.mk p t]), ev ++ [MonitorEvent.newFile p])
      | some e =>
        (tracked.map (setTime p t) ++ extra,
          ev ++ (if e.lastModifiedTime ≠ t then [MonitorEvent.modified p] else [])) := by
  obtain ⟨hdot, hp, st, hst, hreg, ht⟩ := regularFileOf_some h
  subst hp
  subst ht
  have hg : (getFileModifiedTime fs (fullPathOf dir name) 0).2 = st.mtime := by
    simp [getFileModifiedTime, hst]
  unfold checkEntry
  rw [if_neg hdot, hst]
  simp only [hreg, not_true_eq_false, if_false, List.take_left', List.drop_left']
  rw [checkTracked_eq fs _ st hst tracked hnd, hg]
  cases tracked.find? (fun e => decide (e.filePath = fullPathOf dir name)) with
  | none => simp
  | some e => simp

/-- One poll, characterised: the tracked entries are refreshed in place, the entries of
the new files are appended in order of enumeration, and the events are those due for the
enumerated files, in order. -/
theorem poll_fold (fs : FileSystem) (dir : List Nat) (names : List (List Nat))
    (tracked extra : List MonitoredFile) (ev : List MonitorEvent)
    (hnd : (tracked.map MonitoredFile.filePath).Nodup)
    (hfiles : ((regularFiles fs dir names).map Prod.fst).Nodup) :
    names.foldl (checkEntry fs dir tracked.length) (tracked ++ extra, ev)
      = (tracked.map (refreshed (regularFiles fs dir names))
            ++ (extra ++ newEntries tracked (regularFiles fs dir names)),
          ev ++ (regularFiles fs dir names).filterMap (classify tracked)) := by
  induction names generalizing tracked extra ev with
  | nil =>
    have hr : ∀ g ∈ tracked, refreshed [] g = g := fun g _ => rfl
    simp [regularFiles, newEntries, List.map_congr_left hr]
  | cons name rest ih =>
    rw [List.foldl_cons]
    cases hfile : regularFileOf fs dir name with
    | none =>
      have hreg : regularFiles fs dir (name :: rest) = regularFiles fs dir rest := by
        simp [regularFiles, List.filterMap_cons, hfile]
      rw [hreg] at hfiles ⊢
      rw [checkEntry_of_none fs dir name _ _ hfile]
      exact ih tracked extra ev hnd hfiles
    | some f =>
      obtain ⟨p, t⟩ := f
      have hreg : regularFiles fs dir (name :: rest) = (p, t) :: regularFiles fs dir rest := by
        simp [regularFiles, List.filterMap_cons, hfile]
      rw [hreg] at hfiles ⊢
      simp only [List.map_cons, List.nodup_cons] at hfiles
      rw [checkEntry_of_some fs dir name p t tracked extra ev hfile hnd]
      cases hfind : tracked.find? (fun e => decide (e.filePath = p)) with
      | none =>
        have hp : p ∉ tracked.map MonitoredFile.filePath :=
          (find_path_none_iff tracked p).mp hfind
        simp only []
        rw [ih tracked _ _ hnd hfiles.2, map_refreshed_cons_of_not_mem p t _ tracked hp,
          newEntries_cons_of_not_mem p t _ tracked hp, List.filterMap_cons]
        simp [classify, hfind]
      | some e =>
        have hp : p ∈ tracked.map MonitoredFile.filePath := by
          by_contra hcon
          rw [(find_path_none_iff tracked p).mpr hcon] at hfind
          cases hfind
        have hlen : (tracked.map (setTime p t)).length = tracked.length := by simp
        have hnd' : ((tracked.map (setTime p t)).map MonitoredFile.filePath).Nodup := by
          rw [map_setTime_paths]; exact hnd
        have hcl : (regularFiles fs dir rest).filterMap (classify (tracked.map (setTime p t)))
            = (regularFiles fs dir rest).filterMap (classify tracked) := by
          apply List.filterMap_congr
          intro f hf
          apply classify_setTime
          intro e'
          exact hfiles.1 (List.mem_map.mpr ⟨f, hf, e'⟩)
        simp only []
        rw [← hlen, ih (tracked.map (setTime p t)) _ _ hnd' hfiles.2,
          map_refreshed_setTime p t _ tracked hfiles.1, newEntries_setTime,
          newEntries_cons_of_mem p t _ tracked hp, hcl, List.filterMap_cons]
        simp only [classify, hfind]
        by_cases hne : e.lastModifiedTime ≠ t
        · simp [hne]
        · simp [hne]

/-! ## The directory monitor: events and snapshot after one poll -/

/-- One poll of a directory that opens, for a snapshot and an enumeration with distinct
paths. -/
theorem poll_eq (fs : FileSystem) (dir : List Nat) (snap : List MonitoredFile)
    (names : List (List Nat)) (hread : fs.readdir dir = some names)
    (hsnap : (snap.map MonitoredFile.filePath).Nodup)
    (hfiles : ((regularFiles fs dir names).map Prod.fst).Nodup) :
    checkForDirectoryChanges fs dir snap
      = PollResult.mk 1
          (snap.map (refreshed (regularFiles fs dir names))
            ++ newEntries snap (regularFiles fs dir names))
          ((regularFiles fs dir names).filterMap (classify snap)) := by
  have h := poll_fold fs dir names snap [] [] hsnap hfiles
  simp only [List.append_nil, List.nil_append] at h
  simp only [checkForDirectoryChanges, hread, h]

theorem refreshed_path (files : List (List Nat × Int)) (f : MonitoredFile) :
    (refreshed files f).filePath = f.filePath := by
  unfold refreshed
  cases currentTime files f.filePath <;> rfl

theorem newEntries_paths (snap : List MonitoredFile) (files : List (List Nat × Int))
    (g : MonitoredFile) (hg : g ∈ newEntries snap files) :
    g.filePath ∉ snap.map MonitoredFile.filePath ∧ (g.filePath, g.lastModifiedTime) ∈ files := by
  unfold newEntries at hg
  obtain ⟨f, hf, hfg⟩ := List.mem_map.mp hg
  have hf' := List.mem_filter.mp hf
  subst hfg
  exact ⟨by simpa using hf'.2, hf'.1⟩

theorem fgets_fst_length_le (n : Nat) (s : List Nat) : (fgets n s).1.length ≤ n := by
  induction n generalizing s with
  | zero => simp [fgets]
  | succ n ih =>
    cases s with
    | nil => simp [fgets]
    | cons b r =>
      by_cases hb : b = 10
      · simp [fgets, hb]
      · have := ih r
        simp only [fgets, hb, if_false, List.length_cons]
        omega

theorem lineText_length_le (l : List Nat) : (lineText l).length ≤ l.length := by
  induction l with
  | nil => simp [lineText]
  | cons b l ih =>
    by_cases hb : b = 0 ∨ b ∈ [13, 10]
    · rw [lineText, if_pos hb]; simp
    · rw [lineText, if_neg hb]; simp only [List.length_cons]; omega

/-- The text of a signature built from what `fgets` stored is no longer than what was
stored. -/
theorem parseLine_text_length (r : List Nat) (sig : Signature)
    (h : parseLine (r ++ [0]) = some sig) : sig.signatureText.length ≤ r.length := by
  have ht : (lineText (r ++ [0])).length ≤ r.length := by
    rw [lineText_append_end r [] 0 (Or.inl rfl)]; exact lineText_length_le r
  rw [parseLine_eq] at h
  by_cases hnil : lineText (r ++ [0]) = []
  · rw [if_pos hnil] at h; cases h
  · rw [if_neg hnil] at h
    by_cases hpre : REGEX_MARK <+: lineText (r ++ [0])
    · rw [if_pos hpre] at h
      cases h
      simp only [List.length_take, List.length_drop]
      omega
    · rw [if_neg hpre] at h
      cases h
      simp only [List.length_take]
      omega

/-- The read loop never stores more than `MAX_SIGNATURES` signatures, and every text it
stores is shorter than `MAX_SIGNATURE_LENGTH`, whatever the source. -/
theorem loadLoop_bounds (s : List Nat) (acc : List Signature)
    (hacc : acc.length < MAX_SIGNATURES)
    (htext : ∀ g ∈ acc, g.signatureText.length < MAX_SIGNATURE_LENGTH) :
    (loadLoop s acc).length ≤ MAX_SIGNATURES
      ∧ ∀ g ∈ loadLoop s acc, g.signatureText.length < MAX_SIGNATURE_LENGTH := by
  generalize hn : s.length = n
  induction n using Nat.strong_induction_on generalizing s acc with
  | _ n ih =>
    rw [loadLoop]
    by_cases hs : s = []
    · rw [dif_pos hs]; exact ⟨le_of_lt hacc, htext⟩
    · rw [dif_neg hs]
      have hlt : (fgets (MAX_SIGNATURE_LENGTH - 1) s).2.length < n := by
        rw [← hn]; exact fgets_rest_length_lt _ s hs
      cases hp : parseLine ((fgets (MAX_SIGNATURE_LENGTH - 1) s).1 ++ [0]) with
      | none =>
        simp only []
        exact ih _ hlt _ acc hacc htext rfl
      | some sig =>
        have hsig : sig.signatureText.length < MAX_SIGNATURE_LENGTH := by
          have h1 := parseLine_text_length _ sig hp
          have h2 := fgets_fst_length_le (MAX_SIGNATURE_LENGTH - 1) s
          simp only [MAX_SIGNATURE_LENGTH] at h1 h2 ⊢
          omega
        have htext' : ∀ g ∈ acc ++ [sig], g.signatureText.length < MAX_SIGNATURE_LENGTH := by
          intro g hg
          rcases List.mem_append.mp hg with h | h
          · exact htext g h
          · rw [List.mem_singleton.mp h]; exact hsig
        simp only []
        by_cases hfull : (acc ++ [sig]).length ≥ MAX_SIGNATURES
        · rw [if_pos hfull]
          refine ⟨?_, htext'⟩
          simp only [List.length_append, List.length_singleton]
          omega
        · rw [if_neg hfull]
          exact ih _ hlt _ (acc ++ [sig]) (by omega) htext' rfl

/-- Claim C11: for every signature source that opens, `loadSignaturesFromFile` succeeds
with a count of at most `MAX_SIGNATURES`, and the text of every loaded signature is
shorter than `MAX_SIGNATURE_LENGTH`, so that the text and its terminator fit the buffer
of `MAX_SIGNATURE_LENGTH` bytes. -/
theorem loadSignatures_within_bounds (source : List Nat) (old : List Signature) :
    (loadSignaturesFromFile (some source) old).1 = 1
      ∧ (loadSignaturesFromFile (some source) old).2.length ≤ MAX_SIGNATURES
      ∧ ∀ sig ∈ (loadSignaturesFromFile (some source) old).2,
          sig.signatureText.length < MAX_SIGNATURE_LENGTH
            ∧ sig.signatureText.length + 1 ≤ MAX_SIGNATURE_LENGTH := by
  have h := loadLoop_bounds source [] (by decide) (by intro g hg; cases hg)
  refine ⟨rfl, h.1, ?_⟩
  intro sig hsig
  have := h.2 sig hsig
  exact ⟨this, this⟩

/-- Claim C12: `loadSignaturesFromFile` returns 0 if and only if the source cannot be
opened, and returns 1 for every source that opens, whatever its text. -/
theorem loadSignatures_fails_iff (source : Option (List Nat)) (old : List Signature) :
    ((loadSignaturesFromFile source old).1 = 0 ↔ source = none)
      ∧ ∀ text : List Nat, (loadSignaturesFromFile (some text) old).1 = 1 := by
  constructor
  · cases source with
    | none => simp [loadSignaturesFromFile]
    | some text => simp [loadSignaturesFromFile]
  · intro text; rfl

/-! ## `scanFile`: a regex that does not compile, and the returned value -/

theorem matchRegex_of_fails (re : List Nat → Option (List Nat → Bool))
    (text pattern : List Nat) (h : re (cstr pattern) = none) :
    matchRegex re text pattern = false := by
  simp [matchRegex, h]

theorem scanFrom_eq_nil_of_never (re : List Nat → Option (List Nat → Bool)) (sig : Signature)
    (off : Nat) (buf : List Nat) (idx : Nat) (h : ∀ w, matchFound re sig w = false) :
    scanFrom re sig off buf idx = [] := by
  induction buf generalizing idx with
  | nil => rfl
  | cons b rest ih =>
    by_cases hb : b = 0
    · simp [scanFrom, hb]
    · simp [scanFrom, hb, h, ih]

theorem scanBuffer_filter_of_never (re : List Nat → Option (List Nat → Bool))
    (sig : Signature) (buf : List Nat) (off : Nat) (sigs : List Signature)
    (h : ∀ w, matchFound re sig w = false) :
    scanBuffer re buf off (sigs.filter (fun s => decide (s ≠ sig)))
      = scanBuffer re buf off sigs := by
  induction sigs with
  | nil => rfl
  | cons s sigs ih =>
    by_cases hs : s = sig
    · subst hs
      rw [List.filter_cons_of_neg (by simp), ih, scanBuffer,
        scanFrom_eq_nil_of_never re s off buf 0 h, List.nil_append]
    · rw [List.filter_cons_of_pos (by simpa using hs), scanBuffer, scanBuffer, ih]

theorem scanLoop_filter_of_never (re : List Nat → Option (List Nat → Bool))
    (sig : Signature) (sigs : List Signature) (file : List Nat) (off : Nat)
    (h : ∀ w, matchFound re sig w = false) :
    scanLoop re (sigs.filter (fun s => decide (s ≠ sig))) file off
      = scanLoop re sigs file off := by
  induction file, off using scanLoop.induct re sigs with
  | case1 file off hz =>
    rw [scanLoop, dif_pos hz, scanLoop, dif_pos hz]
  | case2 file off hz ih =>
    rw [scanLoop, dif_neg hz, scanLoop.eq_1 re sigs, dif_neg hz, ih,
      scanBuffer_filter_of_never re sig _ _ sigs h]

/-- Claim C13: when the pattern of a regex signature fails to compile, `matchRegex` returns
0 on it for every text, and for every file and signature list `scanFile` completes with
exactly the result (returned count and reported matches, in order) that it gives for the
same list with that signature removed. -/
theorem scanFile_ignores_uncompilable (re : List Nat → Option (List Nat → Bool))
    (sigs : List Signature) (file pattern : List Nat) (hfail : re (cstr pattern) = none) :
    (∀ text, matchRegex re text pattern = false)
      ∧ scanFile re (some file) sigs
          = scanFile re (some file)
              (sigs.filter (fun s => decide (s ≠ Signature.mk pattern true))) := by
  have hnever : ∀ w, matchFound re (Signature.mk pattern true) w = false := by
    intro w
    simp [matchFound, matchRegex_of_fails re w pattern hfail]
  refine ⟨fun text => matchRegex_of_fails re text pattern hfail, ?_⟩
  simp only [scanFile, scanFileMatches,
    scanLoop_filter_of_never re (Signature.mk pattern true) sigs file 0 hnever]

/-- Witness of claim C13: no pattern compiles, the list holds the regex signature `(` and
the literal signature `a`, and the file is `a`. -/
theorem scanFile_ignores_uncompilable_witness :
    (fun _ => none : List Nat → Option (List Nat → Bool)) (cstr [40]) = none
      ∧ (∀ text, matchRegex (fun _ => none) text [40] = false)
      ∧ scanFile (fun _ => none) (some [97]) [Signature.mk [40] true, Signature.mk [97] false]
          = scanFile (fun _ => none) (some [97])
              ([Signature.mk [40] true, Signature.mk [97] false].filter
                (fun s => decide (s ≠ Signature.mk [40] true))) :=
  ⟨rfl, scanFile_ignores_uncompilable (fun _ => none)
    [Signature.mk [40] true, Signature.mk [97] false] [97] [40] rfl⟩

theorem scanLoop_nil (re : List Nat → Option (List Nat → Bool)) (sigs : List Signature)
    (off : Nat) : scanLoop re sigs [] off = [] := by
  rw [scanLoop, dif_pos (by simp)]

/-- Claim C14, at the failing input: for a file that cannot be opened and for an empty
file, which is read completely and has no match, `scanFile` hands back the same value 0,
whatever the signature list. -/
theorem scanFile_failure_looks_clean (re : List Nat → Option (List Nat → Bool))
    (sigs : List Signature) :
    (scanFile re none sigs).1 = 0 ∧ (scanFile re (some []) sigs).1 = 0
      ∧ scanFile re none sigs = scanFile re (some []) sigs := by
  have hfail : scanFile re none sigs = (0, []) := rfl
  have hclean : scanFile re (some []) sigs = (0, []) := by
    simp [scanFile, scanFileMatches, scanLoop_nil]
  rw [hfail, hclean]
  exact ⟨rfl, rfl, rfl⟩

/-! ## `scanFile`: the order of the reported matches -/

theorem scanFrom_facts (re : List Nat → Option (List Nat → Bool)) (sig : Signature)
    (off : Nat) (buf : List Nat) (idx : Nat) (m : ScanMatch)
    (hm : m ∈ scanFrom re sig off buf idx) :
    m.signature = sig ∧ off + idx ≤ m.offset ∧ m.offset < off + idx + (cstr buf).length := by
  rw [mem_scanFrom] at hm
  obtain ⟨k, hk, _, rfl⟩ := hm
  exact ⟨rfl, by simp, by simp only; omega⟩

theorem scanFrom_pairwise (re : List Nat → Option (List Nat → Bool)) (sig : Signature)
    (off : Nat) (buf : List Nat) (idx : Nat) :
    (scanFrom re sig off buf idx).Pairwise (fun a b => a.offset < b.offset) := by
  induction buf generalizing idx with
  | nil => simp [scanFrom]
  | cons b rest ih =>
    by_cases hb : b = 0
    · simp [scanFrom, hb]
    · simp only [scanFrom, hb, if_false]
      rw [List.pairwise_append]
      refine ⟨?_, ih (idx + 1), ?_⟩
      · by_cases hf : matchFound re sig (b :: rest) = true
        · simp [hf]
        · simp [hf]
      · intro a ha c hc
        have hc' := (scanFrom_facts re sig off rest (idx + 1) c hc).2.1
        by_cases hf : matchFound re sig (b :: rest) = true
        · rw [if_pos hf, List.mem_singleton] at ha
          rw [ha]; simp only; omega
        · rw [if_neg hf] at ha; cases ha

theorem scanBuffer_facts (re : List Nat → Option (List Nat → Bool)) (chunk : List Nat)
    (off : Nat) (sigs : List Signature) (m : ScanMatch)
    (hm : m ∈ scanBuffer re (chunk ++ [0]) off sigs) :
    off ≤ m.offset ∧ m.offset < off + chunk.length := by
  rw [mem_scanBuffer] at hm
  obtain ⟨sig, _, hm⟩ := hm
  have h := scanFrom_facts re sig off _ 0 m hm
  rw [cstr_append_zero] at h
  have := cstr_length_le chunk
  omega

theorem scanBuffer_filter_signature (re : List Nat → Option (List Nat → Bool))
    (buf : List Nat) (off : Nat) (sigs : List Signature) (s : Signature) (hnd : sigs.Nodup) :
    ((scanBuffer re buf off sigs).filter (fun m => decide (m.signature = s))).Pairwise
      (fun a b => a.offset < b.offset) := by
  induction sigs with
  | nil => simp [scanBuffer]
  | cons g sigs ih =>
    rw [List.nodup_cons] at hnd
    rw [scanBuffer, List.filter_append]
    by_cases hg : g = s
    · subst hg
      have hrest : (scanBuffer re buf off sigs).filter (fun m => decide (m.signature = g))
          = [] := by
        rw [List.filter_eq_nil_iff]
        intro m hm hsig
        rw [mem_scanBuffer] at hm
        obtain ⟨sig, hsig', hm⟩ := hm
        have h1 := (scanFrom_facts re sig off buf 0 m hm).1
        have h2 : m.signature = g := by simpa using hsig
        exact hnd.1 (by rw [← h2, h1]; exact hsig')
      rw [hrest, List.append_nil]
      exact (scanFrom_pairwise re g off buf 0).filter _
    · have hfirst : (scanFrom re g off buf 0).filter (fun m => decide (m.signature = s))
          = [] := by
        rw [List.filter_eq_nil_iff]
        intro m hm hsig
        have h1 := (scanFrom_facts re g off buf 0 m hm).1
        have h2 : m.signature = s := by simpa using hsig
        exact hg (by rw [← h1, h2])
      rw [hfirst, List.nil_append]
      exact ih hnd.2

theorem scanLoop_ge (re : List Nat → Option (List Nat → Bool)) (sigs : List Signature)
    (file : List Nat) (off : Nat) (m : ScanMatch) (hm : m ∈ scanLoop re sigs file off) :
    off ≤ m.offset := by
  rw [mem_scanLoop] at hm
  obtain ⟨c, _, hm⟩ := hm
  have := (scanBuffer_facts re _ _ sigs m hm).1
  omega

theorem scanLoop_filter_pairwise (re : List Nat → Option (List Nat → Bool))
    (sigs : List Signature) (file : List Nat) (off : Nat) (s : Signature)
    (hnd : sigs.Nodup) :
    ((scanLoop re sigs file off).filter (fun m => decide (m.signature = s))).Pairwise
      (fun a b => a.offset < b.offset) := by
  induction file, off using scanLoop.induct re sigs with
  | case1 file off hz =>
    rw [scanLoop, dif_pos hz]; simp
  | case2 file off hz ih =>
    rw [scanLoop, dif_neg hz, List.filter_append, List.pairwise_append]
    refine ⟨scanBuffer_filter_signature re _ off sigs s hnd, ih, ?_⟩
    intro a ha b hb
    have ha' := (scanBuffer_facts re _ off sigs a (List.mem_filter.mp ha).1).2
    have hb' := scanLoop_ge re sigs _ _ b (List.mem_filter.mp hb).1
    omega

theorem scanLoop_chunk_order (re : List Nat → Option (List Nat → Bool))
    (sigs : List Signature) (file : List Nat) (off : Nat) :
    ∀ c0, off = BUFFER_SIZE * c0 →
      (scanLoop re sigs file off).Pairwise
        (fun a b => a.offset / BUFFER_SIZE ≤ b.offset / BUFFER_SIZE) := by
  induction file, off using scanLoop.induct re sigs with
  | case1 file off hz =>
    intro c0 _
    rw [scanLoop, dif_pos hz]; simp
  | case2 file off hz ih =>
    intro c0 hoff
    rw [scanLoop, dif_neg hz]
    by_cases hrest : file.drop BUFFER_SIZE = []
    · rw [hrest, scanLoop_nil, List.append_nil]
      rw [List.pairwise_iff_forall_sublist]
      intro a b hab
      have ha := scanBuffer_facts re _ off sigs a (hab.subset (by simp))
      have hb := scanBuffer_facts re _ off sigs b (hab.subset (by simp))
      have hlen : (file.take BUFFER_SIZE).length ≤ BUFFER_SIZE := by
        rw [List.length_take]; exact Nat.min_le_left _ _
      have e1 : a.offset / BUFFER_SIZE = c0 := by
        simp only [BUFFER_SIZE] at ha hlen hoff ⊢; omega
      have e2 : b.offset / BUFFER_SIZE = c0 := by
        simp only [BUFFER_SIZE] at hb hlen hoff ⊢; omega
      rw [e1, e2]
    · have hlen : (file.take BUFFER_SIZE).length = BUFFER_SIZE := by
        have hpos : 0 < (file.drop BUFFER_SIZE).length := List.length_pos.mpr hrest
        simp only [List.length_drop, List.length_take, BUFFER_SIZE] at hpos ⊢
        omega
      rw [List.pairwise_append]
      refine ⟨?_, ih (c0 + 1) (by rw [hlen, hoff]; simp only [BUFFER_SIZE]; omega), ?_⟩
      · rw [List.pairwise_iff_forall_sublist]
        intro a b hab
        have ha := scanBuffer_facts re _ off sigs a (hab.subset (by simp))
        have hb := scanBuffer_facts re _ off sigs b (hab.subset (by simp))
        have e1 : a.offset / BUFFER_SIZE = c0 := by
          simp only [BUFFER_SIZE] at ha hlen hoff ⊢; omega
        have e2 : b.offset / BUFFER_SIZE = c0 := by
          simp only [BUFFER_SIZE] at hb hlen hoff ⊢; omega
        rw [e1, e2]
      · intro a ha b hb
        have ha' := scanBuffer_facts re _ off sigs a ha
        have hb' := scanLoop_ge re sigs _ _ b hb
        simp only [BUFFER_SIZE] at ha' hb' hlen hoff ⊢
        omega

/-- Claim C15, amended: for every file and every signature list without a repeated
signature, the matches `scanFile` reports are ordered by chunk (a match of an earlier
chunk of `BUFFER_SIZE` bytes comes before a match of a later one), the matches reported
for any one signature are in strictly increasing order of offset, and with a single
signature the whole sequence is in strictly increasing order of offset. -/
theorem scanFile_report_order (re : List Nat → Option (List Nat → Bool))
    (sigs : List Signature) (file : List Nat) (hnd : sigs.Nodup) :
    (scanFile re (some file) sigs).2.Pairwise
        (fun a b => a.offset / BUFFER_SIZE ≤ b.offset / BUFFER_SIZE)
      ∧ (∀ s, ((scanFile re (some file) sigs).2.filter
            (fun m => decide (m.signature = s))).Pairwise (fun a b => a.offset < b.offset))
      ∧ (∀ s, sigs = [s] →
          (scanFile re (some file) sigs).2.Pairwise (fun a b => a.offset < b.offset)) := by
  simp only [scanFile, scanFileMatches]
  refine ⟨scanLoop_chunk_order re sigs file 0 0 rfl,
    fun s => scanLoop_filter_pairwise re sigs file 0 s hnd, ?_⟩
  intro s hs
  have hall : (scanLoop re sigs file 0).filter (fun m => decide (m.signature = s))
      = scanLoop re sigs file 0 := by
    rw [List.filter_eq_self]
    intro m hm
    have hm' : m ∈ scanFileMatches re sigs file := hm
    rw [mem_scanFileMatches] at hm'
    obtain ⟨_, _, hsig, _⟩ := hm'
    rw [hs, List.mem_singleton] at hsig
    simpa using hsig
  rw [← hall]
  exact scanLoop_filter_pairwise re sigs file 0 s hnd

/-- Witness of claim C15 (amended): the file `ab` with the signatures `b` and `a`. -/
theorem scanFile_report_order_witness :
    [Signature.mk [98] false, Signature.mk [97] false].Nodup
      ∧ (scanFile (fun _ => none) (some [97, 98])
          [Signature.mk [98] false, Signature.mk [97] false]).2.Pairwise
            (fun a b => a.offset / BUFFER_SIZE ≤ b.offset / BUFFER_SIZE)
      ∧ ((scanFile (fun _ => none) (some [97, 98])
          [Signature.mk [98] false, Signature.mk [97] false]).2.filter
            (fun m => decide (m.signature = Signature.mk [98] false))).Pairwise
              (fun a b => a.offset < b.offset) :=
  ⟨by decide,
    (scanFile_report_order (fun _ => none) [Signature.mk [98] false, Signature.mk [97] false]
      [97, 98] (by decide)).1,
    (scanFile_report_order (fun _ => none) [Signature.mk [98] false, Signature.mk [97] false]
      [97, 98] (by decide)).2.1 (Signature.mk [98] false)⟩

/-- Claim C15 as stated fails: on the file `ab` with the signatures `b` and `a`,
`scanFile` reports `b` at offsets 0 and 1 and then `a` at offset 0, so the offsets of the
reported sequence are 0, 1, 0. -/
theorem scanFile_report_order_counterexample :
    (scanFile (fun _ => none) (some [97, 98])
        [Signature.mk [98] false, Signature.mk [97] false]).2
      = [ScanMatch.mk (Signature.mk [98] false) 0, ScanMatch.mk (Signature.mk [98] false) 1,
          ScanMatch.mk (Signature.mk [97] false) 0]
      ∧ ¬ (scanFile (fun _ => none) (some [97, 98])
          [Signature.mk [98] false, Signature.mk [97] false]).2.Pairwise
            (fun a b => a.offset ≤ b.offset) := by
  have h : (scanFile (fun _ => none) (some [97, 98])
        [Signature.mk [98] false, Signature.mk [97] false]).2
      = [ScanMatch.mk (Signature.mk [98] false) 0, ScanMatch.mk (Signature.mk [98] false) 1,
          ScanMatch.mk (Signature.mk [97] false) 0] := by
    simp [scanFile, scanFileMatches, scanLoop, scanBuffer, scanFrom, BUFFER_SIZE]
    decide
  refine ⟨h, ?_⟩
  rw [h]
  decide

/-! ## `scanDirectoryRecursive` and paths that do not fit `MAX_PATH_LENGTH` -/

theorem fullPathOf_cut (root name : List Nat) (k : Nat)
    (hlen : root.length + k = MAX_PATH_LENGTH - 1) :
    fullPathOf root name = root ++ (47 :: name).take k := by
  unfold fullPathOf
  rw [List.take_append_eq_append_take, List.take_of_length_le (by omega)]
  congr 2
  omega

theorem longRoot_length : longRoot.length = 509 := by
  unfold longRoot
  rw [List.length_append, List.length_cons, List.length_replicate, List.length_replicate]

theorem longDir_length : longDir.length = 510 := by
  unfold longDir
  rw [List.length_append, List.length_cons, List.length_replicate, List.length_replicate]

/-- A directory whose path has 509 bytes and which holds the regular file `cd`: the path
built for `cd` is cut to `root/c`, `stat` fails on it, and the file is not scanned. -/
theorem walk_misses_file (root : List Nat) (hlen : root.length = 509) (fuel : Nat) :
    (oneFileFs root).stat (root ++ [47, 99, 100]) = some (FileStat.mk true false 0)
      ∧ scanDirectoryRecursive (oneFileFs root) (fuel + 1) root = some (1, []) := by
  have hpath : fullPathOf root [99, 100] = root ++ [47, 99] := by
    rw [fullPathOf_cut root [99, 100] 2 (by rw [hlen]; rfl)]; rfl
  have hne1 : ¬ root ++ [47, 99] = root := by
    intro h
    have := congrArg List.length h
    simp at this
  have hne2 : ¬ root ++ [47, 99] = root ++ [47, 99, 100] := by
    intro h
    have := congrArg List.length h
    simp at this
  have hne3 : ¬ root ++ [47, 99, 100] = root := by
    intro h
    have := congrArg List.length h
    simp at this
  constructor
  · simp [oneFileFs, hne3]
  · simp [scanDirectoryRecursive, oneFileFs, hpath, hne1, hne2]

/-- Claim C16, at the failing input: the root directory has a path of 509 bytes (two
components of 254 bytes) and holds one regular file, `cd`. The tree has one regular file,
yet `scanDirectoryRecursive` returns 1 without any call of `scanFile`: `snprintf` cuts the
path of the file to `MAX_PATH_LENGTH - 1` bytes and `stat` fails on the cut path. -/
theorem scanDirectoryRecursive_misses_long_path :
    longRoot.length = 509
      ∧ (oneFileFs longRoot).stat (longRoot ++ [47, 99, 100]) = some (FileStat.mk true false 0)
      ∧ ∀ fuel, scanDirectoryRecursive (oneFileFs longRoot) (fuel + 1) longRoot
          = some (1, []) :=
  ⟨longRoot_length, (walk_misses_file longRoot longRoot_length 0).1,
    fun fuel => (walk_misses_file longRoot longRoot_length fuel).2⟩

/-- A directory whose path has 510 bytes and which holds one regular file: the path built
for the file is cut to `dir/`, which is the directory again, so the walk calls itself on
the same directory, and as long as `opendir` succeeds no bound on the depth is enough for
it to return. In the program every level holds a directory stream open, so the descent
ends when `opendir` fails for lack of streams; the file is not scanned either way. -/
theorem walk_never_returns (dir : List Nat) (hlen : dir.length = 510) (fuel : Nat) :
    scanDirectoryRecursive (oneFileDirFs dir) fuel (dir ++ [47]) = none
      ∧ scanDirectoryRecursive (oneFileDirFs dir) fuel dir = none := by
  have hpath1 : fullPathOf dir [97] = dir ++ [47] := by
    rw [fullPathOf_cut dir [97] 1 (by rw [hlen]; rfl)]; rfl
  have hpath2 : fullPathOf (dir ++ [47]) [97] = dir ++ [47] := by
    rw [fullPathOf_cut (dir ++ [47]) [97] 0 (by simp [hlen, MAX_PATH_LENGTH])]
    simp
  have hread1 : (oneFileDirFs dir).readdir (dir ++ [47]) = some [[46], [46, 46], [97]] := by
    simp [oneFileDirFs]
  have hread2 : (oneFileDirFs dir).readdir dir = some [[46], [46, 46], [97]] := by
    simp [oneFileDirFs]
  have hstat : (oneFileDirFs dir).stat (dir ++ [47]) = some (FileStat.mk false true 0) := by
    simp [oneFileDirFs]
  induction fuel with
  | zero => exact ⟨rfl, rfl⟩
  | succ fuel ih =>
    constructor
    · simp [scanDirectoryRecursive, hread1, hpath2, hstat, ih.1]
    · simp [scanDirectoryRecursive, hread2, hpath1, hstat, ih.1]

/-- The walk on a directory of path length 510 with one regular file, with an `opendir`
that never fails on the directory: no bound on the depth of the recursion is enough. -/
theorem scanDirectoryRecursive_never_returns :
    longDir.length = 510
      ∧ ∀ fuel, scanDirectoryRecursive (oneFileDirFs longDir) fuel longDir = none :=
  ⟨longDir_length, fun fuel => (walk_never_returns longDir longDir_length fuel).2⟩

/-! ## `buildInitialFileList` -/

/-- The initial enumeration stores the entries of the regular files in order, until the
table holds `MAX_MONITOR_FILES` of them. -/
theorem buildLoop_eq (fs : FileSystem) (dir : List Nat) (names : List (List Nat))
    (acc : List MonitoredFile) (hacc : acc.length < MAX_MONITOR_FILES) :
    buildLoop fs dir names acc
      = acc ++ (((regularFiles fs dir names).map
          (fun f => MonitoredFile.mk f.1 f.2)).take (MAX_MONITOR_FILES - acc.length)) := by
  induction names generalizing acc with
  | nil => simp [buildLoop, regularFiles]
  | cons name rest ih =>
    unfold buildLoop
    by_cases hdot : name = [46] ∨ name = [46, 46]
    · have hreg : regularFiles fs dir (name :: rest) = regularFiles fs dir rest := by
        simp [regularFiles, List.filterMap_cons, regularFileOf, hdot]
      rw [if_pos hdot, hreg]
      exact ih acc hacc
    · rw [if_neg hdot]
      cases hst : fs.stat (fullPathOf dir name) with
      | none =>
        have hreg : regularFiles fs dir (name :: rest) = regularFiles fs dir rest := by
          simp [regularFiles, List.filterMap_cons, regularFileOf, hdot, hst]
        simp only [hreg]
        exact ih acc hacc
      | some st =>
        by_cases hisreg : st.isReg = true
        · have hreg : regularFiles fs dir (name :: rest)
              = (fullPathOf dir name, st.mtime) :: regularFiles fs dir rest := by
            simp [regularFiles, List.filterMap_cons, regularFileOf, hdot, hst, hisreg]
          simp only [hreg, hisreg, if_true, List.map_cons]
          by_cases hfull : (acc ++ [MonitoredFile.mk (fullPathOf dir name) st.mtime]).length
              ≥ MAX_MONITOR_FILES
          · rw [if_pos hfull]
            have h1 : MAX_MONITOR_FILES - acc.length = 1 := by
              simp only [List.length_append, List.length_singleton] at hfull; omega
            rw [h1]; simp
          · rw [if_neg hfull, ih _ (by omega)]
            have h1 : MAX_MONITOR_FILES - acc.length
                = (MAX_MONITOR_FILES
                    - (acc ++ [MonitoredFile.mk (fullPathOf dir name) st.mtime]).length) + 1 := by
              simp only [List.length_append, List.length_singleton] at hfull ⊢; omega
            rw [h1, List.take_succ_cons]
            simp
        · have hreg : regularFiles fs dir (name :: rest) = regularFiles fs dir rest := by
            simp [regularFiles, List.filterMap_cons, regularFileOf, hdot, hst, hisreg]
          simp only [hreg, hisreg, Bool.false_eq_true, if_false]
          exact ih acc hacc

theorem buildInitialFileList_eq (fs : FileSystem) (dir : List Nat) (names : List (List Nat))
    (old : List MonitoredFile) (hread : fs.readdir dir = some names) :
    buildInitialFileList fs dir old
      = (1, ((regularFiles fs dir names).map
          (fun f => MonitoredFile.mk f.1 f.2)).take MAX_MONITOR_FILES) := by
  simp only [buildInitialFileList, hread]
  rw [buildLoop_eq fs dir names [] (by decide)]
  simp

theorem mem_regularFiles {fs : FileSystem} {dir : List Nat} {names : List (List Nat)}
    {p : List Nat} {t : Int} (h : (p, t) ∈ regularFiles fs dir names) :
    ∃ name ∈ names, ¬ (name = [46] ∨ name = [46, 46]) ∧ p = fullPathOf dir name
      ∧ ∃ st, fs.stat (fullPathOf dir name) = some st ∧ st.isReg = true ∧ st.mtime = t := by
  unfold regularFiles at h
  obtain ⟨name, hname, hf⟩ := List.mem_filterMap.mp h
  obtain ⟨hdot, hp, hst⟩ := regularFileOf_some hf
  exact ⟨name, hname, hdot, hp, hst⟩

/-- The snapshot in terms of the paths the loop forms: `buildInitialFileList` returns 0
if and only if the directory cannot be opened. For a directory that opens and for which
`regularFiles` has at most `MAX_MONITOR_FILES` members, it returns 1 and the snapshot is
`regularFiles` entry by entry, in order. The path of every entry is the path formed for a
name that `readdir` lists, other than `.` and `..`, and `stat` reports that path as a
regular file. What this says of a child whose path does not fit `MAX_PATH_LENGTH` is
nothing: see `build_misses_file` and `build_repeats_path`. -/
theorem buildInitialFileList_exact (fs : FileSystem) (dir : List Nat)
    (old : List MonitoredFile) :
    ((buildInitialFileList fs dir old).1 = 0 ↔ fs.readdir dir = none)
      ∧ ∀ names, fs.readdir dir = some names →
          (regularFiles fs dir names).length ≤ MAX_MONITOR_FILES →
          buildInitialFileList fs dir old
              = (1, (regularFiles fs dir names).map (fun f => MonitoredFile.mk f.1 f.2))
            ∧ ∀ e ∈ (buildInitialFileList fs dir old).2,
                ∃ name ∈ names, ¬ (name = [46] ∨ name = [46, 46])
                  ∧ e.filePath = fullPathOf dir name
                  ∧ ∃ st, fs.stat (fullPathOf dir name) = some st ∧ st.isReg = true
                      ∧ e.lastModifiedTime = st.mtime := by
  constructor
  · cases hread : fs.readdir dir with
    | none => simp [buildInitialFileList, hread]
    | some names => simp [buildInitialFileList, hread]
  · intro names hread hcount
    have hb : buildInitialFileList fs dir old
        = (1, (regularFiles fs dir names).map (fun f => MonitoredFile.mk f.1 f.2)) := by
      rw [buildInitialFileList_eq fs dir names old hread,
        List.take_of_length_le (by simpa using hcount)]
    refine ⟨hb, ?_⟩
    intro e he
    rw [hb] at he
    obtain ⟨f, hf, hfe⟩ := List.mem_map.mp he
    obtain ⟨p, t⟩ := f
    obtain ⟨name, hname, hdot, hp, st, hst, hreg, ht⟩ := mem_regularFiles hf
    subst hfe
    exact ⟨name, hname, hdot, hp, st, hst, hreg, ht.symm⟩

/-- The snapshot of the directory `d`, which holds the regular file `d/a` and the
subdirectory `d/s` with the file `d/s/f`: the one entry of `d/a`. -/
theorem buildInitialFileList_exact_witness :
    exampleTreeFs.readdir [100] = some [[46], [46, 46], [97], [115]]
      ∧ (regularFiles exampleTreeFs [100] [[46], [46, 46], [97], [115]]).length
          ≤ MAX_MONITOR_FILES
      ∧ buildInitialFileList exampleTreeFs [100] []
          = (1, (regularFiles exampleTreeFs [100] [[46], [46, 46], [97], [115]]).map
              (fun f => MonitoredFile.mk f.1 f.2))
      ∧ buildInitialFileList exampleTreeFs [100] [] = (1, [MonitoredFile.mk [100, 47, 97] 5]) :=
  ⟨rfl, by decide,
    ((buildInitialFileList_exact exampleTreeFs [100] []).2 [[46], [46, 46], [97], [115]] rfl
      (by decide)).1,
    by decide⟩

/-! ## The snapshot over build and poll: capacity and distinct paths -/

theorem map_entry_paths (files : List (List Nat × Int)) :
    (files.map (fun f => MonitoredFile.mk f.1 f.2)).map MonitoredFile.filePath
      = files.map Prod.fst := by
  rw [List.map_map]; rfl

theorem build_paths_nodup (files : List (List Nat × Int)) (n : Nat)
    (hnd : (files.map Prod.fst).Nodup) :
    (((files.map (fun f => MonitoredFile.mk f.1 f.2)).take n).map
      MonitoredFile.filePath).Nodup := by
  rw [← List.map_take, map_entry_paths]
  exact hnd.sublist ((List.take_sublist _ _).map _)

theorem filter_not_mem_left (A B : List (List Nat × Int))
    (hnd : ((A ++ B).map Prod.fst).Nodup) :
    (A ++ B).filter (fun f => decide (f.1 ∉ A.map Prod.fst)) = B := by
  rw [List.map_append, List.nodup_append] at hnd
  obtain ⟨_, _, hdisj⟩ := hnd
  rw [List.filter_append]
  have h1 : A.filter (fun f => decide (f.1 ∉ A.map Prod.fst)) = [] := by
    rw [List.filter_eq_nil_iff]
    intro f hf hdec
    have : f.1 ∉ A.map Prod.fst := by simpa using hdec
    exact this (List.mem_map.mpr ⟨f, hf, rfl⟩)
  have h2 : B.filter (fun f => decide (f.1 ∉ A.map Prod.fst)) = B := by
    rw [List.filter_eq_self]
    intro f hf
    have hmem : f.1 ∈ B.map Prod.fst := List.mem_map.mpr ⟨f, hf, rfl⟩
    have : f.1 ∉ A.map Prod.fst := fun h => hdisj h hmem
    simpa using this
  rw [h1, h2, List.nil_append]

/-- The entries a poll appends after a build: those of the enumerated files that the
build left out. -/
theorem newEntries_after_build (files : List (List Nat × Int)) (n : Nat)
    (hnd : (files.map Prod.fst).Nodup) :
    newEntries ((files.map (fun f => MonitoredFile.mk f.1 f.2)).take n) files
      = (files.drop n).map (fun f => MonitoredFile.mk f.1 f.2) := by
  have hpaths : ((files.map (fun f => MonitoredFile.mk f.1 f.2)).take n).map
      MonitoredFile.filePath = (files.take n).map Prod.fst := by
    rw [← List.map_take, map_entry_paths]
  have key := filter_not_mem_left (files.take n) (files.drop n)
    (by rw [List.take_append_drop]; exact hnd)
  rw [List.take_append_drop] at key
  unfold newEntries
  rw [hpaths, key]

/-- A build followed by one poll of the same directory: the table holds as many entries
as the directory has regular files, however many they are. -/
theorem poll_after_build_length (fs : FileSystem) (dir : List Nat)
    (names : List (List Nat)) (old : List MonitoredFile)
    (hread : fs.readdir dir = some names)
    (hfiles : ((regularFiles fs dir names).map Prod.fst).Nodup) :
    (buildInitialFileList fs dir old).2.length
        = min MAX_MONITOR_FILES (regularFiles fs dir names).length
      ∧ (checkForDirectoryChanges fs dir (buildInitialFileList fs dir old).2).fileList.length
          = (regularFiles fs dir names).length := by
  rw [buildInitialFileList_eq fs dir names old hread]
  simp only []
  rw [poll_eq fs dir _ names hread (build_paths_nodup _ _ hfiles) hfiles]
  simp only [newEntries_after_build _ _ hfiles, List.length_append, List.length_map,
    List.length_take, List.length_drop]
  refine ⟨trivial, ?_⟩
  omega

theorem regularFiles_manyFilesFs (n : Nat) (dir : List Nat) (L : List Nat) :
    regularFiles (manyFilesFs n) dir (L.map nameOf)
      = L.map (fun i => (fullPathOf dir (nameOf i), (0 : Int))) := by
  induction L with
  | nil => rfl
  | cons i L ih =>
    have hdot : ¬ (nameOf i = [46] ∨ nameOf i = [46, 46]) := by
      simp [nameOf]
      omega
    unfold regularFiles at ih ⊢
    rw [List.map_cons, List.filterMap_cons, ih]
    simp [regularFileOf, hdot, manyFilesFs]

theorem fullPathOf_nameOf (i : Nat) :
    fullPathOf [100] (nameOf i) = [100, 47, 65 + i / 64, 48 + i % 64] := by
  simp [fullPathOf, nameOf, MAX_PATH_LENGTH]

theorem manyFilesFs_paths_nodup (n : Nat) :
    ((regularFiles (manyFilesFs n) [100] ((List.range n).map nameOf)).map Prod.fst).Nodup := by
  rw [regularFiles_manyFilesFs, List.map_map]
  apply (List.nodup_range n).map
  intro i j hij
  simp only [Function.comp, fullPathOf_nameOf, List.cons.injEq, and_true, true_and] at hij
  omega

/-- Claim C17, at the failing input: the directory holds 2049 regular files from the
start. `buildInitialFileList` stops at `MAX_MONITOR_FILES` entries, and the first call of
`checkForDirectoryChanges` appends the entry of the file left out: the count becomes
`MAX_MONITOR_FILES + 1`, one entry more than the table of `startDirectoryMonitor` holds. -/
theorem monitor_table_overflows :
    (buildInitialFileList (manyFilesFs 2049) [100] []).1 = 1
      ∧ (buildInitialFileList (manyFilesFs 2049) [100] []).2.length = MAX_MONITOR_FILES
      ∧ (checkForDirectoryChanges (manyFilesFs 2049) [100]
          (buildInitialFileList (manyFilesFs 2049) [100] []).2).fileList.length
            = MAX_MONITOR_FILES + 1 := by
  have hread : (manyFilesFs 2049).readdir [100] = some ((List.range 2049).map nameOf) := rfl
  have hlen : (regularFiles (manyFilesFs 2049) [100] ((List.range 2049).map nameOf)).length
      = 2049 := by
    rw [regularFiles_manyFilesFs, List.length_map, List.length_range]
  have h := poll_after_build_length (manyFilesFs 2049) [100] _ [] hread
    (manyFilesFs_paths_nodup 2049)
  rw [hlen] at h
  refine ⟨?_, h.1, h.2⟩
  rw [buildInitialFileList_eq (manyFilesFs 2049) [100] _ [] hread]

/-- Distinct paths, where the paths formed are distinct: when no path occurs twice among
the paths that the loop forms for the regular files (`regularFiles`), the snapshot that
`buildInitialFileList` produces has pairwise distinct paths, and whenever a snapshot has
pairwise distinct paths the snapshot after `checkForDirectoryChanges` has pairwise
distinct paths again. Two files whose paths are cut to the same bytes are outside this:
see `build_repeats_path`. -/
theorem snapshot_paths_stay_distinct (fs : FileSystem) (dir : List Nat)
    (names : List (List Nat)) (old snap : List MonitoredFile)
    (hread : fs.readdir dir = some names)
    (hfiles : ((regularFiles fs dir names).map Prod.fst).Nodup) :
    ((buildInitialFileList fs dir old).2.map MonitoredFile.filePath).Nodup
      ∧ ((snap.map MonitoredFile.filePath).Nodup →
          ((checkForDirectoryChanges fs dir snap).fileList.map MonitoredFile.filePath).Nodup) := by
  constructor
  · rw [buildInitialFileList_eq fs dir names old hread]
    exact build_paths_nodup _ _ hfiles
  · intro hsnap
    rw [poll_eq fs dir snap names hread hsnap hfiles]
    simp only [List.map_append]
    rw [List.nodup_append]
    refine ⟨?_, ?_, ?_⟩
    · have : (snap.map (refreshed (regularFiles fs dir names))).map MonitoredFile.filePath
          = snap.map MonitoredFile.filePath := by
        rw [List.map_map]
        apply List.map_congr_left
        intro e _
        exact refreshed_path _ e
      rw [this]; exact hsnap
    · unfold newEntries
      rw [map_entry_paths]
      exact hfiles.sublist ((List.filter_sublist _).map _)
    · intro p hp1 hp2
      obtain ⟨e, he, hep⟩ := List.mem_map.mp hp1
      obtain ⟨e0, he0, hee⟩ := List.mem_map.mp he
      obtain ⟨g, hg, hgp⟩ := List.mem_map.mp hp2
      have hnot := (newEntries_paths snap _ g hg).1
      apply hnot
      rw [hgp, ← hep, ← hee, refreshed_path]
      exact List.mem_map.mpr ⟨e0, he0, rfl⟩

/-- Distinct paths for the directory `d` with the files `d/a` and `d/b`, and a snapshot
that tracks `d/a`. -/
theorem snapshot_paths_stay_distinct_witness :
    exampleFs.readdir [100] = some [[46], [97], [98]]
      ∧ ((regularFiles exampleFs [100] [[46], [97], [98]]).map Prod.fst).Nodup
      ∧ ([MonitoredFile.mk [100, 47, 97] 4].map MonitoredFile.filePath).Nodup
      ∧ ((buildInitialFileList exampleFs [100] []).2.map MonitoredFile.filePath).Nodup
      ∧ ((checkForDirectoryChanges exampleFs [100]
          [MonitoredFile.mk [100, 47, 97] 4]).fileList.map MonitoredFile.filePath).Nodup :=
  ⟨rfl, by decide, by decide,
    (snapshot_paths_stay_distinct exampleFs [100] [[46], [97], [98]] []
      [MonitoredFile.mk [100, 47, 97] 4] rfl (by decide)).1,
    (snapshot_paths_stay_distinct exampleFs [100] [[46], [97], [98]] []
      [MonitoredFile.mk [100, 47, 97] 4] rfl (by decide)).2 (by decide)⟩

/-! ## The directory monitor: entries of vanished files -/

/-- The search loop keeps the length of the table, keeps every entry whose path is not the
searched one, and prints events about the searched path only. -/
theorem checkTracked_keeps (fs : FileSystem) (p : List Nat) (tracked : List MonitoredFile) :
    ∀ tr' ev, checkTracked fs p tracked = some (tr', ev) →
      tr'.length = tracked.length
        ∧ (∀ (i : Nat) (e : MonitoredFile), tracked[i]? = some e → e.filePath ≠ p → tr'[i]? = some e)
        ∧ ∀ x ∈ ev, x.path = p := by
  induction tracked with
  | nil => intro tr' ev h; cases h
  | cons f rest ih =>
    intro tr' ev h
    rw [checkTracked] at h
    by_cases hf : p = f.filePath
    · rw [if_pos hf] at h
      have hkeep : ∀ (g : MonitoredFile), g.filePath = f.filePath →
          ∀ (i : Nat) (e : MonitoredFile), (f :: rest)[i]? = some e → e.filePath ≠ p → (g :: rest)[i]? = some e := by
        intro g _ i e hi hne
        cases i with
        | zero =>
          simp only [List.getElem?_cons_zero, Option.some.injEq] at hi
          exact absurd (by rw [← hi, hf]) hne
        | succ i => simpa using hi
      by_cases ht : (getFileModifiedTime fs p 0).2 ≠ f.lastModifiedTime
      · rw [if_pos ht] at h
        cases h
        refine ⟨by simp, hkeep _ rfl, ?_⟩
        intro x hx
        rw [List.mem_singleton.mp hx]; rfl
      · rw [if_neg ht] at h
        cases h
        exact ⟨rfl, fun i e hi _ => hi, fun x hx => by cases hx⟩
    · rw [if_neg hf] at h
      cases hrec : checkTracked fs p rest with
      | none => rw [hrec] at h; cases h
      | some r =>
        obtain ⟨rest', ev'⟩ := r
        obtain ⟨hlen, hkeep, hev⟩ := ih rest' ev' hrec
        rw [hrec] at h
        simp only [Option.some.injEq, Prod.mk.injEq] at h
        obtain ⟨rfl, rfl⟩ := h
        refine ⟨by simp [hlen], ?_, hev⟩
        intro i e hi hne
        cases i with
        | zero => simpa using hi
        | succ i =>
          simp only [List.getElem?_cons_succ] at hi ⊢
          exact hkeep i e hi hne

/-- One turn of the poll loop never shortens the table, keeps every entry whose path is
not the path of the file the name stands for, and adds events about that path only. -/
theorem checkEntry_keeps (fs : FileSystem) (dir name : List Nat) (n : Nat)
    (state : List MonitoredFile × List MonitorEvent) :
    state.1.length ≤ (checkEntry fs dir n state name).1.length
      ∧ (∀ (i : Nat) (e : MonitoredFile), state.1[i]? = some e →
          (∀ p t, regularFileOf fs dir name = some (p, t) → e.filePath ≠ p) →
          (checkEntry fs dir n state name).1[i]? = some e)
      ∧ ∀ x ∈ (checkEntry fs dir n state name).2,
          x ∈ state.2 ∨ ∃ p t, regularFileOf fs dir name = some (p, t) ∧ x.path = p := by
  cases hfile : regularFileOf fs dir name with
  | none =>
    rw [checkEntry_of_none fs dir name n state hfile]
    exact ⟨le_refl _, fun i e hi _ => hi, fun x hx => Or.inl hx⟩
  | some f =>
    obtain ⟨p, t⟩ := f
    obtain ⟨hdot, hp, st, hst, hreg, _⟩ := regularFileOf_some hfile
    subst hp
    obtain ⟨fl, evs⟩ := state
    unfold checkEntry
    rw [if_neg hdot, hst]
    simp only [hreg, not_true_eq_false, if_false]
    cases hsearch : checkTracked fs (fullPathOf dir name) (fl.take n) with
    | none =>
      simp only []
      refine ⟨by simp, ?_, ?_⟩
      · intro i e hi _
        have hlt : i < fl.length := (List.getElem?_eq_some.mp hi).1
        rw [List.getElem?_append_left hlt]; exact hi
      · intro x hx
        rcases List.mem_append.mp hx with h | h
        · exact Or.inl h
        · refine Or.inr ⟨_, _, rfl, ?_⟩
          rw [List.mem_singleton.mp h]; rfl
    | some r =>
      obtain ⟨tr', ev⟩ := r
      obtain ⟨hlen, hkeep, hev⟩ := checkTracked_keeps fs _ _ tr' ev hsearch
      simp only []
      refine ⟨?_, ?_, ?_⟩
      · simp only [List.length_append, List.length_drop, hlen, List.length_take]
        omega
      · intro i e hi hne
        have hne' := hne _ _ rfl
        by_cases hin : i < tr'.length
        · rw [List.getElem?_append_left hin]
          apply hkeep i e _ hne'
          rw [List.getElem?_take_of_lt (by
            rw [hlen, List.length_take] at hin; omega)]
          exact hi
        · rw [List.getElem?_append_right (by omega), List.getElem?_drop, hlen,
            List.length_take]
          rw [hlen, List.length_take] at hin
          have hlt : i < fl.length := (List.getElem?_eq_some.mp hi).1
          have e1 : n + (i - min n fl.length) = i := by omega
          rw [e1]; exact hi
      · intro x hx
        rcases List.mem_append.mp hx with h | h
        · exact Or.inl h
        · exact Or.inr ⟨_, _, rfl, hev x h⟩

/-- The whole poll loop never shortens the table, keeps every entry whose path is not
enumerated, and adds events about enumerated paths only. -/
theorem poll_loop_keeps (fs : FileSystem) (dir : List Nat) (n : Nat)
    (names : List (List Nat)) (state : List MonitoredFile × List MonitorEvent) :
    state.1.length ≤ (names.foldl (checkEntry fs dir n) state).1.length
      ∧ (∀ (i : Nat) (e : MonitoredFile), state.1[i]? = some e →
          e.filePath ∉ (regularFiles fs dir names).map Prod.fst →
          (names.foldl (checkEntry fs dir n) state).1[i]? = some e)
      ∧ ∀ x ∈ (names.foldl (checkEntry fs dir n) state).2,
          x ∈ state.2 ∨ x.path ∈ (regularFiles fs dir names).map Prod.fst := by
  induction names generalizing state with
  | nil => exact ⟨le_refl _, fun i e hi _ => hi, fun x hx => Or.inl hx⟩
  | cons name rest ih =>
    rw [List.foldl_cons]
    obtain ⟨h1, h2, h3⟩ := checkEntry_keeps fs dir name n state
    obtain ⟨g1, g2, g3⟩ := ih (checkEntry fs dir n state name)
    have hsub : ∀ q, q ∈ (regularFiles fs dir rest).map Prod.fst →
        q ∈ (regularFiles fs dir (name :: rest)).map Prod.fst := by
      intro q hq
      obtain ⟨f, hf, hfq⟩ := List.mem_map.mp hq
      refine List.mem_map.mpr ⟨f, ?_, hfq⟩
      unfold regularFiles at hf ⊢
      rw [List.filterMap_cons]
      cases regularFileOf fs dir name with
      | none => exact hf
      | some g => exact List.mem_cons_of_mem _ hf
    have hhead : ∀ p t, regularFileOf fs dir name = some (p, t) →
        p ∈ (regularFiles fs dir (name :: rest)).map Prod.fst := by
      intro p t hpt
      refine List.mem_map.mpr ⟨(p, t), ?_, rfl⟩
      unfold regularFiles
      rw [List.filterMap_cons, hpt]
      exact List.mem_cons_self _ _
    refine ⟨le_trans h1 g1, ?_, ?_⟩
    · intro i e hi hgone
      apply g2 i e
      · apply h2 i e hi
        intro p t hpt hep
        exact hgone (by rw [hep]; exact hhead p t hpt)
      · intro hq; exact hgone (hsub _ hq)
    · intro x hx
      rcases g3 x hx with h | h
      · rcases h3 x h with h' | ⟨p, t, hpt, hxp⟩
        · exact Or.inl h'
        · exact Or.inr (by rw [hxp]; exact hhead p t hpt)
      · exact Or.inr (hsub _ h)

/-- Claim C19: for every snapshot and every state of the directory, an entry `e` at
position `i` of the snapshot whose path is absent from the current enumeration is, after
`checkForDirectoryChanges`, still at position `i` with the same path and time; no event
is about its path; and the count after the call is at least the count before. -/
theorem poll_keeps_vanished (fs : FileSystem) (dir : List Nat) (snap : List MonitoredFile)
    (i : Nat) (e : MonitoredFile) (hi : snap[i]? = some e)
    (hgone : ∀ names, fs.readdir dir = some names →
      e.filePath ∉ (regularFiles fs dir names).map Prod.fst) :
    (checkForDirectoryChanges fs dir snap).fileList[i]? = some e
      ∧ (∀ x ∈ (checkForDirectoryChanges fs dir snap).events, x.path ≠ e.filePath)
      ∧ snap.length ≤ (checkForDirectoryChanges fs dir snap).fileList.length := by
  cases hread : fs.readdir dir with
  | none =>
    simp only [checkForDirectoryChanges, hread]
    exact ⟨hi, fun x hx => absurd hx (List.not_mem_nil x), le_refl _⟩
  | some names =>
    simp only [checkForDirectoryChanges, hread]
    obtain ⟨h1, h2, h3⟩ := poll_loop_keeps fs dir snap.length names (snap, [])
    refine ⟨h2 i e hi (hgone names hread), ?_, h1⟩
    intro x hx hxe
    rcases h3 x hx with h | h
    · cases h
    · exact hgone names hread (by rw [← hxe]; exact h)

/-- Witness of claim C19: the snapshot tracks `d/z`, which the directory no longer holds;
after the poll its entry is still first, and the table has grown by the two new files. -/
theorem poll_keeps_vanished_witness :
    [MonitoredFile.mk [100, 47, 122] 3][0]? = some (MonitoredFile.mk [100, 47, 122] 3)
      ∧ ([100, 47, 122] : List Nat)
          ∉ (regularFiles exampleFs [100] [[46], [97], [98]]).map Prod.fst
      ∧ (checkForDirectoryChanges exampleFs [100]
          [MonitoredFile.mk [100, 47, 122] 3]).fileList[0]?
            = some (MonitoredFile.mk [100, 47, 122] 3)
      ∧ (∀ x ∈ (checkForDirectoryChanges exampleFs [100]
          [MonitoredFile.mk [100, 47, 122] 3]).events, x.path ≠ [100, 47, 122])
      ∧ [MonitoredFile.mk [100, 47, 122] 3].length
          ≤ (checkForDirectoryChanges exampleFs [100]
              [MonitoredFile.mk [100, 47, 122] 3]).fileList.length :=
  ⟨rfl, by decide,
    poll_keeps_vanished exampleFs [100] [MonitoredFile.mk [100, 47, 122] 3] 0
      (MonitoredFile.mk [100, 47, 122] 3) rfl
      (fun names hread => by
        have : names = [[46], [97], [98]] := by
          have h : exampleFs.readdir [100] = some [[46], [97], [98]] := rfl
          rw [h] at hread
          exact (Option.some.inj hread).symm
        rw [this]; decide)⟩

/-! ## The wildcard law -/

theorem specMatch_star (t : List Nat) : specMatch t [42] = true := by
  induction t with
  | nil => simp [specMatch]
  | cons b ts ih => simp [specMatch, ih]

/-- The pattern `"*"` matches every text. -/
theorem matchWildcard_star (T : List Nat) : matchWildcard T [42] = true := by
  rw [matchWildcard_eq_specMatch]
  have h : cstr [42] = [42] := by decide
  rw [h]
  exact specMatch_star _

/-- Claim C21: the wildcard law. `matchWildcard T "*"` is true for every text `T`, the
empty text included; `matchWildcard "" "a"` is false; `matchWildcard "ab" "a?"` is true;
`matchWildcard "a" "a*"` is true; `matchWildcard "abc" "a*c"` is true; and
`matchWildcard "ab" "a*d"` is false. -/
theorem matchWildcard_law :
    (∀ T : List Nat, matchWildcard T [42] = true)
      ∧ matchWildcard [] [42] = true
      ∧ matchWildcard [] [97] = false
      ∧ matchWildcard [97, 98] [97, 63] = true
      ∧ matchWildcard [97] [97, 42] = true
      ∧ matchWildcard [97, 98, 99] [97, 42, 99] = true
      ∧ matchWildcard [97, 98] [97, 42, 100] = false := by
  refine ⟨matchWildcard_star, matchWildcard_star [], ?_, ?_, ?_, ?_, ?_⟩
  · simp [matchWildcard, deref]
  · simp [matchWildcard, deref]
  · simp [matchWildcard, deref]
  · simp [matchWildcard, deref]
  · simp [matchWildcard, deref]

/-! ## `scanFile`: the matches of a literal signature in a chunk -/

theorem infix_drop_iff (S l : List Nat) (k : Nat) :
    S <:+: l.drop k ↔ ∃ q, k ≤ q ∧ S <+: l.drop q := by
  constructor
  · rintro ⟨s, t, hst⟩
    refine ⟨k + s.length, Nat.le_add_right _ _, t, ?_⟩
    rw [← List.drop_drop, ← hst]
    simp [List.append_assoc]
  · rintro ⟨q, hq, hpre⟩
    have hsuf : l.drop q <:+ l.drop k := by
      have e : q = k + (q - k) := by omega
      rw [e, ← List.drop_drop]
      exact List.drop_suffix _ _
    exact List.IsInfix.trans hpre.isInfix hsuf.isInfix

/-- The literal matcher on the window at offset `k` of a buffer without zero byte before
its terminator: it accepts exactly when the signature starts at `k` or later. -/
theorem matchFound_literal_iff (re : List Nat → Option (List Nat → Bool))
    (S buf : List Nat) (k : Nat) (hbuf : 0 ∉ buf) (hk : k ≤ buf.length)
    (hzero : 0 ∉ S) (hstar : 42 ∉ S) (hquest : 63 ∉ S) :
    matchFound re (Signature.mk S false) ((buf ++ [0]).drop k) = true
      ↔ ∃ q, k ≤ q ∧ S <+: buf.drop q := by
  have hS : cstr S = S := cstr_eq_self hzero
  have hw : cstr ((buf ++ [0]).drop k) = buf.drop k := by
    rw [List.drop_append_of_le_length hk, cstr_append_zero]
    exact cstr_eq_self (fun h => hbuf (List.mem_of_mem_drop h))
  simp only [matchFound, strchr, hS, hstar, hquest, decide_False, Bool.or_self,
    Bool.false_eq_true, if_false]
  rw [matchSignature, strstr_iff, hS, hw]
  exact infix_drop_iff S buf k

theorem occurrence_lt_length {S l : List Nat} {p : Nat} (hne : S ≠ [])
    (hocc : S <+: l.drop p) : p < l.length := by
  by_contra hge
  rw [List.drop_eq_nil_of_le (by omega)] at hocc
  exact hne (List.prefix_nil.mp hocc)

/-- The scan loop of a literal signature over a chunk without zero byte reports exactly
the offsets up to the start of the last occurrence. -/
theorem mem_scanFrom_literal (re : List Nat → Option (List Nat → Bool))
    (S buf : List Nat) (off p : Nat) (m : ScanMatch)
    (hbuf : 0 ∉ buf) (hzero : 0 ∉ S) (hstar : 42 ∉ S) (hquest : 63 ∉ S) (hne : S ≠ [])
    (hocc : S <+: buf.drop p) (hlast : ∀ q, S <+: buf.drop q → q ≤ p) :
    m ∈ scanFrom re (Signature.mk S false) off (buf ++ [0]) 0
      ↔ ∃ k, k ≤ p ∧ m = ScanMatch.mk (Signature.mk S false) (off + k) := by
  have hp : p < buf.length := occurrence_lt_length hne hocc
  have hlen : (cstr (buf ++ [0])).length = buf.length := by
    rw [cstr_append_zero, cstr_eq_self hbuf]
  rw [mem_scanFrom, hlen]
  constructor
  · rintro ⟨k, hk, hf, rfl⟩
    rw [matchFound_literal_iff re S buf k hbuf (le_of_lt hk) hzero hstar hquest] at hf
    obtain ⟨q, hkq, hq⟩ := hf
    exact ⟨k, le_trans hkq (hlast q hq), by simp⟩
  · rintro ⟨k, hk, rfl⟩
    refine ⟨k, by omega, ?_, by simp⟩
    rw [matchFound_literal_iff re S buf k hbuf (by omega) hzero hstar hquest]
    exact ⟨p, hk, hocc⟩

theorem scanFrom_nodup (re : List Nat → Option (List Nat → Bool)) (sig : Signature)
    (off : Nat) (buf : List Nat) (idx : Nat) : (scanFrom re sig off buf idx).Nodup := by
  have h := scanFrom_pairwise re sig off buf idx
  exact h.imp (fun hab e => by rw [e] at hab; exact Nat.lt_irrefl _ hab)

theorem scanFrom_literal_length (re : List Nat → Option (List Nat → Bool))
    (S buf : List Nat) (off p : Nat)
    (hbuf : 0 ∉ buf) (hzero : 0 ∉ S) (hstar : 42 ∉ S) (hquest : 63 ∉ S) (hne : S ≠ [])
    (hocc : S <+: buf.drop p) (hlast : ∀ q, S <+: buf.drop q → q ≤ p) :
    (scanFrom re (Signature.mk S false) off (buf ++ [0]) 0).length = p + 1 := by
  have hnd2 : ((List.range (p + 1)).map
      (fun k => ScanMatch.mk (Signature.mk S false) (off + k))).Nodup := by
    apply (List.nodup_range (p + 1)).map
    intro a b hab
    simp only [ScanMatch.mk.injEq, true_and] at hab
    omega
  have hperm : (scanFrom re (Signature.mk S false) off (buf ++ [0]) 0).Perm
      ((List.range (p + 1)).map (fun k => ScanMatch.mk (Signature.mk S false) (off + k))) := by
    rw [List.perm_ext_iff_of_nodup (scanFrom_nodup re _ off _ 0) hnd2]
    intro m
    rw [mem_scanFrom_literal re S buf off p m hbuf hzero hstar hquest hne hocc hlast]
    simp only [List.mem_map, List.mem_range]
    constructor
    · rintro ⟨k, hk, rfl⟩; exact ⟨k, by omega, rfl⟩
    · rintro ⟨k, hk, rfl⟩; exact ⟨k, by omega, rfl⟩
  rw [hperm.length_eq, List.length_map, List.length_range]

/-- The matches `scanFile` reports for a literal signature inside a chunk without zero
byte: exactly the offsets of the chunk up to the start of the last occurrence. -/
theorem mem_matches_literal_chunk (re : List Nat → Option (List Nat → Bool))
    (sigs : List Signature) (file S : List Nat) (c p : Nat) (m : ScanMatch)
    (hchunk : 0 ∉ chunk file c) (hzero : 0 ∉ S) (hstar : 42 ∉ S) (hquest : 63 ∉ S)
    (hne : S ≠ []) (hsig : Signature.mk S false ∈ sigs)
    (hocc : S <+: (chunk file c).drop p)
    (hlast : ∀ q, S <+: (chunk file c).drop q → q ≤ p) :
    (m ∈ scanFileMatches re sigs file ∧ m.signature = Signature.mk S false
        ∧ m.offset / BUFFER_SIZE = c)
      ↔ ∃ k, k ≤ p ∧ m = ScanMatch.mk (Signature.mk S false) (BUFFER_SIZE * c + k) := by
  have hp : p < (chunk file c).length := occurrence_lt_length hne hocc
  have hcl : (chunk file c).length ≤ BUFFER_SIZE := by
    rw [chunk_length]; exact Nat.min_le_left _ _
  have hcs : cstr (chunk file c) = chunk file c := cstr_eq_self hchunk
  constructor
  · rintro ⟨hm, hms, hmc⟩
    rw [mem_scanFileMatches] at hm
    obtain ⟨c', k', _, hk', hf, ho⟩ := hm
    have hk'' : k' < (chunk file c').length := lt_of_lt_of_le hk' (cstr_length_le _)
    have hcl' : (chunk file c').length ≤ BUFFER_SIZE := by
      rw [chunk_length]; exact Nat.min_le_left _ _
    have hcc : c' = c := by
      rw [ho] at hmc
      simp only [BUFFER_SIZE] at hmc hk'' hcl'
      omega
    subst hcc
    rw [hms, ← matchFound_append_zero, ← List.drop_append_of_le_length (le_of_lt hk''),
      matchFound_literal_iff re S _ k' hchunk (le_of_lt hk'') hzero hstar hquest] at hf
    obtain ⟨q, hkq, hq⟩ := hf
    refine ⟨k', le_trans hkq (hlast q hq), ?_⟩
    cases m with
    | mk s o =>
      simp only at hms ho
      rw [hms, ho]
  · rintro ⟨k, hk, rfl⟩
    refine ⟨?_, rfl, ?_⟩
    · rw [mem_scanFileMatches]
      refine ⟨c, k, hsig, by rw [hcs]; omega, ?_, rfl⟩
      simp only
      rw [← matchFound_append_zero, ← List.drop_append_of_le_length (by omega),
        matchFound_literal_iff re S _ k hchunk (by omega) hzero hstar hquest]
      exact ⟨p, hk, hocc⟩
    · simp only [BUFFER_SIZE] at hcl ⊢
      omega

/-- Claim C23: let chunk `c` of the file contain no zero byte, and let the literal
signature `S` (non-empty, without zero byte, `'*'` or `'?'`, not a regex) of the list
occur in the chunk, its last occurrence starting at in-chunk offset `p`. Then `scanFile`
reports `S` at the in-chunk offset `k` exactly when `k ≤ p`; the scan loop of `S` over the
chunk counts `p + 1` matches; and when the list has no repeated signature, the matches
`scanFile` reports for `S` in that chunk are `p + 1` in number. -/
theorem scanFile_literal_count (re : List Nat → Option (List Nat → Bool))
    (sigs : List Signature) (file S : List Nat) (c p : Nat)
    (hchunk : 0 ∉ chunk file c) (hzero : 0 ∉ S) (hstar : 42 ∉ S) (hquest : 63 ∉ S)
    (hne : S ≠ []) (hsig : Signature.mk S false ∈ sigs)
    (hocc : S <+: (chunk file c).drop p)
    (hlast : ∀ q, S <+: (chunk file c).drop q → q ≤ p) :
    (∀ k, k < (chunk file c).length →
        (ScanMatch.mk (Signature.mk S false) (BUFFER_SIZE * c + k)
            ∈ (scanFile re (some file) sigs).2 ↔ k ≤ p))
      ∧ (scanFrom re (Signature.mk S false) (BUFFER_SIZE * c) (chunk file c ++ [0]) 0).length
          = p + 1
      ∧ (sigs.Nodup →
          ((scanFile re (some file) sigs).2.filter
            (fun m => decide (m.signature = Signature.mk S false)
              && decide (m.offset / BUFFER_SIZE = c))).length = p + 1) := by
  have hcl : (chunk file c).length ≤ BUFFER_SIZE := by
    rw [chunk_length]; exact Nat.min_le_left _ _
  have key := fun m =>
    mem_matches_literal_chunk re sigs file S c p m hchunk hzero hstar hquest hne hsig hocc hlast
  refine ⟨?_, scanFrom_literal_length re S _ _ p hchunk hzero hstar hquest hne hocc hlast, ?_⟩
  · intro k hk
    simp only [scanFile]
    constructor
    · intro hm
      have hoff : (BUFFER_SIZE * c + k) / BUFFER_SIZE = c := by
        simp only [BUFFER_SIZE] at hk hcl ⊢; omega
      obtain ⟨k', hk', he⟩ := (key _).mp ⟨hm, rfl, hoff⟩
      simp only [ScanMatch.mk.injEq, true_and] at he
      omega
    · intro hk'
      exact ((key _).mpr ⟨k, hk', rfl⟩).1
  · intro hnd
    simp only [scanFile]
    have hnd1 : ((scanFileMatches re sigs file).filter
        (fun m => decide (m.signature = Signature.mk S false)
          && decide (m.offset / BUFFER_SIZE = c))).Nodup := by
      rw [← List.filter_filter, List.filter_comm]
      have h := scanLoop_filter_pairwise re sigs file 0 (Signature.mk S false) hnd
      have h' := h.filter (fun m => decide (m.offset / BUFFER_SIZE = c))
      refine List.Pairwise.imp ?_ h'
      intro a b hab e
      rw [e] at hab
      exact Nat.lt_irrefl _ hab
    have hnd2 : ((List.range (p + 1)).map
        (fun k => ScanMatch.mk (Signature.mk S false) (BUFFER_SIZE * c + k))).Nodup := by
      apply (List.nodup_range (p + 1)).map
      intro a b hab
      simp only [ScanMatch.mk.injEq, true_and] at hab
      omega
    have hperm : ((scanFileMatches re sigs file).filter
        (fun m => decide (m.signature = Signature.mk S false)
          && decide (m.offset / BUFFER_SIZE = c))).Perm
        ((List.range (p + 1)).map
          (fun k => ScanMatch.mk (Signature.mk S false) (BUFFER_SIZE * c + k))) := by
      rw [List.perm_ext_iff_of_nodup hnd1 hnd2]
      intro m
      simp only [List.mem_filter, Bool.and_eq_true, decide_eq_true_eq, List.mem_map,
        List.mem_range]
      rw [key m]
      constructor
      · rintro ⟨k, hk, rfl⟩; exact ⟨k, by omega, rfl⟩
      · rintro ⟨k, hk, rfl⟩; exact ⟨k, by omega, rfl⟩
    rw [hperm.length_eq, List.length_map, List.length_range]

/-- Witness of claim C23: in the file `"abab"` the signature `"ab"` occurs twice, the last
time at offset 2, and three matches are reported (offsets 0, 1 and 2). -/
theorem scanFile_literal_count_witness :
    (0 : Nat) ∉ chunk [97, 98, 97, 98] 0
      ∧ ([97, 98] : List Nat) <+: (chunk [97, 98, 97, 98] 0).drop 2
      ∧ (∀ q, ([97, 98] : List Nat) <+: (chunk [97, 98, 97, 98] 0).drop q → q ≤ 2)
      ∧ (∀ k, k < (chunk [97, 98, 97, 98] 0).length →
          (ScanMatch.mk (Signature.mk [97, 98] false) (BUFFER_SIZE * 0 + k)
              ∈ (scanFile (fun _ => none) (some [97, 98, 97, 98])
                  [Signature.mk [97, 98] false]).2 ↔ k ≤ 2))
      ∧ (scanFrom (fun _ => none) (Signature.mk [97, 98] false) (BUFFER_SIZE * 0)
          (chunk [97, 98, 97, 98] 0 ++ [0]) 0).length = 2 + 1
      ∧ ([Signature.mk [97, 98] false].Nodup →
          ((scanFile (fun _ => none) (some [97, 98, 97, 98])
              [Signature.mk [97, 98] false]).2.filter
            (fun m => decide (m.signature = Signature.mk [97, 98] false)
              && decide (m.offset / BUFFER_SIZE = 0))).length = 2 + 1) := by
  have hlast : ∀ q, ([97, 98] : List Nat) <+: (chunk [97, 98, 97, 98] 0).drop q → q ≤ 2 := by
    intro q h
    have hl := h.length_le
    have hc : chunk [97, 98, 97, 98] 0 = [97, 98, 97, 98] := by decide
    rw [hc] at hl
    simp only [List.length_drop, List.length_cons, List.length_nil] at hl
    omega
  exact ⟨by decide, by decide, hlast,
    scanFile_literal_count (fun _ => none) [Signature.mk [97, 98] false] [97, 98, 97, 98]
      [97, 98] 0 2 (by decide) (by decide) (by decide) (by decide) (by decide)
      (List.mem_singleton.mpr rfl) (by decide) hlast⟩

/-- A literal signature stored by the loader is never empty: an empty line is skipped. -/
theorem parseLine_literal_ne_nil (buf : List Nat) (sig : Signature)
    (h : parseLine buf = some sig) (hlit : sig.isRegex = false) :
    sig.signatureText ≠ [] := by
  rw [parseLine_eq] at h
  by_cases hnil : lineText buf = []
  · rw [if_pos hnil] at h; cases h
  · rw [if_neg hnil] at h
    by_cases hpre : REGEX_MARK <+: lineText buf
    · rw [if_pos hpre] at h
      cases h
      cases hlit
    · rw [if_neg hpre] at h
      cases h
      intro he
      cases hl : lineText buf with
      | nil => exact hnil hl
      | cons b t =>
        rw [hl] at he
        simp [MAX_SIGNATURE_LENGTH] at he


/-! ## The directory monitor: a second poll of an unchanged directory -/

/-- The loop body on the name of a regular file, for any table. -/
theorem checkEntry_regular (fs : FileSystem) (dir name p : List Nat) (t : Int) (n : Nat)
    (state : List MonitoredFile × List MonitorEvent)
    (h : regularFileOf fs dir name = some (p, t)) :
    checkEntry fs dir n state name =
      match checkTracked fs p (state.1.take n) with
      | some (tracked, events) => (tracked ++ state.1.drop n, state.2 ++ events)
      | none =>
        (state.1 ++ [MonitoredFile.mk p (getFileModifiedTime fs p 0).2],
          state.2 ++ [MonitorEvent.newFile p]) := by
  obtain ⟨hdot, hp, st, hst, hreg, _⟩ := regularFileOf_some h
  subst hp
  unfold checkEntry
  rw [if_neg hdot, hst]
  simp only [hreg, not_true_eq_false, if_false]

theorem drop_append_of_length_eq {α : Type} (A B : List α) (n : Nat) (h : A.length = n) :
    (A ++ B).drop n = B := by
  subst h
  exact List.drop_left A B

/-- The search loop finds nothing only when no entry has the path. -/
theorem checkTracked_none (fs : FileSystem) (p : List Nat) (tracked : List MonitoredFile)
    (h : checkTracked fs p tracked = none) : ∀ e ∈ tracked, e.filePath ≠ p := by
  induction tracked with
  | nil => intro e he; exact absurd he (List.not_mem_nil e)
  | cons f rest ih =>
    rw [checkTracked] at h
    by_cases hf : p = f.filePath
    · rw [if_pos hf] at h
      split at h <;> cases h
    · rw [if_neg hf] at h
      cases hrec : checkTracked fs p rest with
      | some r => rw [hrec] at h; cases h
      | none =>
        intro e he
        rcases List.mem_cons.mp he with he | he
        · rw [he]; exact fun e' => hf e'.symm
        · exact ih hrec e he

/-- After the search loop has found the path, the first entry with the path holds the
current time, the table has its length, and the first entry of any other path is as it
was. -/
theorem checkTracked_settles (fs : FileSystem) (p : List Nat)
    (tracked : List MonitoredFile) :
    ∀ tr' ev, checkTracked fs p tracked = some (tr', ev) →
      tr'.length = tracked.length
        ∧ (∃ e, tr'.find? (fun g => decide (g.filePath = p)) = some e
            ∧ e.lastModifiedTime = (getFileModifiedTime fs p 0).2)
        ∧ ∀ q, q ≠ p → tr'.find? (fun g => decide (g.filePath = q))
            = tracked.find? (fun g => decide (g.filePath = q)) := by
  induction tracked with
  | nil => intro tr' ev h; cases h
  | cons f rest ih =>
    intro tr' ev h
    rw [checkTracked] at h
    by_cases hf : p = f.filePath
    · rw [if_pos hf] at h
      by_cases ht : (getFileModifiedTime fs p 0).2 ≠ f.lastModifiedTime
      · rw [if_pos ht] at h
        simp only [Option.some.injEq, Prod.mk.injEq] at h
        obtain ⟨rfl, rfl⟩ := h
        refine ⟨rfl, ⟨_, List.find?_cons_of_pos _ (by simp [hf]), rfl⟩, ?_⟩
        intro q hq
        have hne : ¬ f.filePath = q := fun e => hq (by rw [hf, e])
        rw [List.find?_cons_of_neg _ (by simpa using hne),
          List.find?_cons_of_neg _ (by simpa using hne)]
      · rw [if_neg ht] at h
        simp only [Option.some.injEq, Prod.mk.injEq] at h
        obtain ⟨rfl, rfl⟩ := h
        exact ⟨rfl, ⟨f, List.find?_cons_of_pos _ (by simp [hf]), (not_not.mp ht).symm⟩,
          fun q _ => rfl⟩
    · rw [if_neg hf] at h
      cases hrec : checkTracked fs p rest with
      | none => rw [hrec] at h; cases h
      | some r =>
        obtain ⟨rest', events⟩ := r
        rw [hrec] at h
        simp only [Option.some.injEq, Prod.mk.injEq] at h
        obtain ⟨rfl, rfl⟩ := h
        obtain ⟨h1, ⟨e, he, het⟩, h3⟩ := ih rest' _ hrec
        have hne : ¬ f.filePath = p := fun e' => hf e'.symm
        refine ⟨by simp [h1], ⟨e, ?_, het⟩, ?_⟩
        · rw [List.find?_cons_of_neg _ (by simpa using hne)]; exact he
        · intro q hq
          by_cases hfq : f.filePath = q
          · rw [List.find?_cons_of_pos _ (by simpa using hfq),
              List.find?_cons_of_pos _ (by simpa using hfq)]
          · rw [List.find?_cons_of_neg _ (by simpa using hfq),
              List.find?_cons_of_neg _ (by simpa using hfq)]
            exact h3 q hq

/-- The search loop leaves the table as it is and prints nothing when the first entry with
the path holds the current time. -/
theorem checkTracked_settled (fs : FileSystem) (p : List Nat)
    (tracked : List MonitoredFile) (e : MonitoredFile)
    (hfind : tracked.find? (fun g => decide (g.filePath = p)) = some e)
    (htime : e.lastModifiedTime = (getFileModifiedTime fs p 0).2) :
    checkTracked fs p tracked = some (tracked, []) := by
  induction tracked with
  | nil => cases hfind
  | cons f rest ih =>
    rw [checkTracked]
    by_cases hf : p = f.filePath
    · rw [List.find?_cons_of_pos _ (by simp [hf])] at hfind
      cases hfind
      rw [if_pos hf, if_neg (not_not.mpr htime.symm)]
    · have hne : ¬ f.filePath = p := fun e' => hf e'.symm
      rw [List.find?_cons_of_neg _ (by simpa using hne)] at hfind
      rw [if_neg hf, ih hfind]

/-- One turn of the poll loop keeps three facts about the table: it has at least the
`fileCount` entries of the start; each entry added since holds the current time of its
path; a path whose first entry holds the current time stays so. And after the turn the
first entry with the path of the turn's file holds the current time. -/
theorem checkEntry_settles (fs : FileSystem) (dir name : List Nat) (n : Nat)
    (state : List MonitoredFile × List MonitorEvent)
    (hlen : n ≤ state.1.length)
    (hfresh : ∀ e ∈ state.1.drop n,
      e.lastModifiedTime = (getFileModifiedTime fs e.filePath 0).2) :
    n ≤ (checkEntry fs dir n state name).1.length
      ∧ (∀ e ∈ (checkEntry fs dir n state name).1.drop n,
          e.lastModifiedTime = (getFileModifiedTime fs e.filePath 0).2)
      ∧ (∀ q, (∃ e, state.1.find? (fun g => decide (g.filePath = q)) = some e
              ∧ e.lastModifiedTime = (getFileModifiedTime fs q 0).2) →
            ∃ e, (checkEntry fs dir n state name).1.find?
                (fun g => decide (g.filePath = q)) = some e
              ∧ e.lastModifiedTime = (getFileModifiedTime fs q 0).2)
      ∧ ∀ p t, regularFileOf fs dir name = some (p, t) →
          ∃ e, (checkEntry fs dir n state name).1.find?
              (fun g => decide (g.filePath = p)) = some e
            ∧ e.lastModifiedTime = (getFileModifiedTime fs p 0).2 := by
  cases hfile : regularFileOf fs dir name with
  | none =>
    rw [checkEntry_of_none fs dir name n state hfile]
    exact ⟨hlen, hfresh, fun q h => h, fun p t h => by cases h⟩
  | some f =>
    obtain ⟨p, t⟩ := f
    rw [checkEntry_regular fs dir name p t n state hfile]
    obtain ⟨fl, evs⟩ := state
    simp only at hlen hfresh ⊢
    cases hsearch : checkTracked fs p (fl.take n) with
    | none =>
      simp only []
      have hnone := checkTracked_none fs p _ hsearch
      have hp : ∃ e, (fl ++ [MonitoredFile.mk p (getFileModifiedTime fs p 0).2]).find?
            (fun g => decide (g.filePath = p)) = some e
          ∧ e.lastModifiedTime = (getFileModifiedTime fs p 0).2 := by
        rw [List.find?_append]
        cases hfind : fl.find? (fun g => decide (g.filePath = p)) with
        | none =>
          refine ⟨MonitoredFile.mk p (getFileModifiedTime fs p 0).2, ?_, rfl⟩
          rw [Option.none_or]
          exact List.find?_cons_of_pos _ (by simp)
        | some e =>
          refine ⟨e, rfl, ?_⟩
          have hmem : e ∈ fl := List.mem_of_find?_eq_some hfind
          have hpath : e.filePath = p := by simpa using List.find?_some hfind
          rw [← List.take_append_drop n fl] at hmem
          rcases List.mem_append.mp hmem with h | h
          · exact absurd hpath (hnone e h)
          · rw [hfresh e h, hpath]
      refine ⟨by simp only [List.length_append, List.length_singleton]; omega, ?_, ?_, ?_⟩
      · intro e he
        rw [List.drop_append_of_le_length hlen] at he
        rcases List.mem_append.mp he with h | h
        · exact hfresh e h
        · rw [List.mem_singleton.mp h]
      · rintro q ⟨e, he, het⟩
        refine ⟨e, ?_, het⟩
        rw [List.find?_append, he]; rfl
      · intro p' t' h
        cases h
        exact hp
    | some r =>
      obtain ⟨tr', ev⟩ := r
      simp only []
      obtain ⟨h1, ⟨e, he, het⟩, h3⟩ := checkTracked_settles fs p _ tr' ev hsearch
      have hn : tr'.length = n := by rw [h1, List.length_take]; omega
      have hp : ∃ e, (tr' ++ fl.drop n).find? (fun g => decide (g.filePath = p)) = some e
          ∧ e.lastModifiedTime = (getFileModifiedTime fs p 0).2 := by
        refine ⟨e, ?_, het⟩
        rw [List.find?_append, he]; rfl
      refine ⟨by simp only [List.length_append]; omega, ?_, ?_, ?_⟩
      · intro x hx
        rw [drop_append_of_length_eq tr' _ n hn] at hx
        exact hfresh x hx
      · rintro q ⟨x, hx, hxt⟩
        by_cases hq : q = p
        · rw [hq]; exact hp
        · refine ⟨x, ?_, hxt⟩
          rw [List.find?_append, h3 q hq, ← List.find?_append, List.take_append_drop]
          exact hx
      · intro p' t' h
        cases h
        exact hp

/-- After the poll loop, the first entry with the path of any enumerated file holds the
current time of the path. -/
theorem poll_loop_settles (fs : FileSystem) (dir : List Nat) (n : Nat)
    (names : List (List Nat)) (state : List MonitoredFile × List MonitorEvent)
    (hlen : n ≤ state.1.length)
    (hfresh : ∀ e ∈ state.1.drop n,
      e.lastModifiedTime = (getFileModifiedTime fs e.filePath 0).2) :
    (∀ q, (∃ e, state.1.find? (fun g => decide (g.filePath = q)) = some e
            ∧ e.lastModifiedTime = (getFileModifiedTime fs q 0).2) →
          ∃ e, (names.foldl (checkEntry fs dir n) state).1.find?
              (fun g => decide (g.filePath = q)) = some e
            ∧ e.lastModifiedTime = (getFileModifiedTime fs q 0).2)
      ∧ ∀ p ∈ (regularFiles fs dir names).map Prod.fst,
          ∃ e, (names.foldl (checkEntry fs dir n) state).1.find?
              (fun g => decide (g.filePath = p)) = some e
            ∧ e.lastModifiedTime = (getFileModifiedTime fs p 0).2 := by
  induction names generalizing state with
  | nil =>
    refine ⟨fun q h => h, ?_⟩
    intro p hp
    simp [regularFiles] at hp
  | cons name rest ih =>
    rw [List.foldl_cons]
    obtain ⟨h1, h2, h3, h4⟩ := checkEntry_settles fs dir name n state hlen hfresh
    obtain ⟨g1, g2⟩ := ih (checkEntry fs dir n state name) h1 h2
    refine ⟨fun q h => g1 q (h3 q h), ?_⟩
    intro p hp
    simp only [regularFiles, List.mem_map, List.mem_filterMap, List.mem_cons] at hp
    obtain ⟨f, ⟨nm, hnm, hf⟩, rfl⟩ := hp
    rcases hnm with rfl | hnm
    · exact g1 _ (h4 f.1 f.2 hf)
    · apply g2
      simp only [regularFiles, List.mem_map, List.mem_filterMap]
      exact ⟨f, ⟨nm, hnm, hf⟩, rfl⟩

/-- The poll loop over a table in which the first entry of every enumerated path holds the
current time changes nothing and prints nothing. -/
theorem poll_loop_fixed (fs : FileSystem) (dir : List Nat) (names : List (List Nat))
    (fl : List MonitoredFile) (evs : List MonitorEvent)
    (h : ∀ p ∈ (regularFiles fs dir names).map Prod.fst,
      ∃ e, fl.find? (fun g => decide (g.filePath = p)) = some e
        ∧ e.lastModifiedTime = (getFileModifiedTime fs p 0).2) :
    names.foldl (checkEntry fs dir fl.length) (fl, evs) = (fl, evs) := by
  induction names with
  | nil => rfl
  | cons name rest ih =>
    rw [List.foldl_cons]
    have hstep : checkEntry fs dir fl.length (fl, evs) name = (fl, evs) := by
      cases hfile : regularFileOf fs dir name with
      | none => exact checkEntry_of_none fs dir name _ _ hfile
      | some f =>
        obtain ⟨p, t⟩ := f
        rw [checkEntry_regular fs dir name p t _ _ hfile]
        have hp : p ∈ (regularFiles fs dir (name :: rest)).map Prod.fst := by
          simp only [regularFiles, List.mem_map, List.mem_filterMap, List.mem_cons]
          exact ⟨(p, t), ⟨name, Or.inl rfl, hfile⟩, rfl⟩
        obtain ⟨e, he, het⟩ := h p hp
        simp only [List.take_length, List.drop_length, List.append_nil]
        rw [checkTracked_settled fs p fl e he het]
        simp
    rw [hstep]
    apply ih
    intro p hp
    apply h
    simp only [regularFiles, List.mem_map, List.mem_filterMap, List.mem_cons] at hp ⊢
    obtain ⟨f, ⟨nm, hnm, hf⟩, rfl⟩ := hp
    exact ⟨f, ⟨nm, Or.inr hnm, hf⟩, rfl⟩

/-- A second poll right after a first one, on the same directory state. -/
theorem poll_twice (fs : FileSystem) (dir : List Nat) (snap : List MonitoredFile) :
    checkForDirectoryChanges fs dir (checkForDirectoryChanges fs dir snap).fileList
      = PollResult.mk (checkForDirectoryChanges fs dir snap).ret
          (checkForDirectoryChanges fs dir snap).fileList [] := by
  cases hread : fs.readdir dir with
  | none => simp only [checkForDirectoryChanges, hread]
  | some names =>
    have hs := (poll_loop_settles fs dir snap.length names (snap, []) (le_refl _)
      (by intro e he; simp at he)).2
    have hfix := poll_loop_fixed fs dir names
      (names.foldl (checkEntry fs dir snap.length) (snap, [])).1 [] hs
    simp only [checkForDirectoryChanges, hread, hfix]

/-- Claim C22: polling is idempotent on an unchanged directory. For every snapshot and
every directory state for which the table of the first call stays within
`MAX_MONITOR_FILES` entries, a second call of `checkForDirectoryChanges` on the same
directory state, right after the first, reports no New and no Modified event and leaves
the table (entries, order and count) exactly as the first call left it; it returns what
the first call returned. Distinct paths in the snapshot are not needed for this. -/
theorem poll_idempotent (fs : FileSystem) (dir : List Nat) (snap : List MonitoredFile)
    (hcap : (checkForDirectoryChanges fs dir snap).fileList.length ≤ MAX_MONITOR_FILES) :
    (checkForDirectoryChanges fs dir (checkForDirectoryChanges fs dir snap).fileList).events
        = []
      ∧ (checkForDirectoryChanges fs dir (checkForDirectoryChanges fs dir snap).fileList).fileList
        = (checkForDirectoryChanges fs dir snap).fileList
      ∧ (checkForDirectoryChanges fs dir
            (checkForDirectoryChanges fs dir snap).fileList).fileList.length
        = (checkForDirectoryChanges fs dir snap).fileList.length
      ∧ (checkForDirectoryChanges fs dir (checkForDirectoryChanges fs dir snap).fileList).ret
        = (checkForDirectoryChanges fs dir snap).ret := by
  rw [poll_twice fs dir snap]
  exact ⟨rfl, rfl, rfl, rfl⟩

/-- Witness of claim C22: the directory `d` with the files `d/a` (time 5) and `d/b`
(time 7), polled twice from a snapshot that holds `d/a` with time 4. The first call
updates `d/a` and appends `d/b`; the second changes nothing. -/
theorem poll_idempotent_witness :
    (checkForDirectoryChanges exampleFs [100]
        [MonitoredFile.mk [100, 47, 97] 4]).fileList
        = [MonitoredFile.mk [100, 47, 97] 5, MonitoredFile.mk [100, 47, 98] 7]
      ∧ (checkForDirectoryChanges exampleFs [100]
          [MonitoredFile.mk [100, 47, 97] 4]).fileList.length ≤ MAX_MONITOR_FILES
      ∧ (checkForDirectoryChanges exampleFs [100]
          (checkForDirectoryChanges exampleFs [100]
            [MonitoredFile.mk [100, 47, 97] 4]).fileList).events = []
      ∧ (checkForDirectoryChanges exampleFs [100]
          (checkForDirectoryChanges exampleFs [100]
            [MonitoredFile.mk [100, 47, 97] 4]).fileList).fileList
        = (checkForDirectoryChanges exampleFs [100]
            [MonitoredFile.mk [100, 47, 97] 4]).fileList
      ∧ (checkForDirectoryChanges exampleFs [100]
          (checkForDirectoryChanges exampleFs [100]
            [MonitoredFile.mk [100, 47, 97] 4]).fileList).fileList.length
        = (checkForDirectoryChanges exampleFs [100]
            [MonitoredFile.mk [100, 47, 97] 4]).fileList.length
      ∧ (checkForDirectoryChanges exampleFs [100]
          (checkForDirectoryChanges exampleFs [100]
            [MonitoredFile.mk [100, 47, 97] 4]).fileList).ret
        = (checkForDirectoryChanges exampleFs [100]
            [MonitoredFile.mk [100, 47, 97] 4]).ret :=
  ⟨by decide, by decide,
    poll_idempotent exampleFs [100] [MonitoredFile.mk [100, 47, 97] 4] (by decide)⟩


/-! ## The snapshot of `buildInitialFileList` and paths that do not fit `MAX_PATH_LENGTH` -/

/-- A directory whose path has 509 bytes and which holds the regular file `cd`: the path
formed for `cd` is cut to `root/c`, `stat` fails on it, and the snapshot stays empty. -/
theorem build_misses_file (root : List Nat) (hlen : root.length = 509)
    (old : List MonitoredFile) :
    (oneFileFs root).readdir root = some [[46], [46, 46], [99, 100]]
      ∧ (oneFileFs root).stat (childPath root [99, 100]) = some (FileStat.mk true false 0)
      ∧ fullPathOf root [99, 100] ≠ childPath root [99, 100]
      ∧ buildInitialFileList (oneFileFs root) root old = (1, []) := by
  have hpath : fullPathOf root [99, 100] = root ++ [47, 99] := by
    rw [fullPathOf_cut root [99, 100] 2 (by rw [hlen]; rfl)]; rfl
  have hchild : childPath root [99, 100] = root ++ [47, 99, 100] := rfl
  have hne1 : ¬ root ++ [47, 99] = root := by
    intro h
    have := congrArg List.length h
    simp at this
  have hne2 : ¬ root ++ [47, 99] = root ++ [47, 99, 100] := by
    intro h
    have := congrArg List.length h
    simp at this
  have hne3 : ¬ root ++ [47, 99, 100] = root := by
    intro h
    have := congrArg List.length h
    simp at this
  refine ⟨by simp [oneFileFs], ?_, ?_, ?_⟩
  · rw [hchild]; simp [oneFileFs, hne3]
  · rw [hpath, hchild]; exact hne2
  · simp [buildInitialFileList, buildLoop, oneFileFs, hpath, hne1, hne2]

/-- Claim C20, at the failing input: the directory has a path of 509 bytes (two components
of 254 bytes) and holds one regular file, `cd`, as an immediate child. The directory
opens and has one regular file among its immediate children, yet `buildInitialFileList`
returns 1 with an empty snapshot: `snprintf` cuts the path of the file to
`MAX_PATH_LENGTH - 1` bytes, `stat` fails on the cut path and the file gets no entry. -/
theorem buildInitialFileList_misses_long_path :
    longRoot.length = 509
      ∧ (oneFileFs longRoot).readdir longRoot = some [[46], [46, 46], [99, 100]]
      ∧ (oneFileFs longRoot).stat (childPath longRoot [99, 100])
          = some (FileStat.mk true false 0)
      ∧ fullPathOf longRoot [99, 100] ≠ childPath longRoot [99, 100]
      ∧ ∀ old, buildInitialFileList (oneFileFs longRoot) longRoot old = (1, []) :=
  ⟨longRoot_length, (build_misses_file longRoot longRoot_length []).1,
    (build_misses_file longRoot longRoot_length []).2.1,
    (build_misses_file longRoot longRoot_length []).2.2.1,
    fun old => (build_misses_file longRoot longRoot_length old).2.2.2⟩

/-- A directory whose path has 509 bytes and which holds the regular files `c` and `ca`:
the path formed for `ca` is cut to `root/c`, the path of the other file, so the snapshot
holds the path `root/c` twice, the second time for the file `ca` and with the time of
`c`. -/
theorem build_repeats_path (root : List Nat) (hlen : root.length = 509)
    (old : List MonitoredFile) :
    (twoFilesFs root).readdir root = some [[46], [46, 46], [99], [99, 97]]
      ∧ (twoFilesFs root).stat (childPath root [99]) = some (FileStat.mk true false 1)
      ∧ (twoFilesFs root).stat (childPath root [99, 97]) = some (FileStat.mk true false 2)
      ∧ childPath root [99] ≠ childPath root [99, 97]
      ∧ buildInitialFileList (twoFilesFs root) root old
          = (1, [MonitoredFile.mk (childPath root [99]) 1,
                 MonitoredFile.mk (childPath root [99]) 1]) := by
  have hpath1 : fullPathOf root [99] = root ++ [47, 99] := by
    rw [fullPathOf_cut root [99] 2 (by rw [hlen]; rfl)]; rfl
  have hpath2 : fullPathOf root [99, 97] = root ++ [47, 99] := by
    rw [fullPathOf_cut root [99, 97] 2 (by rw [hlen]; rfl)]; rfl
  have hchild1 : childPath root [99] = root ++ [47, 99] := rfl
  have hchild2 : childPath root [99, 97] = root ++ [47, 99, 97] := rfl
  have hne1 : ¬ root ++ [47, 99] = root := by
    intro h
    have := congrArg List.length h
    simp at this
  have hne2 : ¬ root ++ [47, 99] = root ++ [47, 99, 97] := by
    intro h
    have := congrArg List.length h
    simp at this
  have hne3 : ¬ root ++ [47, 99, 97] = root := by
    intro h
    have := congrArg List.length h
    simp at this
  have hne4 : ¬ root ++ [47, 99, 97] = root ++ [47, 99] := fun h => hne2 h.symm
  refine ⟨by simp [twoFilesFs], ?_, ?_, ?_, ?_⟩
  · rw [hchild1]; simp [twoFilesFs, hne1]
  · rw [hchild2]; simp [twoFilesFs, hne3, hne4]
  · rw [hchild1, hchild2]; exact hne2
  · rw [hchild1]
    simp [buildInitialFileList, buildLoop, twoFilesFs, hpath1, hpath2, hne1,
      MAX_MONITOR_FILES]

/-- The same directory polled from an empty snapshot: both files are reported as new
under the path `root/c`, and the table holds that path twice. -/
theorem poll_repeats_path (root : List Nat) (hlen : root.length = 509) :
    checkForDirectoryChanges (twoFilesFs root) root []
      = PollResult.mk 1
          [MonitoredFile.mk (childPath root [99]) 1, MonitoredFile.mk (childPath root [99]) 1]
          [MonitorEvent.newFile (childPath root [99]),
           MonitorEvent.newFile (childPath root [99])] := by
  have hpath1 : fullPathOf root [99] = root ++ [47, 99] := by
    rw [fullPathOf_cut root [99] 2 (by rw [hlen]; rfl)]; rfl
  have hpath2 : fullPathOf root [99, 97] = root ++ [47, 99] := by
    rw [fullPathOf_cut root [99, 97] 2 (by rw [hlen]; rfl)]; rfl
  have hchild1 : childPath root [99] = root ++ [47, 99] := rfl
  have hne1 : ¬ root ++ [47, 99] = root := by
    intro h
    have := congrArg List.length h
    simp at this
  rw [hchild1]
  simp [checkForDirectoryChanges, checkEntry, checkTracked, getFileModifiedTime, twoFilesFs,
    hpath1, hpath2, hne1]

/-- Claim C18, at the failing input: the directory has a path of 509 bytes and holds the
two regular files `c` and `ca`, each listed once. `snprintf` cuts the path of `ca` to
`MAX_PATH_LENGTH - 1` bytes, which is the path of `c`, so the snapshot that
`buildInitialFileList` produces has two entries with the same path; and so has the table
after `checkForDirectoryChanges` on the empty snapshot, whose paths are distinct. -/
theorem buildInitialFileList_repeats_path :
    longRoot.length = 509
      ∧ (twoFilesFs longRoot).readdir longRoot = some [[46], [46, 46], [99], [99, 97]]
      ∧ (twoFilesFs longRoot).stat (childPath longRoot [99])
          = some (FileStat.mk true false 1)
      ∧ (twoFilesFs longRoot).stat (childPath longRoot [99, 97])
          = some (FileStat.mk true false 2)
      ∧ childPath longRoot [99] ≠ childPath longRoot [99, 97]
      ∧ buildInitialFileList (twoFilesFs longRoot) longRoot []
          = (1, [MonitoredFile.mk (childPath longRoot [99]) 1,
                 MonitoredFile.mk (childPath longRoot [99]) 1])
      ∧ ¬ ((buildInitialFileList (twoFilesFs longRoot) longRoot []).2.map
            MonitoredFile.filePath).Nodup
      ∧ ¬ ((checkForDirectoryChanges (twoFilesFs longRoot) longRoot []).fileList.map
            MonitoredFile.filePath).Nodup := by
  obtain ⟨h1, h2, h3, h4, h5⟩ := build_repeats_path longRoot longRoot_length []
  refine ⟨longRoot_length, h1, h2, h3, h4, h5, ?_, ?_⟩
  · rw [h5]
    simp
  · rw [poll_repeats_path longRoot longRoot_length]
    simp

/-! ## The loader: a long line that begins with `"regex:"` -/

/-- One turn of the read loop on a `"regex:"` line that fills the line buffer: the 249
bytes read after the marker become a regex signature and the rest of the line stays in the
stream. -/
theorem loadLoop_full_buffer_marked (B tail : List Nat) (acc : List Signature)
    (hlen : B.length = MAX_SIGNATURE_LENGTH - 7)
    (hplain : ∀ b ∈ B, ¬ (b = 0 ∨ b ∈ [13, 10]))
    (hacc : acc.length + 1 < MAX_SIGNATURES) :
    loadLoop (REGEX_MARK ++ B ++ tail) acc = loadLoop tail (acc ++ [Signature.mk B true]) := by
  have hlenA : (REGEX_MARK ++ B).length = MAX_SIGNATURE_LENGTH - 1 := by
    rw [List.length_append, hlen]; rfl
  have hplainA : ∀ b ∈ REGEX_MARK ++ B, ¬ (b = 0 ∨ b ∈ [13, 10]) := by
    intro b hb
    rcases List.mem_append.mp hb with h | h
    · have hm : ∀ c ∈ REGEX_MARK, ¬ (c = 0 ∨ c ∈ [13, 10]) := by decide
      exact hm b h
    · exact hplain b h
  have hneA : REGEX_MARK ++ B ≠ [] := by
    intro e; exact absurd (List.append_eq_nil.mp e).1 (by decide)
  have hne' : REGEX_MARK ++ B ++ tail ≠ [] := by
    intro e; exact hneA (List.append_eq_nil.mp e).1
  have h10 : 10 ∉ REGEX_MARK ++ B := fun h => hplainA 10 h (by decide)
  have hf : fgets (MAX_SIGNATURE_LENGTH - 1) (REGEX_MARK ++ B ++ tail)
      = (REGEX_MARK ++ B, tail) := by
    rw [← hlenA]; exact fgets_full _ tail h10
  have hdrop : (REGEX_MARK ++ B).drop 6 = B := List.drop_left REGEX_MARK B
  have hp : parseLine (REGEX_MARK ++ B ++ [0]) = some (Signature.mk B true) := by
    rw [parseLine_text _ [] 0 hplainA hneA (by rw [hlenA]; decide) (by decide),
      if_pos (List.prefix_append _ _), hdrop]
  rw [loadLoop, dif_neg hne', hf]
  simp only [hp]
  rw [if_neg]
  simp only [List.length_append, List.length_singleton]
  omega

/-- A `"regex:"` line of 256 bytes that ends in `'*'`, read alone: its one line gives a
regex signature without the last byte and a second signature, the wildcard `"*"`. -/
theorem loadSignatures_long_marked_line (B : List Nat)
    (hlen : B.length = MAX_SIGNATURE_LENGTH - 7)
    (hplain : ∀ b ∈ B, ¬ (b = 0 ∨ b ∈ [13, 10])) :
    nonEmptyLines (REGEX_MARK ++ B ++ [42]) = [REGEX_MARK ++ B ++ [42]]
      ∧ loadSignaturesFromFile (some (REGEX_MARK ++ B ++ [42])) []
          = (1, [Signature.mk B true, Signature.mk [42] false]) := by
  constructor
  · have h10 : 10 ∉ REGEX_MARK ++ B ++ [42] := by
      intro h
      rcases List.mem_append.mp h with h | h
      · rcases List.mem_append.mp h with h | h
        · exact absurd h (by decide)
        · exact hplain 10 h (by decide)
      · exact absurd h (by decide)
    have hne : REGEX_MARK ++ B ++ [42] ≠ [] := by
      intro e; exact absurd (List.append_eq_nil.mp e).2 (by decide)
    have htext : lineText (REGEX_MARK ++ B ++ [42]) ≠ [] := by
      rw [REGEX_MARK, List.append_assoc, List.cons_append, lineText, if_neg (by decide)]
      exact List.cons_ne_nil _ _
    unfold nonEmptyLines
    rw [splitLines_last _ h10 hne, List.filter_cons, if_pos (decide_eq_true htext),
      List.filter_nil]
  · have hs : signaturesOfLines [42] = [Signature.mk [42] false] := by decide
    simp only [loadSignaturesFromFile]
    rw [loadLoop_full_buffer_marked B [42] [] hlen hplain (by decide),
      loadLoop_eq [42] _ (by decide) (by simp [MAX_SIGNATURES]), hs]
    rfl

/-- Claim C8, at the failing input: the source is one line of 256 bytes, `"regex:"`
followed by 249 bytes `a` and a `'*'`. The line is non-empty and begins with `"regex:"`,
so one regex signature with the 250 bytes after the marker is due. The loader stores two
signatures: a regex signature with only the 249 bytes `a`, and the rest of the line as a
signature of its own, `"*"`, to which `scanFile` applies the wildcard matcher, which
accepts every window. -/
theorem loadSignatures_splits_regex_line (re : List Nat → Option (List Nat → Bool)) :
    REGEX_MARK <+: REGEX_MARK ++ List.replicate 249 97 ++ [42]
      ∧ (REGEX_MARK ++ List.replicate 249 97 ++ [42]).length = MAX_SIGNATURE_LENGTH
      ∧ nonEmptyLines (REGEX_MARK ++ List.replicate 249 97 ++ [42])
          = [REGEX_MARK ++ List.replicate 249 97 ++ [42]]
      ∧ loadSignaturesFromFile (some (REGEX_MARK ++ List.replicate 249 97 ++ [42])) []
          = (1, [Signature.mk (List.replicate 249 97) true, Signature.mk [42] false])
      ∧ Signature.mk (List.replicate 249 97 ++ [42]) true
          ∉ (loadSignaturesFromFile
              (some (REGEX_MARK ++ List.replicate 249 97 ++ [42])) []).2
      ∧ ∀ w, matchFound re (Signature.mk [42] false) w = true := by
  have h := loadSignatures_long_marked_line (List.replicate 249 97)
    (List.length_replicate _ _) (fun _ hb => mem_replicate_plain hb)
  refine ⟨?_, ?_, h.1, h.2, ?_, ?_⟩
  · rw [List.append_assoc]; exact List.prefix_append _ _
  · rw [List.length_append, List.length_append, List.length_replicate]; rfl
  · rw [h.2]
    intro hmem
    rcases List.mem_cons.mp hmem with e | hmem
    · have hl : (List.replicate 249 97 ++ [42]).length = (List.replicate 249 97).length :=
        congrArg (fun s => s.signatureText.length) e
      rw [List.length_append, List.length_replicate] at hl
      exact absurd hl (by decide)
    · rcases List.mem_cons.mp hmem with e | hmem
      · exact absurd (congrArg Signature.isRegex e) (by decide)
      · exact absurd hmem (List.not_mem_nil _)
  · intro w
    have hc : cstr [42] = [42] := by decide
    have hw : matchFound re (Signature.mk [42] false) w = matchWildcard w [42] := by
      simp [matchFound, strchr, hc]
    rw [hw]
    exact matchWildcard_star w

end OpenMalScan
